import Mathlib

/-! Verification development for `golang-exercises`.

Two Go Tour exercises are embedded:

* `gotour/equivalent-trees/exercise-equivalent-binary-trees.go`
  (`Walk`, `Same`);
* `gotour/web-crawler/exercise-web-crawler.go`
  (`SeenUrls`, `doCrawl`, `Crawl`, `fakeFetcher`, `fetcher`).

The tree exercise: a channel is the queue of values sent and not yet received,
together with the `closed` flag; both walkers have finished before the receive
loop of `Same` starts.

The crawler is embedded twice. `Worker`, `Sys.step` and `Sys.run` are the
goroutines of `doCrawl` under an arbitrary schedule: every interleaving of the
calls of `Fetch`, `isSeen` and `seen`, of the sends on the unbuffered channels
and of the returns is a schedule, and the theorems on them hold for every
schedule. The functions `doCrawl` and `relay` compute the one run in which
every sub-crawl has returned before the next one takes its first step; they
are used where that run is all there is: on the paths of `doCrawl` that return
before a sub-crawl is started, and on the fixed `fetcher` of `main`.
-/

namespace GoTour

/-! ## Equivalent binary trees -/

/-- A `*tree.Tree`: `nil` is the nil pointer, `node` a struct with fields
`Left`, `Value`, `Right`. -/
inductive Tree where
  | nil : Tree
  | node (Left : Tree) (Value : Int) (Right : Tree) : Tree
  deriving DecidableEq, Repr

/-- A `chan T`: the values sent and not yet received, oldest first, and
whether `close` has been called. -/
structure Chan (α : Type) where
  queue : List α
  closed : Bool
  deriving DecidableEq, Repr

/-- The channel returned by `make(chan T)` or `make(chan T, 1)`. -/
def Chan.make {α : Type} : Chan α := ⟨[], false⟩

/-- The statement `ch <- v`. -/
def Chan.send {α : Type} (ch : Chan α) (v : α) : Chan α := ⟨ch.queue ++ [v], ch.closed⟩

/-- The statement `close(ch)`. -/
def Chan.close {α : Type} (ch : Chan α) : Chan α := ⟨ch.queue, true⟩

/-- The expression `v, ok := <-ch` once the producer has finished: a queued
value is received with `ok = true`; an empty closed channel yields
`(0, false)`; an empty channel that was never closed blocks forever
(`none`). -/
def Chan.recv (ch : Chan Int) : Option (Int × Bool × Chan Int) :=
  match ch.queue with
  | v :: rest => some (v, true, ⟨rest, ch.closed⟩)
  | [] => if ch.closed then some (0, false, ch) else none

/-- The closure `walk` inside `Walk`: left subtree, then `ch <- t.Value`, then
right subtree. -/
def walk : Tree → Chan Int → Chan Int
  | Tree.nil, ch => ch
  | Tree.node l v r, ch => walk r ((walk l ch).send v)

/-- The function `Walk(t, ch)`: runs `walk(t)` and then `close(ch)`. -/
def Walk (t : Tree) (ch : Chan Int) : Chan Int := (walk t ch).close

/-- The `for` loop of `Same`: receive one value from each channel, return
`false` when `ok1 != ok2`, return `false` when `v1 != v2`, leave the loop (and
return `true`) when `!ok1`. The loop runs at most `fuel` iterations. -/
def sameLoop : Nat → Chan Int → Chan Int → Option Bool
  | 0, _, _ => none
  | fuel + 1, ch1, ch2 =>
    match ch1.recv with
    | none => none
    | some (v1, ok1, ch1') =>
      match ch2.recv with
      | none => none
      | some (v2, ok2, ch2') =>
        if ok1 != ok2 then some false
        else if v1 != v2 then some false
        else if !ok1 then some true
        else sameLoop fuel ch1' ch2'

/-- Number of nodes of a tree. -/
def Tree.size : Tree → Nat
  | Tree.nil => 0
  | Tree.node l _ r => l.size + 1 + r.size

/-- The function `Same(t1, t2)`: both walkers fill their channels, then the
receive loop runs. The loop is given one iteration per node of `t1` plus the
final one that observes the closed channel. -/
def Same (t1 t2 : Tree) : Option Bool :=
  sameLoop (t1.size + 1) (Walk t1 Chan.make) (Walk t2 Chan.make)

/-- In-order value sequence as the specification words it: all values of the
left subtree, then the node's value, then all values of the right subtree. -/
def inorder : Tree → List Int
  | Tree.nil => []
  | Tree.node l v r => inorder l ++ [v] ++ inorder r

/-- The multiset of node values of a tree. -/
def Tree.values : Tree → Multiset Int
  | Tree.nil => 0
  | Tree.node l v r => v ::ₘ (l.values + r.values)

/-! ## Web crawler -/

/-- The interface `Fetcher`: `Fetch(url)` returns `(body, urls)` or an
error. -/
abbrev Fetcher := String → Except String (String × List String)

/-- The struct `SeenUrls`: the map `urls`, read as Go reads a
`map[string]bool` (a missing key reads `false`). The mutex has no content in
a sequential run. -/
structure SeenUrls where
  urls : String → Bool

/-- The value `SeenUrls{urls: make(map[string]bool)}` built in `main`. -/
def SeenUrls.fresh : SeenUrls := ⟨fun _ => false⟩

/-- The method `seen`: `u.urls[url] = true`. -/
def SeenUrls.seen (u : SeenUrls) (url : String) : SeenUrls :=
  ⟨fun k => if k = url then true else u.urls k⟩

/-- The method `isSeen`: `return u.urls[url]`. -/
def SeenUrls.isSeen (u : SeenUrls) (url : String) : Bool := u.urls url

/-- The state a crawl works on: the global `seenUrls` and the list of URLs
`Fetch` has been called with, oldest first. -/
structure World where
  seenUrls : SeenUrls
  fetched : List String

/-- The state `main` starts the crawl in. -/
def World.fresh : World := ⟨SeenUrls.fresh, []⟩

/-- The two loops at the end of `doCrawl` in the run in which sub-crawl `i` has
returned before sub-crawl `i+1` takes its first step: one sub-crawl per link,
each on a channel of its own, and every value of sub-crawl `i` relayed onto
`ch` before the values of sub-crawl `i+1`. The `closed` flag of the channel of
a sub-crawl is not read here: in this run the sub-crawl has returned, and
every return of `doCrawl` closes its channel. Other runs of the same loops,
with the wait for `close`, are schedules of `Sys.run`. -/
def relay (sub : String → Chan String → World → Chan String × World) :
    List String → Chan String → World → Chan String × World
  | [], ch, w => (ch, w)
  | u :: us, ch, w =>
    let r := sub u Chan.make w
    relay sub us ⟨ch.queue ++ r.1.queue, ch.closed⟩ r.2

/-- The function `doCrawl(url, depth, fetcher, ch)`; every return path closes
`ch` (`defer close(ch)`). -/
def doCrawl (url : String) (depth : Int) (fetcher : Fetcher) (ch : Chan String)
    (w : World) : Chan String × World :=
  if _h : depth ≤ 0 then (ch.close, w)
  else
    let w1 : World := ⟨w.seenUrls, w.fetched ++ [url]⟩
    match fetcher url with
    | Except.error _ => (ch.close, w1)
    | Except.ok (_, urls) =>
      if w1.seenUrls.isSeen url then (ch.close, w1)
      else
        let w2 : World := ⟨w1.seenUrls.seen url, w1.fetched⟩
        let r := relay (fun u c w' => doCrawl u (depth - 1) fetcher c w') urls (ch.send url) w2
        (r.1.close, r.2)
termination_by depth.toNat
decreasing_by omega

/-- The function `Crawl`. -/
def Crawl (url : String) (depth : Int) (fetcher : Fetcher) (ch : Chan String)
    (w : World) : Chan String × World :=
  doCrawl url depth fetcher ch w

/-- The URLs a crawl sends on a channel made for it, in order. -/
def emitted (url : String) (depth : Int) (fetcher : Fetcher) (w : World) : List String :=
  (Crawl url depth fetcher Chan.make w).1.queue

/-- The state a crawl on a channel made for it leaves behind. -/
def after (url : String) (depth : Int) (fetcher : Fetcher) (w : World) : World :=
  (Crawl url depth fetcher Chan.make w).2

/-- The URLs the sub-crawls of the links `us` send, in relay order. -/
def subOut (depth : Int) (fetcher : Fetcher) (us : List String) (w : World) : List String :=
  (relay (fun u c w' => doCrawl u depth fetcher c w') us Chan.make w).1.queue

/-- The state the sub-crawls of the links `us` leave behind. -/
def subWorld (depth : Int) (fetcher : Fetcher) (us : List String) (w : World) : World :=
  (relay (fun u c w' => doCrawl u depth fetcher c w') us Chan.make w).2

/-- The outbound links `Fetch` returns for a page; none when the fetch
fails. -/
def links (fetcher : Fetcher) (url : String) : List String :=
  match fetcher url with
  | Except.ok (_, urls) => urls
  | Except.error _ => []

/-- Whether `Fetch(url)` returns without error. -/
def fetchOk (fetcher : Fetcher) (url : String) : Bool :=
  match fetcher url with
  | Except.ok _ => true
  | Except.error _ => false

/-- The URLs reachable from `url` by following at most `k` outbound links of
successfully fetched pages, every path listed. -/
def reach (fetcher : Fetcher) : Nat → String → List String
  | 0, url => [url]
  | k + 1, url => url :: (links fetcher url).flatMap (reach fetcher k)

/-- The fetcher that answers as `fetcher` does, with the links whose fetch
fails under `fetcher` deleted from every link list. -/
def pruneFailed (fetcher : Fetcher) : Fetcher := fun url =>
  match fetcher url with
  | Except.ok (body, urls) => Except.ok (body, urls.filter (fun u => fetchOk fetcher u))
  | Except.error e => Except.error e

/-- The URLs a crawl calls `Fetch` with, oldest first: what it appends to the
list of calls. -/
def calls (url : String) (depth : Int) (fetcher : Fetcher) (w : World) : List String :=
  (after url depth fetcher w).fetched.drop w.fetched.length

/-- The struct `fakeResult`. -/
structure fakeResult where
  body : String
  urls : List String

/-- The type `fakeFetcher`, a map from URL to result, as its list of
entries. -/
abbrev fakeFetcher := List (String × fakeResult)

/-- The method `fakeFetcher.Fetch`. -/
def fakeFetcher.Fetch (f : fakeFetcher) : Fetcher := fun url =>
  match f.lookup url with
  | some res => Except.ok (res.body, res.urls)
  | none => Except.error ("not found: " ++ url)

/-- The variable `fetcher`, the populated `fakeFetcher`. -/
def fetcher : fakeFetcher :=
  [ ("http://golang.org/",
      ⟨"The Go Programming Language",
       ["http://golang.org/pkg/", "http://golang.org/cmd/"]⟩),
    ("http://golang.org/pkg/",
      ⟨"Packages",
       ["http://golang.org/", "http://golang.org/cmd/",
        "http://golang.org/pkg/fmt/", "http://golang.org/pkg/os/"]⟩),
    ("http://golang.org/pkg/fmt/",
      ⟨"Package fmt", ["http://golang.org/", "http://golang.org/pkg/"]⟩),
    ("http://golang.org/pkg/os/",
      ⟨"Package os", ["http://golang.org/", "http://golang.org/pkg/"]⟩) ]

/-- A fetcher for a link graph with a shortcut: `r` links to `a` and `b`, `a`
links to `b`, `b` links to `c`; so `b` is one link away from `r` and also two
links away through `a`. -/
def shortcut : fakeFetcher :=
  [ ("r", ⟨"", ["a", "b"]⟩), ("a", ⟨"", ["b"]⟩), ("b", ⟨"", ["c"]⟩), ("c", ⟨"", []⟩) ]

/-- The lines `main` prints: the URLs received from the channel of
`Crawl("http://golang.org/", 4, fetcher, ch)` started on a fresh
`seenUrls`. -/
def main : List String :=
  emitted "http://golang.org/" 4 fetcher.Fetch World.fresh

/-- The sub-crawls one call of `doCrawl` starts, as `(url, depth)` pairs in
the order of the `go doCrawl(u, depth-1, fetcher, channels[i])` statements:
one per outbound link, and only when none of the three `return`s before the
loop was taken. -/
def spawned (url : String) (depth : Int) (fetcher : Fetcher) (w : World) :
    List (String × Int) :=
  if depth ≤ 0 then []
  else
    match fetcher url with
    | Except.error _ => []
    | Except.ok (_, urls) =>
      if w.seenUrls.isSeen url then []
      else urls.map (fun u => (u, depth - 1))

/-! ## Two workers on the shared visited set -/

/-- Where a worker stands in `doCrawl` once its fetch has succeeded: before
`seenUrls.isSeen(url)`, before `seenUrls.seen(url)`, before `ch <- url`, or
returned. Each of the three statements is one atomic step: the mutex is held
for the length of one method call. -/
inductive Pc where
  | atIsSeen : Pc
  | atSeen : Pc
  | atSend : Pc
  | returned : Pc
  deriving DecidableEq, Repr

/-- Two workers crawling the same URL: the shared `seenUrls`, the place each
worker stands at, and the URLs sent so far. -/
structure Workers where
  seenUrls : SeenUrls
  pc1 : Pc
  pc2 : Pc
  out : List String

/-- Both workers about to check the URL, on the given visited set. -/
def Workers.start (s : SeenUrls) : Workers := ⟨s, Pc.atIsSeen, Pc.atIsSeen, []⟩

/-- One atomic step of a worker standing at `pc`: the check (`return` when
the URL is seen), the marking, or the send. -/
def Pc.step (url : String) (pc : Pc) (s : SeenUrls) (out : List String) :
    Pc × SeenUrls × List String :=
  match pc with
  | Pc.atIsSeen => if s.isSeen url then (Pc.returned, s, out) else (Pc.atSeen, s, out)
  | Pc.atSeen => (Pc.atSend, s.seen url, out)
  | Pc.atSend => (Pc.returned, s, out ++ [url])
  | Pc.returned => (Pc.returned, s, out)

/-- The scheduler lets one worker take its next step: the first worker when
`first` is `true`, the second otherwise. -/
def Workers.step (url : String) (first : Bool) (x : Workers) : Workers :=
  if first then
    let r := x.pc1.step url x.seenUrls x.out
    ⟨r.2.1, r.1, x.pc2, r.2.2⟩
  else
    let r := x.pc2.step url x.seenUrls x.out
    ⟨r.2.1, x.pc1, r.1, r.2.2⟩

/-- The workers run under a schedule, the list of who steps next. -/
def Workers.run (url : String) : List Bool → Workers → Workers
  | [], x => x
  | b :: bs, x => Workers.run url bs (x.step url b)

/-! ## The crawl as concurrently running workers

Every call of `doCrawl` is a worker, a goroutine. A worker takes one step at a
time and a schedule says which worker steps next, so that every interleaving
of the goroutines is a schedule. The steps are the statements that touch what
the goroutines share: the call of `Fetch`, `seenUrls.isSeen`, `seenUrls.seen`
(each holds the mutex for the length of the call), a send on the unbuffered
channel (which waits for the receiver), the start of the sub-crawls, the receive
in `range channels[i]` (which waits for a value or for `close`), and the
return, where the deferred `close(ch)` runs. -/

/-- Where a worker, one call of `doCrawl`, stands: before the depth test and
`Fetch`; before `seenUrls.isSeen(url)`; before `seenUrls.seen(url)`; before
`ch <- url`; before the loop that starts the sub-crawls; in
`for u := range channels[i]`, waiting to receive; before `ch <- u` with the
value `u` received from `channels[i]`; returned, its channel closed. -/
inductive Stage where
  | atFetch : Stage
  | atIsSeen : Stage
  | atSeen : Stage
  | atSend : Stage
  | atSpawn : Stage
  | atRange (i : Nat) : Stage
  | atRelay (i : Nat) (u : String) : Stage
  | returned : Stage
  deriving DecidableEq, Repr

/-- The local state of one call of `doCrawl`: its arguments `url` and `depth`,
where it stands, the `urls` that `Fetch` returned, and the values it has sent
on its channel `ch` so far. -/
structure Frame where
  url : String
  depth : Int
  stage : Stage
  urls : List String
  sent : List String
  deriving DecidableEq, Repr

/-- The frame moved to another stage. -/
def Frame.goto (fr : Frame) (st : Stage) : Frame := ⟨fr.url, fr.depth, st, fr.urls, fr.sent⟩

/-- The frame after a send of `v` on its channel, moved to stage `st`. -/
def Frame.push (fr : Frame) (v : String) (st : Stage) : Frame :=
  ⟨fr.url, fr.depth, st, fr.urls, fr.sent ++ [v]⟩

/-- A worker with the workers it started, in the order of `channels`. -/
inductive Worker where
  | mk (fr : Frame) (kids : List Worker) : Worker

/-- The frame of a worker. -/
def Worker.fr : Worker → Frame
  | Worker.mk fr _ => fr

/-- The workers a worker started. -/
def Worker.kids : Worker → List Worker
  | Worker.mk _ kids => kids

/-- The worker `go doCrawl(url, depth, fetcher, ch)` starts. -/
def Worker.fresh (url : String) (depth : Int) : Worker :=
  Worker.mk ⟨url, depth, Stage.atFetch, [], []⟩ []

/-- The next step of a worker itself. `ready` says whether the receiver of its
channel is receiving from it. The result is the worker, the world, and the
value handed to the receiver when the step was a send.

* `atFetch`: `if depth <= 0 { return }`, then `fetcher.Fetch(url)`, and
  `return` on an error;
* `atIsSeen`: `if seenUrls.isSeen(url) { return }`;
* `atSeen`: `seenUrls.seen(url)`;
* `atSend`: `ch <- url`, which waits until the receiver is ready;
* `atSpawn`: one `go doCrawl(u, depth-1, fetcher, channels[i])` per link;
* `atRange i`: when `channels[i]` is closed go on to `channels[i+1]`, after the
  last channel `return`; receiving a value is the step of the sender;
* `atRelay i u`: `ch <- u`, which waits until the receiver is ready. -/
def Worker.act (f : Fetcher) (ready : Bool) (fr : Frame) (kids : List Worker) (w : World) :
    Worker × World × Option String :=
  match fr.stage with
  | Stage.atFetch =>
    if fr.depth ≤ 0 then (Worker.mk (fr.goto Stage.returned) kids, w, none)
    else
      match f fr.url with
      | Except.error _ =>
        (Worker.mk (fr.goto Stage.returned) kids, ⟨w.seenUrls, w.fetched ++ [fr.url]⟩, none)
      | Except.ok (_, urls) =>
        (Worker.mk ⟨fr.url, fr.depth, Stage.atIsSeen, urls, fr.sent⟩ kids,
          ⟨w.seenUrls, w.fetched ++ [fr.url]⟩, none)
  | Stage.atIsSeen =>
    if w.seenUrls.isSeen fr.url then (Worker.mk (fr.goto Stage.returned) kids, w, none)
    else (Worker.mk (fr.goto Stage.atSeen) kids, w, none)
  | Stage.atSeen =>
    (Worker.mk (fr.goto Stage.atSend) kids, ⟨w.seenUrls.seen fr.url, w.fetched⟩, none)
  | Stage.atSend =>
    if ready then (Worker.mk (fr.push fr.url Stage.atSpawn) kids, w, some fr.url)
    else (Worker.mk fr kids, w, none)
  | Stage.atSpawn =>
    (Worker.mk (fr.goto (Stage.atRange 0))
      (fr.urls.map (fun u => Worker.fresh u (fr.depth - 1))), w, none)
  | Stage.atRange i =>
    match kids[i]? with
    | none => (Worker.mk (fr.goto Stage.returned) kids, w, none)
    | some k =>
      if k.fr.stage = Stage.returned then
        (Worker.mk (fr.goto (Stage.atRange (i + 1))) kids, w, none)
      else (Worker.mk fr kids, w, none)
  | Stage.atRelay i u =>
    if ready then (Worker.mk (fr.push u (Stage.atRange i)) kids, w, some u)
    else (Worker.mk fr kids, w, none)
  | Stage.returned => (Worker.mk fr kids, w, none)

/-- The step of the worker at the end of the path `p` below `x`: `i :: p` leads
through the `i`-th worker `x` started. A worker is ready to receive from its
`i`-th kid exactly when it stands at `atRange i`; when the kid hands it a value
it moves to `atRelay i`. -/
def Worker.step (f : Fetcher) : List Nat → Bool → Worker → World →
    Worker × World × Option String
  | [], ready, Worker.mk fr kids, w => Worker.act f ready fr kids w
  | i :: p, _, Worker.mk fr kids, w =>
    match kids[i]? with
    | none => (Worker.mk fr kids, w, none)
    | some k =>
      let r := Worker.step f p (decide (fr.stage = Stage.atRange i)) k w
      match r.2.2 with
      | none => (Worker.mk fr (kids.set i r.1), r.2.1, none)
      | some v => (Worker.mk (fr.goto (Stage.atRelay i v)) (kids.set i r.1), r.2.1, none)

/-- The state of a running crawl: the worker `go Crawl(url, depth, fetcher, ch)`
of `main` with all the workers below it, and what the goroutines share. -/
structure Sys where
  root : Worker
  world : World

/-- The crawl before its first step. -/
def Sys.init (url : String) (depth : Int) (w : World) : Sys := ⟨Worker.fresh url depth, w⟩

/-- The worker at path `p` takes its next step. `main` is always ready to
receive: `for url := range ch`. -/
def Sys.step (f : Fetcher) (s : Sys) (p : List Nat) : Sys :=
  ⟨(s.root.step f p true s.world).1, (s.root.step f p true s.world).2.1⟩

/-- The crawl run under a schedule, the list of the workers that step, in
order. -/
def Sys.run (f : Fetcher) (sched : List (List Nat)) (s : Sys) : Sys :=
  sched.foldl (Sys.step f) s

/-- Whether the crawl has ended: the first worker has returned and its channel
is closed, which ends the `range` loop of `main`. -/
def Sys.finished (s : Sys) : Bool := decide (s.root.fr.stage = Stage.returned)

/-- The URLs `main` has received, in order: what the first worker has sent. -/
def Sys.out (s : Sys) : List String := s.root.fr.sent

/-- A fetcher whose first page lists the same link twice. -/
def twice : fakeFetcher := [("r", ⟨"", ["b", "b"]⟩), ("b", ⟨"", []⟩)]

/-- A run of the crawl of `r` at depth 2 under `twice` in which the two workers
for `b` alternate. -/
def twiceRace : List (List Nat) :=
  [[], [], [], [], [], [1], [0], [1], [0], [1], [0], [0], [], [0], [0], [], [1], [],
   [1], [1], [], []]

/-- A fetcher for a link graph with a detour: `x` is two links from `r` through
`z` and three links from `r` through `y` and `m`, and `y` is listed before
`z`. -/
def detour : fakeFetcher :=
  [ ("r", ⟨"", ["y", "z"]⟩), ("y", ⟨"", ["m"]⟩), ("m", ⟨"", ["x"]⟩), ("z", ⟨"", ["x"]⟩),
    ("x", ⟨"", ["t"]⟩), ("t", ⟨"", []⟩) ]

/-- A run to the end of the crawl of `r` at depth 4 under `detour` in which
every worker steps as soon as it can, later links first. -/
def detourEager : List (List Nat) :=
  [[], [], [], [], [], [1], [0], [1], [0], [1], [0], [0], [], [0], [0, 0], [0, 0], [0, 0],
   [0, 0], [0], [], [0, 0], [0, 0, 0], [0, 0, 0], [0, 0, 0], [0, 0, 0], [0, 0], [0], [],
   [0, 0, 0], [0, 0, 0, 0], [0, 0, 0], [0, 0, 0], [0, 0], [0, 0], [0], [0], [], [1], [],
   [1], [1, 0], [1, 0], [1], [1], [], []]

/-- A run to the end of the same crawl in which the worker for `z` does not
step before the worker for `y` has returned. -/
def detourLate : List (List Nat) :=
  [[], [], [], [], [], [0], [0], [0], [0], [], [0], [0, 0], [0, 0], [0, 0], [0, 0], [0],
   [], [0, 0], [0, 0, 0], [0, 0, 0], [0, 0, 0], [0, 0, 0], [0, 0], [0], [], [0, 0, 0],
   [0, 0, 0, 0], [0, 0, 0], [0, 0, 0], [0, 0], [0, 0], [0], [0], [], [1], [1], [1], [1],
   [], [1], [1, 0], [1, 0], [1], [1], [], []]

/-- A run to the end of the crawl `main` starts. -/
def mainRun : List (List Nat) :=
  [[], [], [], [], [], [0], [0], [0], [0], [], [0], [0, 0], [0, 0], [0], [0, 1], [0],
   [0, 2], [0, 2], [0, 2], [0, 2], [0], [], [0, 2], [0, 2, 0], [0, 2, 0], [0, 2],
   [0, 2, 1], [0, 2, 1], [0, 2], [0, 2], [0], [0, 3], [0, 3], [0, 3], [0, 3], [0], [],
   [0, 3], [0, 3, 0], [0, 3, 0], [0, 3], [0, 3, 1], [0, 3, 1], [0, 3], [0, 3], [0], [0],
   [], [1], [], []]

/-- Under `detour`: the worker for `x` that the worker for `z` started, if there
is one, finds `x` visited: it stands before its check or has returned, and has
sent nothing and started nothing. -/
def Late (s : Sys) : Prop :=
  ∀ kz kx, s.root.kids[1]? = some kz → kz.kids[0]? = some kx →
    s.world.seenUrls.isSeen "x" = true ∧ kx.fr.url = "x" ∧ kx.fr.sent = [] ∧ kx.kids = [] ∧
      (kx.fr.stage = Stage.atFetch ∨ kx.fr.stage = Stage.atIsSeen ∨
        kx.fr.stage = Stage.returned)

/-! ## What holds of every reachable state of the workers -/

/-- The frame has fetched its page with a positive depth and holds the links. -/
def Frame.Fetched (f : Fetcher) (fr : Frame) : Prop :=
  0 < fr.depth ∧ fetchOk f fr.url = true ∧ fr.urls = links f fr.url

/-- The workers `kids` are one per link of the frame, in order, at depth one less. -/
def KidsOk (fr : Frame) (kids : List Worker) : Prop :=
  kids.map (fun k => (k.fr.url, k.fr.depth)) = fr.urls.map (fun u => (u, fr.depth - 1))

/-- The frame's URL was not visited in `w0` and is visited in `w`. -/
def Frame.Marked (w0 w : World) (fr : Frame) : Prop :=
  w0.seenUrls.isSeen fr.url = false ∧ w.seenUrls.isSeen fr.url = true

/-- What holds of a worker standing at stage `st`. -/
def LocalAt (f : Fetcher) (w0 w : World) (fr : Frame) (kids : List Worker) : Stage → Prop
  | Stage.atFetch => kids = [] ∧ fr.sent = []
  | Stage.atIsSeen => kids = [] ∧ fr.sent = [] ∧ fr.Fetched f
  | Stage.atSeen =>
      kids = [] ∧ fr.sent = [] ∧ fr.Fetched f ∧ w0.seenUrls.isSeen fr.url = false
  | Stage.atSend => kids = [] ∧ fr.sent = [] ∧ fr.Fetched f ∧ fr.Marked w0 w
  | Stage.atSpawn => kids = [] ∧ fr.sent = [fr.url] ∧ fr.Fetched f ∧ fr.Marked w0 w
  | Stage.atRange i =>
      KidsOk fr kids ∧ fr.Fetched f ∧ fr.Marked w0 w ∧
      fr.sent = fr.url :: kids.flatMap (fun k => k.fr.sent) ∧
      (∀ j k, j < i → kids[j]? = some k → k.fr.stage = Stage.returned) ∧
      (∀ j k, i < j → kids[j]? = some k → k.fr.sent = [])
  | Stage.atRelay i v =>
      KidsOk fr kids ∧ fr.Fetched f ∧ fr.Marked w0 w ∧
      fr.sent ++ [v] = fr.url :: kids.flatMap (fun k => k.fr.sent) ∧
      (∀ j k, j < i → kids[j]? = some k → k.fr.stage = Stage.returned) ∧
      (∀ j k, i < j → kids[j]? = some k → k.fr.sent = [])
  | Stage.returned =>
      (kids = [] ∧ fr.sent = [] ∧
        (0 < fr.depth → fetchOk f fr.url = true → w.seenUrls.isSeen fr.url = true)) ∨
      (KidsOk fr kids ∧ fr.Fetched f ∧ fr.Marked w0 w ∧
        fr.sent = fr.url :: kids.flatMap (fun k => k.fr.sent) ∧
        ∀ k, k ∈ kids → k.fr.stage = Stage.returned)

/-- The invariant of the workers: `LocalAt` at every worker of the tree. -/
inductive Inv (f : Fetcher) (w0 w : World) : Worker → Prop where
  | mk (fr : Frame) (kids : List Worker) :
      LocalAt f w0 w fr kids fr.stage → (∀ k, k ∈ kids → Inv f w0 w k) →
      Inv f w0 w (Worker.mk fr kids)

/-- Some worker of the tree crawls `k`, has marked it and is past the check: it
stands at its send, or has sent already. -/
inductive Owner : Worker → String → Prop where
  | self (fr : Frame) (kids : List Worker) :
      (fr.stage = Stage.atSend ∨ fr.sent ≠ []) → Owner (Worker.mk fr kids) fr.url
  | kid (fr : Frame) (kids : List Worker) (j : Nat) (c : Worker) (k : String) :
      kids[j]? = some c → Owner c k → Owner (Worker.mk fr kids) k

/-- What holds of every state of a crawl of `url` at `depth` started in the
world `w0`. -/
structure Good (f : Fetcher) (url : String) (depth : Int) (w0 : World) (s : Sys) : Prop where
  grow : ∀ k, w0.seenUrls.isSeen k = true → s.world.seenUrls.isSeen k = true
  inv : Inv f w0 s.world s.root
  own : ∀ k, s.world.seenUrls.isSeen k = true → w0.seenUrls.isSeen k = true ∨ Owner s.root k
  url : s.root.fr.url = url
  depth : s.root.fr.depth = depth

mutual
/-- The number of workers of the tree that crawl `u` and have called `Fetch`. -/
def Worker.fetches (u : String) : Worker → Nat
  | Worker.mk fr kids =>
    (if fr.url = u ∧ fr.stage ≠ Stage.atFetch ∧ 0 < fr.depth then 1 else 0) + fetchesAll u kids
/-- The sum of `Worker.fetches` over a list of workers. -/
def fetchesAll (u : String) : List Worker → Nat
  | [] => 0
  | k :: ks => k.fetches u + fetchesAll u ks
end

/-- The URLs `Fetch` was called with since the world `w0`. -/
def Sys.calls (w0 : World) (s : Sys) : List String :=
  s.world.fetched.drop w0.fetched.length

/-- The number of steps a crawl that has not started yet can take at most: `n`
is its depth, `l` the number of workers between it and `main`. A send counts
`l + 1`: the value is sent once by this worker and once by each of the `l`
workers that relay it. -/
def cost (f : Fetcher) : Nat → Nat → String → Nat
  | 0, _, _ => 1
  | n + 1, l, u =>
    match f u with
    | Except.error _ => 1
    | Except.ok (_, urls) => 6 + l + (urls.map (fun v => cost f n (l + 1) v + 1)).sum

/-- The steps a worker can still take itself, its kids not counted: `l` is the
number of workers between it and `main`, `n` the number of its kids. -/
def Frame.rest (f : Fetcher) (l : Nat) (fr : Frame) (n : Nat) : Nat :=
  match fr.stage with
  | Stage.atFetch => cost f fr.depth.toNat l fr.url
  | Stage.atIsSeen =>
    5 + l + (fr.urls.map (fun v => cost f (fr.depth - 1).toNat (l + 1) v + 1)).sum
  | Stage.atSeen =>
    4 + l + (fr.urls.map (fun v => cost f (fr.depth - 1).toNat (l + 1) v + 1)).sum
  | Stage.atSend =>
    3 + l + (fr.urls.map (fun v => cost f (fr.depth - 1).toNat (l + 1) v + 1)).sum
  | Stage.atSpawn => 2 + (fr.urls.map (fun v => cost f (fr.depth - 1).toNat (l + 1) v + 1)).sum
  | Stage.atRange i => 1 + (n - i)
  | Stage.atRelay i _ => 1 + (n - i) + (l + 1)
  | Stage.returned => 0

mutual
/-- The steps the workers of a tree can still take. -/
def Worker.work (f : Fetcher) (l : Nat) : Worker → Nat
  | Worker.mk fr kids => fr.rest f l kids.length + workAll f (l + 1) kids
/-- The sum of `Worker.work` over a list of workers. -/
def workAll (f : Fetcher) (l : Nat) : List Worker → Nat
  | [] => 0
  | k :: ks => k.work f l + workAll f l ks
end

/-- Whether a worker can take its own next step: a send needs the receiver, the
range loop needs the channel it reads to be closed (or all channels read). -/
def Worker.enabled (ready : Bool) (fr : Frame) (kids : List Worker) : Bool :=
  match fr.stage with
  | Stage.atSend => ready
  | Stage.atRelay _ _ => ready
  | Stage.atRange i =>
    match kids[i]? with
    | none => true
    | some k => decide (k.fr.stage = Stage.returned)
  | Stage.returned => false
  | _ => true

/-- A step that did something: it used up work, and a send used up the work of
the whole way to `main`. -/
def Eff (f : Fetcher) (l : Nat) (x : Worker) (r : Worker × World × Option String) : Prop :=
  (r.2.2 = none ∧ r.1.work f l < x.work f l) ∨
  (∃ v, r.2.2 = some v ∧ r.1.work f l + (l + 1) ≤ x.work f l)

/-- The steps the workers of a state can still take. -/
def Sys.work (f : Fetcher) (s : Sys) : Nat := s.root.work f 0

/-! ### The crawl with the failing links left out -/

/-- The number of workers among the first `i` of `kids` whose URL fetches. -/
def liveBefore (f : Fetcher) (kids : List Worker) (i : Nat) : Nat :=
  ((kids.take i).filter (fun k => fetchOk f k.fr.url)).length

/-- The stage with the index of the channel read counted among the workers
whose URL fetches. -/
def Stage.shift (f : Fetcher) (kids : List Worker) : Stage → Stage
  | Stage.atRange i => Stage.atRange (liveBefore f kids i)
  | Stage.atRelay i u => Stage.atRelay (liveBefore f kids i) u
  | st => st

/-- The frame as it is under `pruneFailed f`: the links that fail are not among
its `urls`, and the channels of their workers are not counted. -/
def Frame.prune (f : Fetcher) (kids : List Worker) (fr : Frame) : Frame :=
  ⟨fr.url, fr.depth, fr.stage.shift f kids, fr.urls.filter (fun u => fetchOk f u), fr.sent⟩

mutual
/-- The tree of workers with the workers for links that fail left out at every
level: the tree as it is under `pruneFailed f`. -/
def Worker.prune (f : Fetcher) : Worker → Worker
  | Worker.mk fr kids => Worker.mk (fr.prune f kids) (pruneAll f kids)
/-- The workers of a list whose URL fetches, each pruned. -/
def pruneAll (f : Fetcher) : List Worker → List Worker
  | [] => []
  | k :: ks => if fetchOk f k.fr.url then k.prune f :: pruneAll f ks else pruneAll f ks
end

/-- A step at the path `q`, or no step at all. -/
def stepOpt (g : Fetcher) (q : Option (List Nat)) (b : Bool) (y : Worker) (w : World) :
    Worker × World × Option String :=
  match q with
  | none => (y, w, none)
  | some q => Worker.step g q b y w

/-- The steps of a schedule taken one after the other below the worker `x`, the
values handed up left aside. -/
def Worker.runs (f : Fetcher) (b : Bool) : List (List Nat) → Worker → World → Worker × World
  | [], x, w => (x, w)
  | p :: ps, x, w =>
    Worker.runs f b ps (Worker.step f p b x w).1 (Worker.step f p b x w).2.1

/-- No step of the schedule hands a value up. -/
def Quiet (f : Fetcher) (b : Bool) : List (List Nat) → Worker → World → Prop
  | [], _, _ => True
  | p :: ps, x, w =>
    (Worker.step f p b x w).2.2 = none ∧
      Quiet f b ps (Worker.step f p b x w).1 (Worker.step f p b x w).2.1

/-- No worker of the tree waits on the channel of a worker whose URL fails. -/
inductive Norm (f : Fetcher) : Worker → Prop where
  | mk (fr : Frame) (kids : List Worker) :
      (∀ (i : Nat) (c : Worker),
        (fr.stage = Stage.atRange i ∨ ∃ v, fr.stage = Stage.atRelay i v) →
        kids[i]? = some c → fetchOk f c.fr.url = true) →
      (∀ k, k ∈ kids → Norm f k) → Norm f (Worker.mk fr kids)

/-- The state under `pruneFailed f` that answers to a state under `f`. -/
def Pruned (f : Fetcher) (s t : Sys) : Prop :=
  t.root = s.root.prune f ∧ t.world.seenUrls = s.world.seenUrls

/-! ### Lemmas on `Walk` and the receive loop -/

theorem walk_eq (t : Tree) (ch : Chan Int) :
    walk t ch = ⟨ch.queue ++ inorder t, ch.closed⟩ := by
  induction t generalizing ch with
  | nil => simp [walk, inorder]
  | node l v r ihl ihr => simp [walk, inorder, ihl, ihr, Chan.send]

theorem Walk_make (t : Tree) : Walk t Chan.make = ⟨inorder t, true⟩ := by
  simp [Walk, walk_eq, Chan.close, Chan.make]

theorem inorder_length (t : Tree) : (inorder t).length = t.size := by
  induction t with
  | nil => rfl
  | node l v r ihl ihr => simp [inorder, Tree.size, ihl, ihr]; omega

theorem sameLoop_closed (fuel : Nat) (l1 l2 : List Int) (h : l1.length < fuel) :
    sameLoop fuel ⟨l1, true⟩ ⟨l2, true⟩ = some (decide (l1 = l2)) := by
  induction fuel generalizing l1 l2 with
  | zero => omega
  | succ n ih =>
    cases l1 with
    | nil =>
      cases l2 with
      | nil => simp [sameLoop, Chan.recv]
      | cons b l2 => simp [sameLoop, Chan.recv]
    | cons a l1 =>
      cases l2 with
      | nil => simp [sameLoop, Chan.recv]
      | cons b l2 =>
        have hl : l1.length < n := by simp at h; omega
        by_cases hab : a = b
        · subst hab
          simp [sameLoop, Chan.recv, ih l1 l2 hl]
        · simp [sameLoop, Chan.recv, hab]

theorem Same_eq (t1 t2 : Tree) :
    Same t1 t2 = some (decide (inorder t1 = inorder t2)) := by
  unfold Same
  rw [Walk_make, Walk_make]
  exact sameLoop_closed _ _ _ (by rw [inorder_length]; omega)

theorem values_eq_inorder (t : Tree) : t.values = (inorder t : Multiset Int) := by
  induction t with
  | nil => rfl
  | node l v r ihl ihr =>
    simp only [Tree.values, inorder, ihl, ihr]
    rw [← Multiset.coe_add, ← Multiset.coe_add, ← Multiset.cons_coe]
    apply Quotient.sound
    simpa using (@List.perm_middle _ v (inorder l) (inorder r)).symm

/-! ### Claims on the tree exercise -/

/-- C1: `Same(t1, t2)` returns, and it returns `true` if and only if the
in-order value sequences of `t1` and `t2` are equal (same length, same
elements in the same positions); otherwise it returns `false`. -/
theorem C1_Same_iff_inorder_eq (t1 t2 : Tree) :
    (Same t1 t2 = some true ↔ inorder t1 = inorder t2) ∧
    (Same t1 t2 = some false ↔ inorder t1 ≠ inorder t2) := by
  rw [Same_eq]
  constructor <;> simp

/-- C2: the values `Walk(t, ch)` sends on a fresh channel before closing it
are the in-order traversal of `t`; the channel ends closed; the number of
values sent is the number of nodes; for the empty tree nothing is sent. -/
theorem C2_Walk_inorder (t : Tree) :
    (Walk t Chan.make).queue = inorder t ∧
    (Walk t Chan.make).closed = true ∧
    (Walk t Chan.make).queue.length = t.size ∧
    (Walk Tree.nil Chan.make).queue = [] ∧
    (∀ l v r, inorder (Tree.node l v r) = inorder l ++ [v] ++ inorder r) := by
  refine ⟨?_, ?_, ?_, ?_, ?_⟩
  · rw [Walk_make]
  · rw [Walk_make]
  · rw [Walk_make]; exact inorder_length t
  · rfl
  · intro l v r; rfl

/-- C9, the code at a failing input: the trees `1 -> (right) 2` and
`2 -> (right) 1` contain the same values, the multiset `1, 2`, yet `Same`
returns `false`: the receive loop compares the two in-order streams pair by
pair and stops at the first pair, `(1, 2)`. -/
theorem C9_counterexample :
    (Tree.node Tree.nil 1 (Tree.node Tree.nil 2 Tree.nil)).values =
      (Tree.node Tree.nil 2 (Tree.node Tree.nil 1 Tree.nil)).values ∧
    Same (Tree.node Tree.nil 1 (Tree.node Tree.nil 2 Tree.nil))
      (Tree.node Tree.nil 2 (Tree.node Tree.nil 1 Tree.nil)) = some false := by
  constructor
  · decide
  · decide

/-- C10: `Same(t, t)` returns `true` for every tree, the empty one
included. -/
theorem C10_Same_refl (t : Tree) :
    Same t t = some true ∧ Same Tree.nil Tree.nil = some true := by
  constructor
  · rw [Same_eq]; simp
  · rfl

/-! ### Lemmas on the crawler -/

theorem doCrawl_unfold (url : String) (depth : Int) (fetcher : Fetcher)
    (ch : Chan String) (w : World) :
    doCrawl url depth fetcher ch w =
      if depth ≤ 0 then (ch.close, w)
      else
        match fetcher url with
        | Except.error _ => (ch.close, ⟨w.seenUrls, w.fetched ++ [url]⟩)
        | Except.ok (_, urls) =>
          if w.seenUrls.isSeen url then (ch.close, ⟨w.seenUrls, w.fetched ++ [url]⟩)
          else
            ((relay (fun u c w' => doCrawl u (depth - 1) fetcher c w') urls (ch.send url)
                ⟨w.seenUrls.seen url, w.fetched ++ [url]⟩).1.close,
             (relay (fun u c w' => doCrawl u (depth - 1) fetcher c w') urls (ch.send url)
                ⟨w.seenUrls.seen url, w.fetched ++ [url]⟩).2) := by
  rw [doCrawl]
  split
  · rfl
  · split <;> rfl

theorem relay_frame (sub : String → Chan String → World → Chan String × World)
    (us : List String) (ch : Chan String) (w : World) :
    relay sub us ch w =
      (⟨ch.queue ++ (relay sub us Chan.make w).1.queue, ch.closed⟩,
        (relay sub us Chan.make w).2) := by
  induction us generalizing ch w with
  | nil => simp [relay, Chan.make]
  | cons u us ih =>
    simp only [relay]
    rw [ih ⟨ch.queue ++ (sub u Chan.make w).1.queue, ch.closed⟩ (sub u Chan.make w).2,
      ih ⟨(Chan.make : Chan String).queue ++ (sub u Chan.make w).1.queue,
        (Chan.make : Chan String).closed⟩ (sub u Chan.make w).2]
    simp [Chan.make]

theorem subOut_nil (depth : Int) (f : Fetcher) (w : World) : subOut depth f [] w = [] := rfl

theorem subWorld_nil (depth : Int) (f : Fetcher) (w : World) : subWorld depth f [] w = w := rfl

theorem subOut_cons (depth : Int) (f : Fetcher) (u : String) (us : List String) (w : World) :
    subOut depth f (u :: us) w =
      emitted u depth f w ++ subOut depth f us (after u depth f w) := by
  simp only [subOut, relay]
  rw [relay_frame]
  simp [emitted, after, Crawl, Chan.make]

theorem subWorld_cons (depth : Int) (f : Fetcher) (u : String) (us : List String) (w : World) :
    subWorld depth f (u :: us) w = subWorld depth f us (after u depth f w) := by
  simp only [subWorld, relay]
  rw [relay_frame]
  simp [after, Crawl]

theorem emitted_of_nonpos (url : String) (depth : Int) (f : Fetcher) (w : World)
    (h : depth ≤ 0) : emitted url depth f w = [] := by
  rw [emitted, Crawl, doCrawl_unfold]
  simp [h, Chan.close, Chan.make]

theorem after_of_nonpos (url : String) (depth : Int) (f : Fetcher) (w : World)
    (h : depth ≤ 0) : after url depth f w = w := by
  rw [after, Crawl, doCrawl_unfold]
  simp [h]

theorem emitted_of_error (url : String) (depth : Int) (f : Fetcher) (w : World) (e : String)
    (he : f url = Except.error e) : emitted url depth f w = [] := by
  by_cases h : depth ≤ 0
  · exact emitted_of_nonpos url depth f w h
  · rw [emitted, Crawl, doCrawl_unfold]
    simp [h, he, Chan.close, Chan.make]

theorem after_of_error (url : String) (depth : Int) (f : Fetcher) (w : World) (e : String)
    (h : 0 < depth) (he : f url = Except.error e) :
    after url depth f w = ⟨w.seenUrls, w.fetched ++ [url]⟩ := by
  rw [after, Crawl, doCrawl_unfold]
  simp [not_le.mpr h, he]

theorem emitted_of_seen (url : String) (depth : Int) (f : Fetcher) (w : World)
    (hs : w.seenUrls.isSeen url = true) : emitted url depth f w = [] := by
  by_cases h : depth ≤ 0
  · exact emitted_of_nonpos url depth f w h
  · rw [emitted, Crawl, doCrawl_unfold]
    simp only [h, if_false]
    split <;> simp [hs, Chan.close, Chan.make]

theorem after_of_seen (url : String) (depth : Int) (f : Fetcher) (w : World)
    (h : 0 < depth) (hs : w.seenUrls.isSeen url = true) :
    after url depth f w = ⟨w.seenUrls, w.fetched ++ [url]⟩ := by
  rw [after, Crawl, doCrawl_unfold]
  simp only [not_le.mpr h, if_false]
  split <;> simp [hs]

theorem emitted_of_new (url : String) (depth : Int) (f : Fetcher) (w : World)
    (body : String) (urls : List String)
    (h : 0 < depth) (hf : f url = Except.ok (body, urls))
    (hs : w.seenUrls.isSeen url = false) :
    emitted url depth f w =
      url :: subOut (depth - 1) f urls ⟨w.seenUrls.seen url, w.fetched ++ [url]⟩ := by
  rw [emitted, Crawl, doCrawl_unfold]
  simp only [not_le.mpr h, if_false, hf, hs]
  rw [relay_frame]
  simp [subOut, Chan.close, Chan.send, Chan.make]

theorem after_of_new (url : String) (depth : Int) (f : Fetcher) (w : World)
    (body : String) (urls : List String)
    (h : 0 < depth) (hf : f url = Except.ok (body, urls))
    (hs : w.seenUrls.isSeen url = false) :
    after url depth f w =
      subWorld (depth - 1) f urls ⟨w.seenUrls.seen url, w.fetched ++ [url]⟩ := by
  rw [after, Crawl, doCrawl_unfold]
  simp only [not_le.mpr h, if_false, hf, hs]
  rw [relay_frame]
  simp [subWorld]

theorem main_eq :
    main = ["http://golang.org/", "http://golang.org/pkg/",
      "http://golang.org/pkg/fmt/", "http://golang.org/pkg/os/"] := by
  unfold main emitted Crawl
  simp [doCrawl_unfold, relay, fakeFetcher.Fetch, fetcher, List.lookup, SeenUrls.isSeen,
    SeenUrls.seen, World.fresh, SeenUrls.fresh, Chan.make, Chan.send, Chan.close]

theorem Crawl_of_nonpos (url : String) (depth : Int) (f : Fetcher) (ch : Chan String)
    (w : World) (h : depth ≤ 0) : Crawl url depth f ch w = (ch.close, w) := by
  rw [Crawl, doCrawl_unfold]
  simp [h]

theorem fetchOk_eq_false {f : Fetcher} {u : String} (h : fetchOk f u = false) :
    ∃ e, f u = Except.error e := by
  unfold fetchOk at h
  cases hf : f u with
  | error e => exact ⟨e, rfl⟩
  | ok r => rw [hf] at h; simp at h

theorem fetchOk_of_ok {f : Fetcher} {u : String} {r : String × List String}
    (h : f u = Except.ok r) : fetchOk f u = true := by
  simp [fetchOk, h]

theorem after_seen_of_error (url : String) (depth : Int) (f : Fetcher) (w : World) (e : String)
    (he : f url = Except.error e) : (after url depth f w).seenUrls = w.seenUrls := by
  by_cases h : depth ≤ 0
  · rw [after_of_nonpos _ _ _ _ h]
  · rw [after_of_error _ _ _ _ e (not_le.mp h) he]

theorem main_calls :
    calls "http://golang.org/" 4 fetcher.Fetch World.fresh =
      ["http://golang.org/", "http://golang.org/pkg/", "http://golang.org/",
       "http://golang.org/cmd/", "http://golang.org/pkg/fmt/", "http://golang.org/",
       "http://golang.org/pkg/", "http://golang.org/pkg/os/", "http://golang.org/",
       "http://golang.org/pkg/", "http://golang.org/cmd/"] := by
  unfold calls after Crawl
  simp [doCrawl_unfold, relay, fakeFetcher.Fetch, fetcher, List.lookup, SeenUrls.isSeen,
    SeenUrls.seen, World.fresh, SeenUrls.fresh, Chan.make, Chan.send, Chan.close]

/-! ### Claims on the crawler -/

/-- C3: the crawl `main` runs (start `http://golang.org/`, depth 4, the fixed
`fetcher`, a fresh visited set) emits the four URLs known to the fetcher, each
exactly once, and nothing else; `http://golang.org/cmd/` is not emitted. -/
theorem C3_main_emits_known_urls :
    main = ["http://golang.org/", "http://golang.org/pkg/",
      "http://golang.org/pkg/fmt/", "http://golang.org/pkg/os/"] ∧
    main.Nodup ∧
    main.count "http://golang.org/" = 1 ∧
    main.count "http://golang.org/pkg/" = 1 ∧
    main.count "http://golang.org/pkg/fmt/" = 1 ∧
    main.count "http://golang.org/pkg/os/" = 1 ∧
    main.length = 4 ∧
    "http://golang.org/cmd/" ∉ main := by
  rw [main_eq]
  refine ⟨rfl, ?_, ?_, ?_, ?_, ?_, ?_, ?_⟩ <;> decide

/-- C7: with a depth that is zero or negative, `Crawl` sends nothing on its
channel (and closes it), calls `Fetch` zero times and leaves the visited set
as it was. -/
theorem C7_nonpos_depth (f : Fetcher) (url : String) (depth : Int) (ch : Chan String)
    (w : World) (h : depth ≤ 0) :
    (Crawl url depth f ch w).1.queue = ch.queue ∧
    (Crawl url depth f ch w).1.closed = true ∧
    emitted url depth f w = [] ∧
    calls url depth f w = [] ∧
    (Crawl url depth f ch w).2.fetched = w.fetched ∧
    (Crawl url depth f ch w).2.seenUrls = w.seenUrls := by
  have hc := Crawl_of_nonpos url depth f ch w h
  refine ⟨?_, ?_, ?_, ?_, ?_, ?_⟩
  · rw [hc]; rfl
  · rw [hc]; rfl
  · exact emitted_of_nonpos url depth f w h
  · simp [calls, after_of_nonpos url depth f w h]
  · rw [hc]
  · rw [hc]

/-- C7 at depth `-3` on the fixed `fetcher`, started in a state where one URL
is already visited. -/
theorem C7_nonpos_depth_witness :
    (-3 : Int) ≤ 0 ∧
    emitted "http://golang.org/" (-3) fetcher.Fetch
        ⟨SeenUrls.fresh.seen "http://golang.org/pkg/", []⟩ = [] ∧
    calls "http://golang.org/" (-3) fetcher.Fetch
        ⟨SeenUrls.fresh.seen "http://golang.org/pkg/", []⟩ = [] :=
  ⟨by decide,
   (C7_nonpos_depth fetcher.Fetch "http://golang.org/" (-3) Chan.make
      ⟨SeenUrls.fresh.seen "http://golang.org/pkg/", []⟩ (by decide)).2.2.1,
   (C7_nonpos_depth fetcher.Fetch "http://golang.org/" (-3) Chan.make
      ⟨SeenUrls.fresh.seen "http://golang.org/pkg/", []⟩ (by decide)).2.2.2.1⟩

/-- C6 fails as stated: in the crawl `main` runs, `Fetch` is called four times
with `http://golang.org/`, because `doCrawl` calls `Fetch` before it looks the
URL up in the visited set. -/
theorem C6_counterexample :
    (calls "http://golang.org/" 4 fetcher.Fetch World.fresh).count "http://golang.org/" = 4 ∧
    ¬ (calls "http://golang.org/" 4 fetcher.Fetch World.fresh).count "http://golang.org/" ≤ 1 := by
  rw [main_calls]
  constructor <;> decide

/-! ### More lemmas -/

theorem Crawl_frame (url : String) (depth : Int) (f : Fetcher) (ch : Chan String)
    (w : World) :
    Crawl url depth f ch w =
      (⟨ch.queue ++ emitted url depth f w, true⟩, after url depth f w) := by
  by_cases h0 : depth ≤ 0
  · rw [Crawl_of_nonpos _ _ _ _ _ h0, emitted_of_nonpos _ _ _ _ h0,
      after_of_nonpos _ _ _ _ h0]
    simp [Chan.close]
  · have hpos : 0 < depth := not_le.mp h0
    cases hf : f url with
    | error e =>
      rw [emitted_of_error _ _ _ _ e hf, after_of_error _ _ _ _ e hpos hf, Crawl,
        doCrawl_unfold]
      simp [h0, hf, Chan.close]
    | ok r =>
      obtain ⟨body, urls⟩ := r
      cases hs : w.seenUrls.isSeen url with
      | true =>
        rw [emitted_of_seen _ _ _ _ hs, after_of_seen _ _ _ _ hpos hs, Crawl,
          doCrawl_unfold]
        simp [h0, hf, hs, Chan.close]
      | false =>
        rw [emitted_of_new _ _ _ _ body urls hpos hf hs,
          after_of_new _ _ _ _ body urls hpos hf hs, Crawl, doCrawl_unfold]
        simp only [h0, if_false, hf, hs]
        rw [relay_frame]
        simp [subOut, subWorld, Chan.close, Chan.send]

theorem inorder_ne_nil (l : Tree) (v : Int) (r : Tree) : inorder (Tree.node l v r) ≠ [] := by
  simp [inorder]

/-! ### Further claims on the tree exercise -/

/-- C11: for every non-empty tree `t`, also a single node holding `0`,
`Same(empty, t)` and `Same(t, empty)` both return `false`. -/
theorem C11_Same_empty_nonempty (t : Tree) (h : t ≠ Tree.nil) :
    Same Tree.nil t = some false ∧ Same t Tree.nil = some false := by
  cases t with
  | nil => exact absurd rfl h
  | node l v r =>
    rw [Same_eq, Same_eq]
    have hne := inorder_ne_nil l v r
    constructor
    · simp only [inorder] at hne ⊢
      simp
    · simp only [inorder] at hne ⊢
      simp

/-- C11 at the single node holding `0`, the value a closed channel yields. -/
theorem C11_Same_empty_nonempty_witness :
    Tree.node Tree.nil 0 Tree.nil ≠ Tree.nil ∧
    Same Tree.nil (Tree.node Tree.nil 0 Tree.nil) = some false ∧
    Same (Tree.node Tree.nil 0 Tree.nil) Tree.nil = some false :=
  ⟨by decide, C11_Same_empty_nonempty (Tree.node Tree.nil 0 Tree.nil) (by decide)⟩

/-- C18: for two trees whose in-order value sequences are in non-decreasing
order, `Same` returns `true` if and only if the trees hold the same multiset
of values, whatever their shapes; and it returns `false` otherwise. -/
theorem C18_Same_bst_iff_values (t1 t2 : Tree)
    (h1 : (inorder t1).Sorted (· ≤ ·)) (h2 : (inorder t2).Sorted (· ≤ ·)) :
    (Same t1 t2 = some true ↔ t1.values = t2.values) ∧
    (Same t1 t2 = some false ↔ t1.values ≠ t2.values) := by
  have key : inorder t1 = inorder t2 ↔ t1.values = t2.values := by
    rw [values_eq_inorder, values_eq_inorder]
    constructor
    · intro h; rw [h]
    · intro h
      exact List.eq_of_perm_of_sorted (Quotient.exact h) h1 h2
  rw [Same_eq]
  constructor
  · rw [← key]; simp
  · rw [Ne, ← key]; simp

/-- C18 at two search trees of different shapes holding `1, 2, 3`: the
balanced one and the right-leaning chain. -/
theorem C18_Same_bst_iff_values_witness :
    (inorder (Tree.node (Tree.node Tree.nil 1 Tree.nil) 2
      (Tree.node Tree.nil 3 Tree.nil))).Sorted (· ≤ ·) ∧
    (inorder (Tree.node Tree.nil 1 (Tree.node Tree.nil 2
      (Tree.node Tree.nil 3 Tree.nil)))).Sorted (· ≤ ·) ∧
    Same (Tree.node (Tree.node Tree.nil 1 Tree.nil) 2 (Tree.node Tree.nil 3 Tree.nil))
      (Tree.node Tree.nil 1 (Tree.node Tree.nil 2 (Tree.node Tree.nil 3 Tree.nil)))
      = some true :=
  have h1 : (inorder (Tree.node (Tree.node Tree.nil 1 Tree.nil) 2
      (Tree.node Tree.nil 3 Tree.nil))).Sorted (· ≤ ·) := by simp [inorder]
  have h2 : (inorder (Tree.node Tree.nil 1 (Tree.node Tree.nil 2
      (Tree.node Tree.nil 3 Tree.nil)))).Sorted (· ≤ ·) := by simp [inorder]
  ⟨h1, h2, (C18_Same_bst_iff_values _ _ h1 h2).1.mpr (by decide)⟩

/-! ### Further lemmas on the crawler -/

theorem self_mem_reach (f : Fetcher) (k : Nat) (url : String) : url ∈ reach f k url := by
  cases k <;> simp [reach]

theorem calls_of_seen (url : String) (depth : Int) (f : Fetcher) (w : World)
    (hs : w.seenUrls.isSeen url = true) :
    calls url depth f w = if depth ≤ 0 then [] else [url] := by
  by_cases h0 : depth ≤ 0
  · simp [calls, after_of_nonpos _ _ _ _ h0, h0]
  · simp [calls, after_of_seen _ _ _ _ (not_le.mp h0) hs, h0]

theorem after_seen_of_seen (url : String) (depth : Int) (f : Fetcher) (w : World)
    (hs : w.seenUrls.isSeen url = true) : (after url depth f w).seenUrls = w.seenUrls := by
  by_cases h0 : depth ≤ 0
  · rw [after_of_nonpos _ _ _ _ h0]
  · rw [after_of_seen _ _ _ _ (not_le.mp h0) hs]

theorem fetcher_cmd_fails : fetchOk fetcher.Fetch "http://golang.org/cmd/" = false := by
  simp [fetchOk, fakeFetcher.Fetch, fetcher, List.lookup]

theorem fetcher_root_ok : fetchOk fetcher.Fetch "http://golang.org/" = true := by
  simp [fetchOk, fakeFetcher.Fetch, fetcher, List.lookup]

/-! ### Further claims on the crawler -/

/-- C13: when the fetch of a URL fails, its crawl, at any depth, emits nothing
and leaves the visited set as it was; the failing URL is not marked. -/
theorem C13_fetch_error_emits_nothing (f : Fetcher) (url : String) (depth : Int)
    (ch : Chan String) (w : World) (h : fetchOk f url = false) :
    (Crawl url depth f ch w).1.queue = ch.queue ∧
    emitted url depth f w = [] ∧
    spawned url depth f w = [] ∧
    (Crawl url depth f ch w).2.seenUrls = w.seenUrls ∧
    (Crawl url depth f ch w).2.seenUrls.isSeen url = w.seenUrls.isSeen url := by
  obtain ⟨e, he⟩ := fetchOk_eq_false h
  have ho := emitted_of_error url depth f w e he
  have hs := after_seen_of_error url depth f w e he
  rw [Crawl_frame, ho, hs]
  refine ⟨by simp, rfl, ?_, rfl, rfl⟩
  unfold spawned
  split
  · rfl
  · simp [he]

/-- C13 on the fixed `fetcher`: `http://golang.org/cmd/` is unknown to it, and
its crawl at depth 3 emits nothing. -/
theorem C13_fetch_error_emits_nothing_witness :
    fetchOk fetcher.Fetch "http://golang.org/cmd/" = false ∧
    emitted "http://golang.org/cmd/" 3 fetcher.Fetch World.fresh = [] :=
  ⟨fetcher_cmd_fails,
    (C13_fetch_error_emits_nothing fetcher.Fetch "http://golang.org/cmd/" 3 Chan.make
      World.fresh fetcher_cmd_fails).2.1⟩

/-- C14: the crawl of a URL that is already in the visited set emits nothing,
starts no sub-crawl (the only call of `Fetch` it makes, when the depth is
positive, is the one for the URL itself) and leaves the visited set as it
was. -/
theorem C14_visited_url_skipped (f : Fetcher) (url : String) (depth : Int)
    (ch : Chan String) (w : World) (h : w.seenUrls.isSeen url = true) :
    (Crawl url depth f ch w).1.queue = ch.queue ∧
    emitted url depth f w = [] ∧
    spawned url depth f w = [] ∧
    calls url depth f w = (if depth ≤ 0 then [] else [url]) ∧
    (Crawl url depth f ch w).2.seenUrls = w.seenUrls := by
  have ho := emitted_of_seen url depth f w h
  have hs := after_seen_of_seen url depth f w h
  rw [Crawl_frame, ho, hs]
  refine ⟨by simp, rfl, ?_, calls_of_seen url depth f w h, rfl⟩
  unfold spawned
  split
  · rfl
  · split
    · rfl
    · simp [h]

/-- C14 on the fixed `fetcher`: with `http://golang.org/` already visited, its
crawl at depth 4 emits nothing and fetches only that URL. -/
theorem C14_visited_url_skipped_witness :
    (SeenUrls.fresh.seen "http://golang.org/").isSeen "http://golang.org/" = true ∧
    emitted "http://golang.org/" 4 fetcher.Fetch
      ⟨SeenUrls.fresh.seen "http://golang.org/", []⟩ = [] ∧
    spawned "http://golang.org/" 4 fetcher.Fetch
      ⟨SeenUrls.fresh.seen "http://golang.org/", []⟩ = [] :=
  have h : (SeenUrls.fresh.seen "http://golang.org/").isSeen "http://golang.org/" = true := by
    simp [SeenUrls.seen, SeenUrls.isSeen]
  have r := C14_visited_url_skipped fetcher.Fetch "http://golang.org/" 4 Chan.make
    ⟨SeenUrls.fresh.seen "http://golang.org/", []⟩ h
  ⟨h, r.2.1, r.2.2.1⟩

/-! ### The check and the marking under interleaving -/

/-- C19, the code at a failing schedule: two workers crawl the same unvisited
URL `b`. When the scheduler alternates between them, both run
`seenUrls.isSeen` before either runs `seenUrls.seen`, both pass the check and
`b` is sent twice. When one worker runs to its end before the other starts,
`b` is sent once. -/
theorem C19_check_then_mark_race :
    (Workers.run "b" [true, false] (Workers.start SeenUrls.fresh)).pc1 = Pc.atSeen ∧
    (Workers.run "b" [true, false] (Workers.start SeenUrls.fresh)).pc2 = Pc.atSeen ∧
    (Workers.run "b" [true, false, true, false, true, false]
      (Workers.start SeenUrls.fresh)).out = ["b", "b"] ∧
    (Workers.run "b" [true, true, true, false, false, false]
      (Workers.start SeenUrls.fresh)).out = ["b"] := by
  refine ⟨?_, ?_, ?_, ?_⟩ <;>
    simp [Workers.run, Workers.step, Workers.start, Pc.step, SeenUrls.isSeen, SeenUrls.seen,
      SeenUrls.fresh]

/-! ## The workers under every schedule -/

/-! ### what a step does to a frame -/

theorem Worker.induct {P : Worker → Prop}
    (h : ∀ fr kids, (∀ k, k ∈ kids → P k) → P (Worker.mk fr kids)) : ∀ x, P x
  | Worker.mk fr kids => h fr kids (fun k _hk => Worker.induct h k)
termination_by x => sizeOf x
decreasing_by
  simp_wf
  have := List.sizeOf_lt_of_mem _hk
  omega

theorem step_nil (f : Fetcher) (ready : Bool) (fr : Frame) (kids : List Worker) (w : World) :
    Worker.step f [] ready (Worker.mk fr kids) w = Worker.act f ready fr kids w := rfl

theorem step_miss (f : Fetcher) (i : Nat) (p : List Nat) (ready : Bool) (fr : Frame)
    (kids : List Worker) (w : World) (hc : kids[i]? = none) :
    Worker.step f (i :: p) ready (Worker.mk fr kids) w = (Worker.mk fr kids, w, none) := by
  simp only [Worker.step, hc]

theorem step_quiet (f : Fetcher) (i : Nat) (p : List Nat) (ready : Bool) (fr : Frame)
    (kids : List Worker) (w : World) (c : Worker) (hc : kids[i]? = some c)
    (hv : (Worker.step f p (decide (fr.stage = Stage.atRange i)) c w).2.2 = none) :
    Worker.step f (i :: p) ready (Worker.mk fr kids) w =
      (Worker.mk fr
        (kids.set i (Worker.step f p (decide (fr.stage = Stage.atRange i)) c w).1),
       (Worker.step f p (decide (fr.stage = Stage.atRange i)) c w).2.1, none) := by
  simp only [Worker.step, hc, hv]

theorem step_hand (f : Fetcher) (i : Nat) (p : List Nat) (ready : Bool) (fr : Frame)
    (kids : List Worker) (w : World) (c : Worker) (v : String) (hc : kids[i]? = some c)
    (hv : (Worker.step f p (decide (fr.stage = Stage.atRange i)) c w).2.2 = some v) :
    Worker.step f (i :: p) ready (Worker.mk fr kids) w =
      (Worker.mk (fr.goto (Stage.atRelay i v))
        (kids.set i (Worker.step f p (decide (fr.stage = Stage.atRange i)) c w).1),
       (Worker.step f p (decide (fr.stage = Stage.atRange i)) c w).2.1, none) := by
  simp only [Worker.step, hc, hv]

/-- What one step does to the frame of the worker it is applied to, and to the
visited set. -/
structure Effect (ready : Bool) (x : Worker) (w : World)
    (r : Worker × World × Option String) : Prop where
  url : r.1.fr.url = x.fr.url
  depth : r.1.fr.depth = x.fr.depth
  quiet : r.2.2 = none → r.1.fr.sent = x.fr.sent
  hand : ∀ v, r.2.2 = some v → ready = true ∧ r.1.fr.sent = x.fr.sent ++ [v]
  done : x.fr.stage = Stage.returned → r.1.fr = x.fr
  seen : ∀ k, w.seenUrls.isSeen k = true → r.2.1.seenUrls.isSeen k = true

theorem act_effect (f : Fetcher) (ready : Bool) (fr : Frame) (kids : List Worker) (w : World) :
    Effect ready (Worker.mk fr kids) w (Worker.act f ready fr kids w) := by
  unfold Worker.act
  split
  · split
    · constructor <;> simp_all [Worker.fr, Frame.goto]
    · split <;> constructor <;> simp_all [Worker.fr, Frame.goto]
  · split <;> constructor <;> simp_all [Worker.fr, Frame.goto]
  · constructor <;> simp_all [Worker.fr, Frame.goto, SeenUrls.seen, SeenUrls.isSeen]
  · split <;> constructor <;> simp_all [Worker.fr, Frame.goto, Frame.push]
  · constructor <;> simp_all [Worker.fr, Frame.goto]
  · split
    · constructor <;> simp_all [Worker.fr, Frame.goto]
    · split <;> constructor <;> simp_all [Worker.fr, Frame.goto]
  · split <;> constructor <;> simp_all [Worker.fr, Frame.goto, Frame.push]
  · constructor <;> simp_all [Worker.fr, Frame.goto]

theorem step_effect (f : Fetcher) (p : List Nat) :
    ∀ (ready : Bool) (x : Worker) (w : World), Effect ready x w (Worker.step f p ready x w) := by
  induction p with
  | nil =>
    intro ready x w
    cases x with
    | mk fr kids => exact act_effect f ready fr kids w
  | cons i p ih =>
    intro ready x w
    cases x with
    | mk fr kids =>
      cases hk : kids[i]? with
      | none =>
        rw [step_miss f i p ready fr kids w hk]
        constructor <;> simp [Worker.fr]
      | some k =>
        have e := ih (decide (fr.stage = Stage.atRange i)) k w
        cases hv : (Worker.step f p (decide (fr.stage = Stage.atRange i)) k w).2.2 with
        | none =>
          rw [step_quiet f i p ready fr kids w k hk hv]
          constructor <;> simp [Worker.fr]
          exact e.seen
        | some v =>
          rw [step_hand f i p ready fr kids w k v hk hv]
          have hr := (e.hand v hv).1
          simp at hr
          constructor <;> simp [Worker.fr, Frame.goto]
          · intro h; rw [h] at hr; cases hr
          · exact e.seen

/-! ### list facts -/

theorem set_self {α : Type} (l : List α) (i : Nat) (a : α) (h : l[i]? = some a) :
    l.set i a = l := by
  induction l generalizing i with
  | nil => simp
  | cons x xs ih =>
    cases i with
    | zero => simp at h; simp [h]
    | succ n => simp at h; simp [ih n h]

theorem map_set_same {α β : Type} (g : α → β) (l : List α) (i : Nat) (a b : α)
    (h : l[i]? = some a) (hg : g b = g a) : (l.set i b).map g = l.map g := by
  rw [List.map_set, hg]
  apply set_self
  simp [List.getElem?_map, h]

theorem flatMap_set_same {α β : Type} (g : α → List β) (l : List α) (i : Nat) (a b : α)
    (h : l[i]? = some a) (hg : g b = g a) : (l.set i b).flatMap g = l.flatMap g := by
  induction l generalizing i with
  | nil => simp
  | cons x xs ih =>
    cases i with
    | zero => simp at h; simp [h, hg]
    | succ n => simp at h; simp [ih n h]

theorem flatMap_set_snoc {α β : Type} (g : α → List β) (l : List α) (i : Nat) (a b : α)
    (v : β) (h : l[i]? = some a) (hg : g b = g a ++ [v])
    (hz : ∀ j k, i < j → l[j]? = some k → g k = []) :
    (l.set i b).flatMap g = l.flatMap g ++ [v] := by
  induction l generalizing i with
  | nil => simp at h
  | cons x xs ih =>
    cases i with
    | zero =>
      simp at h
      have hx : xs.flatMap g = [] := by
        rw [List.flatMap_eq_nil_iff]
        intro k hk
        obtain ⟨n, hn⟩ := List.mem_iff_getElem?.mp hk
        exact hz (n + 1) k (by omega) (by simpa using hn)
      simp [h, hg, hx]
    | succ n =>
      simp at h
      have := ih n h (fun j k hj hk => hz (j + 1) k (by omega) (by simpa using hk))
      simp [this]

@[simp] theorem Frame.goto_url (fr : Frame) (st : Stage) : (fr.goto st).url = fr.url := rfl
@[simp] theorem Frame.goto_depth (fr : Frame) (st : Stage) : (fr.goto st).depth = fr.depth := rfl
@[simp] theorem Frame.goto_stage (fr : Frame) (st : Stage) : (fr.goto st).stage = st := rfl
@[simp] theorem Frame.goto_urls (fr : Frame) (st : Stage) : (fr.goto st).urls = fr.urls := rfl
@[simp] theorem Frame.goto_sent (fr : Frame) (st : Stage) : (fr.goto st).sent = fr.sent := rfl
@[simp] theorem Frame.push_url (fr : Frame) (v : String) (st : Stage) :
    (fr.push v st).url = fr.url := rfl
@[simp] theorem Frame.push_depth (fr : Frame) (v : String) (st : Stage) :
    (fr.push v st).depth = fr.depth := rfl
@[simp] theorem Frame.push_stage (fr : Frame) (v : String) (st : Stage) :
    (fr.push v st).stage = st := rfl
@[simp] theorem Frame.push_urls (fr : Frame) (v : String) (st : Stage) :
    (fr.push v st).urls = fr.urls := rfl
@[simp] theorem Frame.push_sent (fr : Frame) (v : String) (st : Stage) :
    (fr.push v st).sent = fr.sent ++ [v] := rfl
@[simp] theorem Worker.fr_mk (fr : Frame) (kids : List Worker) : (Worker.mk fr kids).fr = fr := rfl
@[simp] theorem Worker.kids_mk (fr : Frame) (kids : List Worker) :
    (Worker.mk fr kids).kids = kids := rfl

/-! ### the invariant grows with the visited set -/

theorem LocalAt.weaken {f : Fetcher} {w0 w w' : World} {fr : Frame} {kids : List Worker}
    {st : Stage} (h : LocalAt f w0 w fr kids st)
    (hw : ∀ k, w.seenUrls.isSeen k = true → w'.seenUrls.isSeen k = true) :
    LocalAt f w0 w' fr kids st := by
  cases st with
  | atFetch => exact h
  | atIsSeen => exact h
  | atSeen => exact h
  | atSend => exact ⟨h.1, h.2.1, h.2.2.1, h.2.2.2.1, hw _ h.2.2.2.2⟩
  | atSpawn => exact ⟨h.1, h.2.1, h.2.2.1, h.2.2.2.1, hw _ h.2.2.2.2⟩
  | atRange i => exact ⟨h.1, h.2.1, ⟨h.2.2.1.1, hw _ h.2.2.1.2⟩, h.2.2.2⟩
  | atRelay i v => exact ⟨h.1, h.2.1, ⟨h.2.2.1.1, hw _ h.2.2.1.2⟩, h.2.2.2⟩
  | returned =>
    rcases h with h | h
    · exact Or.inl ⟨h.1, h.2.1, fun a b => hw _ (h.2.2 a b)⟩
    · exact Or.inr ⟨h.1, h.2.1, ⟨h.2.2.1.1, hw _ h.2.2.1.2⟩, h.2.2.2⟩

theorem Inv.mono {f : Fetcher} {w0 w w' : World} {x : Worker} (h : Inv f w0 w x)
    (hw : ∀ k, w.seenUrls.isSeen k = true → w'.seenUrls.isSeen k = true) :
    Inv f w0 w' x := by
  induction h with
  | mk fr kids hl _ ih => exact Inv.mk fr kids (hl.weaken hw) ih

theorem Inv.local {f : Fetcher} {w0 w : World} {fr : Frame} {kids : List Worker}
    (h : Inv f w0 w (Worker.mk fr kids)) : LocalAt f w0 w fr kids fr.stage := by
  cases h with
  | mk _ _ hl _ => exact hl

theorem Inv.kid {f : Fetcher} {w0 w : World} {fr : Frame} {kids : List Worker}
    (h : Inv f w0 w (Worker.mk fr kids)) : ∀ k, k ∈ kids → Inv f w0 w k := by
  cases h with
  | mk _ _ _ hk => exact hk

/-! ### a worker's own step keeps the invariant -/

theorem fresh_inv (f : Fetcher) (w0 w : World) (u : String) (d : Int) :
    Inv f w0 w (Worker.fresh u d) :=
  Inv.mk _ _ ⟨rfl, rfl⟩ (fun k hk => by simp at hk)

theorem flatMap_fresh (urls : List String) (d : Int) :
    (urls.map (fun u => Worker.fresh u d)).flatMap (fun k => k.fr.sent) = [] := by
  rw [List.flatMap_eq_nil_iff]
  intro k hk
  obtain ⟨u, _, rfl⟩ := List.mem_map.mp hk
  rfl

theorem act_inv (f : Fetcher) (w0 w : World) (ready : Bool) (fr : Frame) (kids : List Worker)
    (hg : ∀ k, w0.seenUrls.isSeen k = true → w.seenUrls.isSeen k = true)
    (h : Inv f w0 w (Worker.mk fr kids)) :
    Inv f w0 (Worker.act f ready fr kids w).2.1 (Worker.act f ready fr kids w).1 := by
  have hl := h.local
  have hk := h.kid
  unfold Worker.act
  split
  next hst =>
    rw [hst] at hl
    obtain ⟨hk0, hs0⟩ := hl
    split
    next hd =>
      refine Inv.mk _ _ ?_ hk
      exact Or.inl ⟨hk0, hs0, fun hp => absurd hp (not_lt.mpr hd)⟩
    next hd =>
      split
      next e he =>
        refine Inv.mk _ _ ?_ (fun k hkk => (hk k hkk).mono (fun _ ha => ha))
        refine Or.inl ⟨hk0, hs0, fun _ hok => ?_⟩
        simp [fetchOk, he] at hok
      next body urls he =>
        refine Inv.mk _ _ ?_ (fun k hkk => (hk k hkk).mono (fun _ ha => ha))
        refine ⟨hk0, hs0, not_le.mp hd, ?_, ?_⟩
        · simp [fetchOk, he]
        · simp [links, he]
  next hst =>
    rw [hst] at hl
    obtain ⟨hk0, hs0, hf⟩ := hl
    split
    next hs =>
      refine Inv.mk _ _ ?_ hk
      exact Or.inl ⟨hk0, hs0, fun _ _ => hs⟩
    next hs =>
      refine Inv.mk _ _ ?_ hk
      refine ⟨hk0, hs0, hf, ?_⟩
      cases h0 : w0.seenUrls.isSeen fr.url with
      | false => exact h0
      | true => exact absurd (hg _ h0) hs
  next hst =>
    rw [hst] at hl
    obtain ⟨hk0, hs0, hf, hu⟩ := hl
    refine Inv.mk _ _ ?_ ?_
    · refine ⟨hk0, hs0, hf, hu, ?_⟩
      simp [SeenUrls.seen, SeenUrls.isSeen]
    · intro k hkk
      exact (hk k hkk).mono (fun a ha => by
        simp only [SeenUrls.seen, SeenUrls.isSeen] at ha ⊢
        simp [ha])
  next hst =>
    rw [hst] at hl
    obtain ⟨hk0, hs0, hf, hm⟩ := hl
    split
    · refine Inv.mk _ _ ?_ hk
      exact ⟨hk0, by simp [hs0], hf, hm⟩
    · refine Inv.mk _ _ ?_ hk
      rw [hst]
      exact ⟨hk0, hs0, hf, hm⟩
  next hst =>
    rw [hst] at hl
    obtain ⟨_, hs0, hf, hm⟩ := hl
    refine Inv.mk _ _ ?_ ?_
    · refine ⟨?_, hf, hm, ?_, ?_, ?_⟩
      · simp [KidsOk, Worker.fresh, Function.comp_def]
      · simp [hs0, flatMap_fresh]
      · intro j k hj; omega
      · intro j k _ hjk
        obtain ⟨u, _, rfl⟩ := List.mem_map.mp (List.getElem?_mem hjk)
        rfl
    · intro k hkk
      obtain ⟨u, _, rfl⟩ := List.mem_map.mp hkk
      exact fresh_inv f w0 w u _
  next i hst =>
    rw [hst] at hl
    obtain ⟨hko, hf, hm, hs, hlt, hgt⟩ := hl
    split
    next hnone =>
      refine Inv.mk _ _ ?_ hk
      refine Or.inr ⟨hko, hf, hm, hs, ?_⟩
      intro k hkk
      obtain ⟨n, hn⟩ := List.mem_iff_getElem?.mp hkk
      refine hlt n k ?_ hn
      by_contra hc
      have : kids[i]? ≠ none := by
        rw [Ne, List.getElem?_eq_none_iff]
        have := (List.getElem?_eq_some.mp hn).1
        omega
      exact this hnone
    next k hsome =>
      split
      next hret =>
        refine Inv.mk _ _ ?_ hk
        refine ⟨hko, hf, hm, hs, ?_, ?_⟩
        · intro j k' hj hjk
          by_cases hji : j = i
          · subst hji
            rw [hsome] at hjk
            cases hjk
            exact hret
          · exact hlt j k' (by omega) hjk
        · intro j k' hj hjk
          exact hgt j k' (by omega) hjk
      next hret =>
        refine Inv.mk _ _ ?_ hk
        rw [hst]
        exact ⟨hko, hf, hm, hs, hlt, hgt⟩
  next i u hst =>
    rw [hst] at hl
    obtain ⟨hko, hf, hm, hs, hlt, hgt⟩ := hl
    split
    · refine Inv.mk _ _ ?_ hk
      exact ⟨hko, hf, hm, by simpa using hs, hlt, hgt⟩
    · refine Inv.mk _ _ ?_ hk
      rw [hst]
      exact ⟨hko, hf, hm, hs, hlt, hgt⟩
  next hst =>
    exact h

/-! ### a step anywhere in the tree keeps the invariant -/

theorem getElem?_set_cases {α : Type} {l : List α} {i j : Nat} {a b : α}
    (h : (l.set i a)[j]? = some b) : (j = i ∧ b = a) ∨ (j ≠ i ∧ l[j]? = some b) := by
  rw [List.getElem?_set] at h
  by_cases hij : i = j
  · subst hij
    simp only [if_true] at h
    split at h
    · left; exact ⟨rfl, by cases h; rfl⟩
    · cases h
  · simp only [hij, if_false] at h
    right; exact ⟨fun e => hij e.symm, h⟩

theorem KidsOk.swap {fr : Frame} {kids : List Worker} {i : Nat} {c c' : Worker}
    (h : KidsOk fr kids) (hc : kids[i]? = some c) (hu : c'.fr.url = c.fr.url)
    (hd : c'.fr.depth = c.fr.depth) : KidsOk fr (kids.set i c') := by
  unfold KidsOk at h ⊢
  rw [map_set_same _ kids i c c' hc (by simp [hu, hd])]
  exact h

theorem LocalAt.swap_quiet {f : Fetcher} {w0 w : World} {fr : Frame} {kids : List Worker}
    {st : Stage} {i : Nat} {c c' : Worker}
    (h : LocalAt f w0 w fr kids st) (hc : kids[i]? = some c)
    (hu : c'.fr.url = c.fr.url) (hd : c'.fr.depth = c.fr.depth)
    (hs : c'.fr.sent = c.fr.sent)
    (hr : c.fr.stage = Stage.returned → c'.fr.stage = Stage.returned) :
    LocalAt f w0 w fr (kids.set i c') st := by
  have hne : kids ≠ [] := by
    intro e; rw [e] at hc; simp at hc
  have hfm : (kids.set i c').flatMap (fun k => k.fr.sent) = kids.flatMap (fun k => k.fr.sent) :=
    flatMap_set_same _ kids i c c' hc hs
  cases st with
  | atFetch => exact absurd h.1 hne
  | atIsSeen => exact absurd h.1 hne
  | atSeen => exact absurd h.1 hne
  | atSend => exact absurd h.1 hne
  | atSpawn => exact absurd h.1 hne
  | atRange j =>
    obtain ⟨hko, hf, hm, hsent, hlt, hgt⟩ := h
    refine ⟨hko.swap hc hu hd, hf, hm, by rw [hfm]; exact hsent, ?_, ?_⟩
    · intro n k hn hnk
      rcases getElem?_set_cases hnk with ⟨e1, e2⟩ | ⟨_, e2⟩
      · subst e1; subst e2; exact hr (hlt _ c hn hc)
      · exact hlt n k hn e2
    · intro n k hn hnk
      rcases getElem?_set_cases hnk with ⟨e1, e2⟩ | ⟨_, e2⟩
      · subst e1; subst e2; rw [hs]; exact hgt _ c hn hc
      · exact hgt n k hn e2
  | atRelay j v =>
    obtain ⟨hko, hf, hm, hsent, hlt, hgt⟩ := h
    refine ⟨hko.swap hc hu hd, hf, hm, by rw [hfm]; exact hsent, ?_, ?_⟩
    · intro n k hn hnk
      rcases getElem?_set_cases hnk with ⟨e1, e2⟩ | ⟨_, e2⟩
      · subst e1; subst e2; exact hr (hlt _ c hn hc)
      · exact hlt n k hn e2
    · intro n k hn hnk
      rcases getElem?_set_cases hnk with ⟨e1, e2⟩ | ⟨_, e2⟩
      · subst e1; subst e2; rw [hs]; exact hgt _ c hn hc
      · exact hgt n k hn e2
  | returned =>
    rcases h with h | h
    · exact absurd h.1 hne
    · obtain ⟨hko, hf, hm, hsent, hall⟩ := h
      refine Or.inr ⟨hko.swap hc hu hd, hf, hm, by rw [hfm]; exact hsent, ?_⟩
      intro k hk
      rcases List.mem_or_eq_of_mem_set hk with hk | hk
      · exact hall k hk
      · rw [hk]; exact hr (hall c (List.getElem?_mem hc))

theorem step_inv (f : Fetcher) (w0 : World) (p : List Nat) :
    ∀ (ready : Bool) (x : Worker) (w : World),
      (∀ k, w0.seenUrls.isSeen k = true → w.seenUrls.isSeen k = true) →
      Inv f w0 w x →
      Inv f w0 (Worker.step f p ready x w).2.1 (Worker.step f p ready x w).1 := by
  induction p with
  | nil =>
    intro ready x w hg h
    cases x with
    | mk fr kids => exact act_inv f w0 w ready fr kids hg h
  | cons i p ih =>
    intro ready x w hg h
    cases x with
    | mk fr kids =>
      have hl := h.local
      have hk := h.kid
      cases hc : kids[i]? with
      | none =>
        rw [step_miss f i p ready fr kids w hc]
        exact h
      | some c =>
        have e := step_effect f p (decide (fr.stage = Stage.atRange i)) c w
        have hi := ih (decide (fr.stage = Stage.atRange i)) c w hg (hk c (List.getElem?_mem hc))
        have hkids : ∀ k, k ∈ kids.set i
            (Worker.step f p (decide (fr.stage = Stage.atRange i)) c w).1 →
            Inv f w0 (Worker.step f p (decide (fr.stage = Stage.atRange i)) c w).2.1 k := by
          intro k hkk
          rcases List.mem_or_eq_of_mem_set hkk with hkk | hkk
          · exact (hk k hkk).mono e.seen
          · rw [hkk]; exact hi
        cases hv : (Worker.step f p (decide (fr.stage = Stage.atRange i)) c w).2.2 with
        | none =>
          rw [step_quiet f i p ready fr kids w c hc hv]
          refine Inv.mk _ _ ?_ hkids
          refine (hl.weaken e.seen).swap_quiet hc e.url e.depth (e.quiet hv) ?_
          intro hr
          rw [e.done hr]; exact hr
        | some v =>
          rw [step_hand f i p ready fr kids w c v hc hv]
          obtain ⟨hrdy, hsent⟩ := e.hand v hv
          have hst : fr.stage = Stage.atRange i := by simpa using hrdy
          refine Inv.mk _ _ ?_ hkids
          have hl' : LocalAt f w0 (Worker.step f p (decide (fr.stage = Stage.atRange i)) c w).2.1
              fr kids (Stage.atRange i) := by
            have := hl.weaken e.seen
            rw [hst] at this
            rw [hst]
            exact this
          obtain ⟨hko, hf, hm, hs, hlt, hgt⟩ := hl'
          refine ⟨hko.swap hc e.url e.depth, hf, hm, ?_, ?_, ?_⟩
          · rw [flatMap_set_snoc _ kids i c _ v hc hsent hgt]
            simp [hs]
          · intro n k hn hnk
            rcases getElem?_set_cases hnk with ⟨e1, _⟩ | ⟨_, e2⟩
            · omega
            · exact hlt n k hn e2
          · intro n k hn hnk
            rcases getElem?_set_cases hnk with ⟨e1, _⟩ | ⟨_, e2⟩
            · omega
            · exact hgt n k hn e2

/-! ### owners of the marks -/

theorem act_owner (f : Fetcher) (ready : Bool) (fr : Frame) (kids : List Worker) (w : World)
    (k : String) (w0 : World) (hinv : Inv f w0 w (Worker.mk fr kids))
    (h : Owner (Worker.mk fr kids) k) :
    Owner (Worker.act f ready fr kids w).1 k := by
  have hl := hinv.local
  cases h with
  | self _ _ ho =>
    unfold Worker.act
    split
    next hst =>
      rcases ho with ho | ho
      · rw [hst] at ho; cases ho
      · split
        · exact Owner.self _ _ (Or.inr ho)
        · split
          · exact Owner.self _ _ (Or.inr ho)
          · exact Owner.self ⟨fr.url, fr.depth, Stage.atIsSeen, _, fr.sent⟩ _ (Or.inr ho)
    next hst =>
      rcases ho with ho | ho
      · rw [hst] at ho; cases ho
      · split <;> exact Owner.self (fr.goto _) _ (Or.inr ho)
    next hst =>
      rcases ho with ho | ho
      · rw [hst] at ho; cases ho
      · exact Owner.self (fr.goto _) _ (Or.inr ho)
    next hst =>
      split
      · exact Owner.self (fr.push fr.url Stage.atSpawn) _ (Or.inr (by simp))
      · exact Owner.self _ _ ho
    next hst =>
      rcases ho with ho | ho
      · rw [hst] at ho; cases ho
      · exact Owner.self (fr.goto _) _ (Or.inr ho)
    next i hst =>
      rcases ho with ho | ho
      · rw [hst] at ho; cases ho
      · split
        · exact Owner.self (fr.goto _) _ (Or.inr ho)
        · split
          · exact Owner.self (fr.goto _) _ (Or.inr ho)
          · exact Owner.self _ _ (Or.inr ho)
    next i u hst =>
      split
      · exact Owner.self (fr.push u (Stage.atRange i)) _ (Or.inr (by simp))
      · exact Owner.self _ _ ho
    next hst => exact Owner.self _ _ ho
  | kid _ _ j c _ hj hc =>
    unfold Worker.act
    split
    · split
      · exact Owner.kid _ _ j c k hj hc
      · split <;> exact Owner.kid _ _ j c k hj hc
    · split <;> exact Owner.kid _ _ j c k hj hc
    · exact Owner.kid _ _ j c k hj hc
    · split <;> exact Owner.kid _ _ j c k hj hc
    next hst =>
      rw [hst] at hl
      rw [hl.1] at hj
      simp at hj
    · split
      · exact Owner.kid _ _ j c k hj hc
      · split <;> exact Owner.kid _ _ j c k hj hc
    · split <;> exact Owner.kid _ _ j c k hj hc
    · exact Owner.kid _ _ j c k hj hc

theorem step_owner (f : Fetcher) (w0 : World) (k : String) (p : List Nat) :
    ∀ (ready : Bool) (x : Worker) (w : World), Inv f w0 w x → Owner x k →
      Owner (Worker.step f p ready x w).1 k := by
  induction p with
  | nil =>
    intro ready x w hinv h
    cases x with
    | mk fr kids => exact act_owner f ready fr kids w k w0 hinv h
  | cons i p ih =>
    intro ready x w hinv h
    cases x with
    | mk fr kids =>
      cases hc : kids[i]? with
      | none =>
        rw [step_miss f i p ready fr kids w hc]
        exact h
      | some c =>
        have e := step_effect f p (decide (fr.stage = Stage.atRange i)) c w
        have hci := hinv.kid c (List.getElem?_mem hc)
        have hlen : i < kids.length := (List.getElem?_eq_some.mp hc).1
        -- the kids after the step still hold an owner of `k`
        have hkid : ∀ (j : Nat) (d : Worker), kids[j]? = some d → Owner d k →
            ∃ d', (kids.set i
              (Worker.step f p (decide (fr.stage = Stage.atRange i)) c w).1)[j]? = some d' ∧
              Owner d' k := by
          intro j d hj hd
          by_cases hji : j = i
          · subst hji
            rw [hc] at hj
            cases hj
            exact ⟨_, by rw [List.getElem?_set_self hlen], ih _ c w hci hd⟩
          · exact ⟨d, by rw [List.getElem?_set_ne (fun e => hji e.symm)]; exact hj, hd⟩
        cases hv : (Worker.step f p (decide (fr.stage = Stage.atRange i)) c w).2.2 with
        | none =>
          rw [step_quiet f i p ready fr kids w c hc hv]
          cases h with
          | self _ _ ho => exact Owner.self _ _ ho
          | kid _ _ j d _ hj hd =>
            obtain ⟨d', h1, h2⟩ := hkid j d hj hd
            exact Owner.kid _ _ j d' k h1 h2
        | some v =>
          rw [step_hand f i p ready fr kids w c v hc hv]
          have hst : fr.stage = Stage.atRange i := by simpa using (e.hand v hv).1
          cases h with
          | self _ _ ho =>
            rcases ho with ho | ho
            · rw [hst] at ho; cases ho
            · exact Owner.self (fr.goto _) _ (Or.inr ho)
          | kid _ _ j d _ hj hd =>
            obtain ⟨d', h1, h2⟩ := hkid j d hj hd
            exact Owner.kid _ _ j d' k h1 h2

theorem act_marks (f : Fetcher) (ready : Bool) (fr : Frame) (kids : List Worker) (w : World)
    (k : String) (h : (Worker.act f ready fr kids w).2.1.seenUrls.isSeen k = true) :
    w.seenUrls.isSeen k = true ∨ Owner (Worker.act f ready fr kids w).1 k := by
  unfold Worker.act at h ⊢
  split at h
  · split at h
    · exact Or.inl h
    · split at h <;> exact Or.inl h
  · split at h <;> exact Or.inl h
  next hst =>
    simp only [SeenUrls.seen, SeenUrls.isSeen] at h
    by_cases hk : k = fr.url
    · right
      rw [hk]
      simp only [hst]
      exact Owner.self (fr.goto Stage.atSend) _ (Or.inl rfl)
    · left
      simpa [hk, SeenUrls.isSeen] using h
  · split at h <;> exact Or.inl h
  · exact Or.inl h
  · split at h
    · exact Or.inl h
    · split at h <;> exact Or.inl h
  · split at h <;> exact Or.inl h
  · exact Or.inl h

theorem step_marks (f : Fetcher) (k : String) (p : List Nat) :
    ∀ (ready : Bool) (x : Worker) (w : World),
      (Worker.step f p ready x w).2.1.seenUrls.isSeen k = true →
      w.seenUrls.isSeen k = true ∨ Owner (Worker.step f p ready x w).1 k := by
  induction p with
  | nil =>
    intro ready x w h
    cases x with
    | mk fr kids => exact act_marks f ready fr kids w k h
  | cons i p ih =>
    intro ready x w h
    cases x with
    | mk fr kids =>
      cases hc : kids[i]? with
      | none =>
        rw [step_miss f i p ready fr kids w hc] at h
        exact Or.inl h
      | some c =>
        have hlen : i < kids.length := (List.getElem?_eq_some.mp hc).1
        cases hv : (Worker.step f p (decide (fr.stage = Stage.atRange i)) c w).2.2 with
        | none =>
          rw [step_quiet f i p ready fr kids w c hc hv] at h ⊢
          rcases ih _ c w h with h | h
          · exact Or.inl h
          · exact Or.inr (Owner.kid _ _ i _ k (by rw [List.getElem?_set_self hlen]) h)
        | some v =>
          rw [step_hand f i p ready fr kids w c v hc hv] at h ⊢
          rcases ih _ c w h with h | h
          · exact Or.inl h
          · exact Or.inr (Owner.kid _ _ i _ k (by rw [List.getElem?_set_self hlen]) h)

/-! ### every state of a run is good -/

theorem init_good (f : Fetcher) (url : String) (depth : Int) (w0 : World) :
    Good f url depth w0 (Sys.init url depth w0) :=
  ⟨fun _ h => h, fresh_inv f w0 w0 url depth, fun _ h => Or.inl h, rfl, rfl⟩

theorem step_good (f : Fetcher) (url : String) (depth : Int) (w0 : World) (s : Sys)
    (p : List Nat) (h : Good f url depth w0 s) : Good f url depth w0 (Sys.step f s p) := by
  have e := step_effect f p true s.root s.world
  refine ⟨fun k hk => e.seen k (h.grow k hk), step_inv f w0 p true s.root s.world h.grow h.inv,
    ?_, ?_, ?_⟩
  · intro k hk
    rcases step_marks f k p true s.root s.world hk with hk' | hk'
    · rcases h.own k hk' with h0 | h0
      · exact Or.inl h0
      · exact Or.inr (step_owner f w0 k p true s.root s.world h.inv h0)
    · exact Or.inr hk'
  · exact e.url.trans h.url
  · exact e.depth.trans h.depth

theorem run_good (f : Fetcher) (url : String) (depth : Int) (w0 : World)
    (sched : List (List Nat)) :
    ∀ s, Good f url depth w0 s → Good f url depth w0 (Sys.run f sched s) := by
  induction sched with
  | nil => intro s h; exact h
  | cons p ps ih =>
    intro s h
    exact ih _ (step_good f url depth w0 s p h)

theorem reachable_good (f : Fetcher) (url : String) (depth : Int) (w0 : World)
    (sched : List (List Nat)) :
    Good f url depth w0 (Sys.run f sched (Sys.init url depth w0)) :=
  run_good f url depth w0 sched _ (init_good f url depth w0)

/-! ### what the invariant says of the values sent -/

theorem kid_of_mem {fr : Frame} {kids : List Worker} (hko : KidsOk fr kids) (c : Worker)
    (hc : c ∈ kids) : c.fr.url ∈ fr.urls ∧ c.fr.depth = fr.depth - 1 := by
  have : (c.fr.url, c.fr.depth) ∈ kids.map (fun k => (k.fr.url, k.fr.depth)) :=
    List.mem_map.mpr ⟨c, hc, rfl⟩
  rw [hko] at this
  obtain ⟨u, hu, he⟩ := List.mem_map.mp this
  have h1 : u = c.fr.url := congrArg Prod.fst he
  have h2 : fr.depth - 1 = c.fr.depth := congrArg Prod.snd he
  exact ⟨h1 ▸ hu, h2.symm⟩

theorem sound_of_mem (f : Fetcher) (w0 w : World) (fr : Frame) (kids : List Worker)
    (hko : KidsOk fr kids) (hf : fr.Fetched f) (hm : fr.Marked w0 w)
    (ih : ∀ c, c ∈ kids → ∀ v, v ∈ c.fr.sent →
      0 < c.fr.depth ∧ fetchOk f v = true ∧ v ∈ reach f (c.fr.depth - 1).toNat c.fr.url ∧
      w0.seenUrls.isSeen v = false ∧ w.seenUrls.isSeen v = true)
    (v : String) (hv : v ∈ fr.url :: kids.flatMap (fun k => k.fr.sent)) :
    0 < fr.depth ∧ fetchOk f v = true ∧ v ∈ reach f (fr.depth - 1).toNat fr.url ∧
      w0.seenUrls.isSeen v = false ∧ w.seenUrls.isSeen v = true := by
  rcases List.mem_cons.mp hv with hv | hv
  · rw [hv]
    exact ⟨hf.1, hf.2.1, self_mem_reach f _ _, hm.1, hm.2⟩
  · obtain ⟨c, hc, hvc⟩ := List.mem_flatMap.mp hv
    obtain ⟨hd, hok, hr, h0, h1⟩ := ih c hc v hvc
    obtain ⟨hcu, hcd⟩ := kid_of_mem hko c hc
    refine ⟨hf.1, hok, ?_, h0, h1⟩
    have hk : (fr.depth - 1).toNat = (c.fr.depth - 1).toNat + 1 := by omega
    rw [hk]
    simp only [reach, List.mem_cons, List.mem_flatMap]
    right
    exact ⟨c.fr.url, by rw [← hf.2.2]; exact hcu, hr⟩

theorem sent_sound (f : Fetcher) (w0 w : World) (x : Worker) (h : Inv f w0 w x) :
    ∀ v, v ∈ x.fr.sent →
      0 < x.fr.depth ∧ fetchOk f v = true ∧ v ∈ reach f (x.fr.depth - 1).toNat x.fr.url ∧
      w0.seenUrls.isSeen v = false ∧ w.seenUrls.isSeen v = true := by
  induction h with
  | mk fr kids hl _ ih =>
    intro v hv
    simp only [Worker.fr_mk] at hv ⊢
    cases hst : fr.stage with
    | atFetch => rw [hst] at hl; rw [hl.2] at hv; simp at hv
    | atIsSeen => rw [hst] at hl; rw [hl.2.1] at hv; simp at hv
    | atSeen => rw [hst] at hl; rw [hl.2.1] at hv; simp at hv
    | atSend => rw [hst] at hl; rw [hl.2.1] at hv; simp at hv
    | atSpawn =>
      rw [hst] at hl
      obtain ⟨_, hs, hf, hm⟩ := hl
      rw [hs] at hv
      have : v = fr.url := by simpa using hv
      rw [this]
      exact ⟨hf.1, hf.2.1, self_mem_reach f _ _, hm.1, hm.2⟩
    | atRange i =>
      rw [hst] at hl
      obtain ⟨hko, hf, hm, hs, _, _⟩ := hl
      exact sound_of_mem f w0 w fr kids hko hf hm ih v (by rw [← hs]; exact hv)
    | atRelay i u =>
      rw [hst] at hl
      obtain ⟨hko, hf, hm, hs, _, _⟩ := hl
      exact sound_of_mem f w0 w fr kids hko hf hm ih v
        (by rw [← hs]; exact List.mem_append_left _ hv)
    | returned =>
      rw [hst] at hl
      rcases hl with hl | hl
      · rw [hl.2.1] at hv; simp at hv
      · obtain ⟨hko, hf, hm, hs, _⟩ := hl
        exact sound_of_mem f w0 w fr kids hko hf hm ih v (by rw [← hs]; exact hv)

theorem owner_sent (f : Fetcher) (w0 w : World) (x : Worker) (k : String)
    (h : Inv f w0 w x) (hr : x.fr.stage = Stage.returned) (ho : Owner x k) :
    k ∈ x.fr.sent := by
  induction ho with
  | self fr kids hown =>
    have hl := h.local
    simp only [Worker.fr_mk] at hr ⊢
    rw [hr] at hl
    rcases hown with hown | hown
    · rw [hr] at hown; cases hown
    · rcases hl with hl | hl
      · exact absurd hl.2.1 hown
      · rw [hl.2.2.2.1]; exact List.mem_cons_self _ _
  | kid fr kids j c k hj _ ih =>
    have hl := h.local
    simp only [Worker.fr_mk] at hr ⊢
    rw [hr] at hl
    have hc : c ∈ kids := List.getElem?_mem hj
    rcases hl with hl | hl
    · rw [hl.1] at hc; simp at hc
    · rw [hl.2.2.2.1]
      refine List.mem_cons_of_mem _ (List.mem_flatMap.mpr ⟨c, hc, ?_⟩)
      exact ih (h.kid c hc) (hl.2.2.2.2 c hc)

/-! ### consequences at the end of a run -/

theorem Inv.local' {f : Fetcher} {w0 w : World} {x : Worker} (h : Inv f w0 w x) :
    LocalAt f w0 w x.fr x.kids x.fr.stage := by
  cases x with
  | mk fr kids => exact h.local

theorem Inv.kid' {f : Fetcher} {w0 w : World} {x : Worker} (h : Inv f w0 w x) :
    ∀ k, k ∈ x.kids → Inv f w0 w k := by
  cases x with
  | mk fr kids => exact h.kid

theorem not_owner_childless (x : Worker) (k : String) (hk : x.kids = [])
    (hs : x.fr.sent = []) (hst : x.fr.stage = Stage.returned) : ¬ Owner x k := by
  intro ho
  cases ho with
  | self fr kids hown =>
    rcases hown with h | h
    · simp only [Worker.fr_mk] at hst; rw [hst] at h; cases h
    · exact h hs
  | kid fr kids j c _ hj _ =>
    simp only [Worker.kids_mk] at hk
    rw [hk] at hj
    simp at hj

/-- At the end of a run whose start URL fetches, had depth at least 1 and was
not visited, the root worker passed its check. -/
theorem root_passed (f : Fetcher) (u : String) (d : Int) (w0 : World) (s : Sys)
    (g : Good f u d w0 s) (hd : 1 ≤ d) (hok : fetchOk f u = true)
    (hs : w0.seenUrls.isSeen u = false) (hfin : s.root.fr.stage = Stage.returned) :
    KidsOk s.root.fr s.root.kids ∧ s.root.fr.Fetched f ∧ s.root.fr.Marked w0 s.world ∧
      s.root.fr.sent = s.root.fr.url :: s.root.kids.flatMap (fun k => k.fr.sent) ∧
      ∀ k, k ∈ s.root.kids → k.fr.stage = Stage.returned := by
  have hl := g.inv.local'
  rw [hfin] at hl
  rcases hl with hl | hl
  · exfalso
    have hseen := hl.2.2 (by rw [g.depth]; omega) (by rw [g.url]; exact hok)
    rcases g.own _ hseen with h0 | h0
    · rw [g.url, hs] at h0; cases h0
    · exact not_owner_childless _ _ hl.1 hl.2.1 hfin h0
  · exact hl

theorem finished_iff (s : Sys) : s.finished = true ↔ s.root.fr.stage = Stage.returned := by
  simp [Sys.finished]

theorem seen_at_end (f : Fetcher) (u : String) (d : Int) (w0 : World) (s : Sys)
    (g : Good f u d w0 s) (hfin : s.root.fr.stage = Stage.returned) (k : String)
    (hk : s.world.seenUrls.isSeen k = true) :
    w0.seenUrls.isSeen k = true ∨ k ∈ s.out := by
  rcases g.own k hk with h | h
  · exact Or.inl h
  · exact Or.inr (owner_sent f w0 s.world s.root k g.inv hfin h)

theorem returned_marked (f : Fetcher) (w0 w : World) (c : Worker) (h : Inv f w0 w c)
    (hr : c.fr.stage = Stage.returned) (hd : 0 < c.fr.depth)
    (hok : fetchOk f c.fr.url = true) : w.seenUrls.isSeen c.fr.url = true := by
  have hl := h.local'
  rw [hr] at hl
  rcases hl with hl | hl
  · exact hl.2.2 hd hok
  · exact hl.2.2.1.2

/-! ### the claims on all runs -/

/-- C12: under every schedule and at every moment of a crawl no URL is unmarked:
what was visited before the crawl stays visited; every URL emitted so far was
not visited before the crawl and is visited now; and when the crawl has ended
the visited set is the visited set before the crawl together with exactly the
URLs emitted. -/
theorem C12_visited_grows_by_emitted (f : Fetcher) (url : String) (depth : Int) (w0 : World)
    (sched : List (List Nat)) :
    (∀ k, w0.seenUrls.isSeen k = true →
      (Sys.run f sched (Sys.init url depth w0)).world.seenUrls.isSeen k = true) ∧
    (∀ k, k ∈ (Sys.run f sched (Sys.init url depth w0)).out →
      w0.seenUrls.isSeen k = false ∧
      (Sys.run f sched (Sys.init url depth w0)).world.seenUrls.isSeen k = true) ∧
    ((Sys.run f sched (Sys.init url depth w0)).finished = true →
      ∀ k, (Sys.run f sched (Sys.init url depth w0)).world.seenUrls.isSeen k =
        (w0.seenUrls.isSeen k ||
          decide (k ∈ (Sys.run f sched (Sys.init url depth w0)).out))) := by
  have g := reachable_good f url depth w0 sched
  generalize Sys.run f sched (Sys.init url depth w0) = s at g ⊢
  have hsent : ∀ k, k ∈ s.out →
      w0.seenUrls.isSeen k = false ∧ s.world.seenUrls.isSeen k = true := by
    intro k hk
    have := sent_sound f w0 s.world s.root g.inv k hk
    exact ⟨this.2.2.2.1, this.2.2.2.2⟩
  refine ⟨g.grow, hsent, ?_⟩
  intro hfin k
  rw [finished_iff] at hfin
  cases hk : s.world.seenUrls.isSeen k with
  | true =>
    rcases seen_at_end f url depth w0 s g hfin k hk with h | h
    · simp [h]
    · simp [h]
  | false =>
    have h0 : w0.seenUrls.isSeen k = false := by
      cases h0 : w0.seenUrls.isSeen k with
      | false => rfl
      | true => rw [g.grow k h0] at hk; cases hk
    have h1 : k ∉ s.out := by
      intro hmem
      rw [(hsent k hmem).2] at hk; cases hk
    simp [h0, h1]

/-- C16: under every schedule, every URL a crawl has emitted is one whose fetch
succeeds and that is reachable from the starting URL by following at most
`d-1` outbound links of successfully fetched pages; so a URL unknown to the
fetcher is never emitted. -/
theorem C16_emitted_reachable (f : Fetcher) (start : String) (d : Int) (w0 : World)
    (sched : List (List Nat)) (u : String)
    (h : u ∈ (Sys.run f sched (Sys.init start d w0)).out) :
    fetchOk f u = true ∧ u ∈ reach f (d - 1).toNat start := by
  have g := reachable_good f start d w0 sched
  have := sent_sound f w0 _ _ g.inv u h
  rw [g.url, g.depth] at this
  exact ⟨this.2.1, this.2.2.1⟩

/-- C15: for depth `d >= 1` and a URL `u` whose fetch succeeds and which is
not visited when the crawl starts, under every schedule the crawl, once ended,
has emitted `u` first and then what each of the workers it started has sent on
its channel, concatenated in the order of the link list; it started one worker
per outbound link of `u`, in that order, at depth `d-1`, and each of them has
returned, so that what it sent is its whole output. -/
theorem C15_emits_self_then_links (f : Fetcher) (u : String) (d : Int) (w0 : World)
    (sched : List (List Nat)) (hd : 1 ≤ d) (hok : fetchOk f u = true)
    (hs : w0.seenUrls.isSeen u = false)
    (hfin : (Sys.run f sched (Sys.init u d w0)).finished = true) :
    (Sys.run f sched (Sys.init u d w0)).out =
      u :: (Sys.run f sched (Sys.init u d w0)).root.kids.flatMap (fun k => k.fr.sent) ∧
    (Sys.run f sched (Sys.init u d w0)).root.kids.map (fun k => (k.fr.url, k.fr.depth)) =
      (links f u).map (fun v => (v, d - 1)) ∧
    (∀ k, k ∈ (Sys.run f sched (Sys.init u d w0)).root.kids →
      k.fr.stage = Stage.returned) := by
  have g := reachable_good f u d w0 sched
  generalize Sys.run f sched (Sys.init u d w0) = s at g hfin ⊢
  rw [finished_iff] at hfin
  obtain ⟨hko, hf, _, hsent, hall⟩ := root_passed f u d w0 s g hd hok hs hfin
  refine ⟨?_, ?_, hall⟩
  · rw [Sys.out, hsent, g.url]
  · unfold KidsOk at hko
    rw [hko, hf.2.2, g.url, g.depth]

/-- C5 amended: for depth `d >= 1` and a fresh visited set, under every
schedule the crawl, once ended, has emitted the starting URL when its fetch
succeeds and, for `d >= 2`, every outbound link of the starting page whose
fetch succeeds; that is, every URL reachable by following at most
`min (d-1) 1` links whose own fetch succeeds. -/
theorem C5_emits_within_one_link (f : Fetcher) (start : String) (d : Int) (u : String)
    (sched : List (List Nat)) (hd : 1 ≤ d)
    (hr : u ∈ reach f (min (d - 1).toNat 1) start) (hok : fetchOk f u = true)
    (hfin : (Sys.run f sched (Sys.init start d World.fresh)).finished = true) :
    u ∈ (Sys.run f sched (Sys.init start d World.fresh)).out := by
  have g := reachable_good f start d World.fresh sched
  generalize Sys.run f sched (Sys.init start d World.fresh) = s at g hfin ⊢
  rw [finished_iff] at hfin
  have hstart : ∀ (h : fetchOk f start = true), start ∈ s.out := by
    intro h
    obtain ⟨_, _, _, hsent, _⟩ := root_passed f start d World.fresh s g hd h rfl hfin
    rw [Sys.out, hsent, g.url]
    exact List.mem_cons_self _ _
  by_cases h1 : d = 1
  · subst h1
    have : u = start := by simpa [reach] using hr
    rw [this] at hok ⊢
    exact hstart hok
  · have hm : min (d - 1).toNat 1 = 1 := by omega
    rw [hm] at hr
    simp only [reach, List.mem_cons, List.mem_flatMap, List.mem_singleton, List.not_mem_nil,
      or_false] at hr
    rcases hr with hr | ⟨v, hv, huv⟩
    · rw [hr] at hok ⊢
      exact hstart hok
    · subst huv
      have hsok : fetchOk f start = true := by
        cases hfs : f start with
        | error e => simp [links, hfs] at hv
        | ok r => simp [fetchOk, hfs]
      obtain ⟨hko, hf, _, _, hall⟩ := root_passed f start d World.fresh s g hd hsok rfl hfin
      -- the worker started for the link `u`
      have hmem : (u, d - 1) ∈ s.root.kids.map (fun k => (k.fr.url, k.fr.depth)) := by
        unfold KidsOk at hko
        rw [hko, hf.2.2, g.url, g.depth]
        exact List.mem_map.mpr ⟨u, hv, rfl⟩
      obtain ⟨c, hc, hce⟩ := List.mem_map.mp hmem
      have hcu : c.fr.url = u := congrArg Prod.fst hce
      have hcd : c.fr.depth = d - 1 := congrArg Prod.snd hce
      have hseen := returned_marked f World.fresh s.world c (g.inv.kid' c hc) (hall c hc)
        (by rw [hcd]; omega) (by rw [hcu]; exact hok)
      rw [hcu] at hseen
      rcases seen_at_end f start d World.fresh s g hfin u hseen with h | h
      · cases h
      · exact h

/-! ### counting the calls of `Fetch` -/

theorem fetchesAll_set (u : String) (kids : List Worker) (i : Nat) (c c' : Worker) (n : Nat)
    (hc : kids[i]? = some c) (h : c'.fetches u = c.fetches u + n) :
    fetchesAll u (kids.set i c') = fetchesAll u kids + n := by
  induction kids generalizing i with
  | nil => simp at hc
  | cons x xs ih =>
    cases i with
    | zero =>
      simp at hc
      subst hc
      simp only [List.set_cons_zero, fetchesAll, h]
      omega
    | succ j =>
      simp at hc
      simp only [List.set_cons_succ, fetchesAll, ih j hc]
      omega

theorem fetches_fresh (u v : String) (d : Int) : (Worker.fresh v d).fetches u = 0 := by
  simp [Worker.fetches, Worker.fresh, fetchesAll]

theorem fetchesAll_fresh (u : String) (urls : List String) (d : Int) :
    fetchesAll u (urls.map (fun v => Worker.fresh v d)) = 0 := by
  induction urls with
  | nil => rfl
  | cons v vs ih => simp only [List.map_cons, fetchesAll, ih, fetches_fresh]

theorem count_single (u v : String) : [v].count u = if v = u then 1 else 0 := by
  by_cases h : v = u
  · simp [h]
  · simp [h, List.count_cons]

theorem act_fetches (f : Fetcher) (w0 : World) (u : String) (ready : Bool) (fr : Frame)
    (kids : List Worker) (w : World) (hinv : Inv f w0 w (Worker.mk fr kids)) :
    ∃ log, (Worker.act f ready fr kids w).2.1.fetched = w.fetched ++ log ∧
      (Worker.act f ready fr kids w).1.fetches u =
        (Worker.mk fr kids).fetches u + log.count u := by
  have hl := hinv.local
  unfold Worker.act
  split
  next hst =>
    split
    next hd =>
      refine ⟨[], by simp, ?_⟩
      simp [Worker.fetches, hst, not_lt.mpr hd]
    next hd =>
      split
      · refine ⟨[fr.url], rfl, ?_⟩
        rw [count_single]
        simp [Worker.fetches, hst, not_le.mp hd]
        omega
      · refine ⟨[fr.url], rfl, ?_⟩
        rw [count_single]
        simp [Worker.fetches, hst, not_le.mp hd]
        omega
  next hst =>
    split <;> exact ⟨[], by simp, by simp [Worker.fetches, hst]⟩
  next hst => exact ⟨[], by simp, by simp [Worker.fetches, hst]⟩
  next hst =>
    split <;> exact ⟨[], by simp, by simp [Worker.fetches, hst]⟩
  next hst =>
    rw [hst] at hl
    refine ⟨[], by simp, ?_⟩
    simp [Worker.fetches, hst, hl.1, fetchesAll_fresh, fetchesAll]
  next i hst =>
    split
    · exact ⟨[], by simp, by simp [Worker.fetches, hst]⟩
    · split <;> exact ⟨[], by simp, by simp [Worker.fetches, hst]⟩
  next i v hst =>
    split <;> exact ⟨[], by simp, by simp [Worker.fetches, hst]⟩
  next hst => exact ⟨[], by simp, by simp [Worker.fetches, hst]⟩

theorem step_fetches (f : Fetcher) (w0 : World) (u : String) (p : List Nat) :
    ∀ (ready : Bool) (x : Worker) (w : World), Inv f w0 w x →
      ∃ log, (Worker.step f p ready x w).2.1.fetched = w.fetched ++ log ∧
        (Worker.step f p ready x w).1.fetches u = x.fetches u + log.count u := by
  induction p with
  | nil =>
    intro ready x w hinv
    cases x with
    | mk fr kids => exact act_fetches f w0 u ready fr kids w hinv
  | cons i p ih =>
    intro ready x w hinv
    cases x with
    | mk fr kids =>
      cases hc : kids[i]? with
      | none =>
        rw [step_miss f i p ready fr kids w hc]
        exact ⟨[], by simp, by simp⟩
      | some c =>
        have e := step_effect f p (decide (fr.stage = Stage.atRange i)) c w
        obtain ⟨log, h1, h2⟩ := ih (decide (fr.stage = Stage.atRange i)) c w
          (hinv.kid c (List.getElem?_mem hc))
        cases hv : (Worker.step f p (decide (fr.stage = Stage.atRange i)) c w).2.2 with
        | none =>
          rw [step_quiet f i p ready fr kids w c hc hv]
          refine ⟨log, h1, ?_⟩
          simp only [Worker.fetches, fetchesAll_set u kids i c _ _ hc h2]
          omega
        | some v =>
          rw [step_hand f i p ready fr kids w c v hc hv]
          have hst : fr.stage = Stage.atRange i := by simpa using (e.hand v hv).1
          have hne : fr.stage ≠ Stage.atFetch := by rw [hst]; simp
          have hset := fetchesAll_set u kids i c _ _ hc h2
          refine ⟨log, h1, ?_⟩
          simp only [Worker.fetches, Frame.goto_url, Frame.goto_stage, Frame.goto_depth]
          rw [hset]
          simp [hne]
          omega

theorem run_fetches (f : Fetcher) (url : String) (depth : Int) (w0 : World) (u : String)
    (sched : List (List Nat)) :
    ∀ s, Good f url depth w0 s →
      ∃ log, (Sys.run f sched s).world.fetched = s.world.fetched ++ log ∧
        (Sys.run f sched s).root.fetches u = s.root.fetches u + log.count u := by
  induction sched with
  | nil => intro s _; exact ⟨[], by simp [Sys.run], by simp [Sys.run]⟩
  | cons p ps ih =>
    intro s g
    obtain ⟨l1, a1, b1⟩ := step_fetches f w0 u p true s.root s.world g.inv
    obtain ⟨l2, a2, b2⟩ := ih (Sys.step f s p) (step_good f url depth w0 s p g)
    refine ⟨l1 ++ l2, ?_, ?_⟩
    · show (Sys.run f ps (Sys.step f s p)).world.fetched = _
      rw [a2]
      show (Worker.step f p true s.root s.world).2.1.fetched ++ l2 = _
      rw [a1, List.append_assoc]
    · show (Sys.run f ps (Sys.step f s p)).root.fetches u = _
      rw [b2]
      show (Worker.step f p true s.root s.world).1.fetches u + _ = _
      rw [b1, List.count_append]
      omega

theorem calls_count (f : Fetcher) (url : String) (depth : Int) (w0 : World) (u : String)
    (sched : List (List Nat)) :
    (Sys.calls w0 (Sys.run f sched (Sys.init url depth w0))).count u =
      (Sys.run f sched (Sys.init url depth w0)).root.fetches u := by
  obtain ⟨log, a, b⟩ := run_fetches f url depth w0 u sched _ (init_good f url depth w0)
  rw [Sys.calls, a, b]
  simp [Sys.init, Worker.fresh, Worker.fetches, fetchesAll]

/-! ### the workers of a finished tree against the values sent -/

theorem fetchesAll_le (f : Fetcher) (u : String) (kids : List Worker)
    (h : ∀ k, k ∈ kids → k.fetches u ≤ (if k.fr.url = u then 1 else 0) +
      (k.fr.sent.map (fun p => (links f p).count u)).sum) :
    fetchesAll u kids ≤ (kids.map (fun k => k.fr.url)).count u +
      ((kids.flatMap (fun k => k.fr.sent)).map (fun p => (links f p).count u)).sum := by
  induction kids with
  | nil => simp [fetchesAll]
  | cons k ks ih =>
    have hk := h k (List.mem_cons_self _ _)
    have hks := ih (fun c hc => h c (List.mem_cons_of_mem _ hc))
    simp only [fetchesAll, List.map_cons, List.flatMap_cons, List.map_append, List.sum_append,
      List.count_cons]
    have : (if (k.fr.url == u) = true then 1 else 0) = (if k.fr.url = u then 1 else 0) := by
      by_cases e : k.fr.url = u <;> simp [e]
    omega

theorem fetches_le (f : Fetcher) (w0 w : World) (u : String) (x : Worker)
    (h : Inv f w0 w x) (hr : x.fr.stage = Stage.returned) :
    x.fetches u ≤ (if x.fr.url = u then 1 else 0) +
      (x.fr.sent.map (fun p => (links f p).count u)).sum := by
  induction h with
  | mk fr kids hl _ ih =>
    simp only [Worker.fr_mk] at hr ⊢
    rw [hr] at hl
    rcases hl with hl | hl
    · simp only [Worker.fetches, hl.1, hl.2.1, fetchesAll]
      split <;> split <;> simp_all
    · obtain ⟨hko, hf, _, hs, hall⟩ := hl
      have hkids := fetchesAll_le f u kids (fun k hk => ih k hk (hall k hk))
      have hurls : kids.map (fun k => k.fr.url) = links f fr.url := by
        unfold KidsOk at hko
        have := congrArg (List.map Prod.fst) hko
        simpa [Function.comp_def, hf.2.2] using this
      rw [hurls] at hkids
      simp only [Worker.fetches, hs, List.map_cons, List.sum_cons]
      split <;> split <;> simp_all
      all_goals omega

/-- C6 amended: under every schedule, when the crawl has ended `Fetch` has been
called with a URL `u` at most once for every time `u` was discovered: once
when `u` is the starting URL, plus once for every occurrence of `u` in the
outbound-link list of an emitted page, an emitted page counting as often as it
was emitted. -/
theorem C6_fetch_calls_bound (f : Fetcher) (url : String) (depth : Int) (w0 : World)
    (sched : List (List Nat)) (u : String)
    (hfin : (Sys.run f sched (Sys.init url depth w0)).finished = true) :
    (Sys.calls w0 (Sys.run f sched (Sys.init url depth w0))).count u ≤
      (if url = u then 1 else 0) +
        ((Sys.run f sched (Sys.init url depth w0)).out.map
          (fun p => (links f p).count u)).sum := by
  rw [calls_count]
  have g := reachable_good f url depth w0 sched
  rw [finished_iff] at hfin
  have := fetches_le f w0 _ u _ g.inv hfin
  rw [g.url] at this
  exact this

/-! ### the work left decreases -/

theorem workAll_fresh (f : Fetcher) (l : Nat) (urls : List String) (d : Int) :
    workAll f l (urls.map (fun v => Worker.fresh v d)) =
      (urls.map (cost f d.toNat l)).sum := by
  induction urls with
  | nil => rfl
  | cons v vs ih =>
    simp only [List.map_cons, workAll, ih, List.sum_cons]
    simp [Worker.work, Worker.fresh, Frame.rest, workAll]

theorem sum_map_succ (g : String → Nat) (urls : List String) :
    (urls.map (fun v => g v + 1)).sum = (urls.map g).sum + urls.length := by
  induction urls with
  | nil => rfl
  | cons v vs ih => simp only [List.map_cons, List.sum_cons, ih, List.length_cons]; omega

theorem workAll_set (f : Fetcher) (l : Nat) (kids : List Worker) (i : Nat) (c c' : Worker)
    (hc : kids[i]? = some c) :
    workAll f l (kids.set i c') + c.work f l = workAll f l kids + c'.work f l := by
  induction kids generalizing i with
  | nil => simp at hc
  | cons x xs ih =>
    cases i with
    | zero =>
      simp at hc
      subst hc
      simp only [List.set_cons_zero, workAll]
      omega
    | succ j =>
      simp at hc
      have := ih j hc
      simp only [List.set_cons_succ, workAll]
      omega

theorem cost_pos (f : Fetcher) (n l : Nat) (u : String) : 0 < cost f n l u := by
  cases n with
  | zero => simp [cost]
  | succ n =>
    simp only [cost]
    split
    · omega
    · omega

theorem act_work (f : Fetcher) (l : Nat) (ready : Bool) (fr : Frame) (kids : List Worker)
    (w : World) :
    (Worker.enabled ready fr kids = true →
      Eff f l (Worker.mk fr kids) (Worker.act f ready fr kids w)) ∧
    (Worker.enabled ready fr kids = false →
      Worker.act f ready fr kids w = (Worker.mk fr kids, w, none)) := by
  cases hst : fr.stage with
  | atFetch =>
    refine ⟨fun _ => Or.inl ?_, fun h => by simp [Worker.enabled, hst] at h⟩
    simp only [Worker.act, hst]
    by_cases hd : fr.depth ≤ 0
    · have h0 : fr.depth.toNat = 0 := by omega
      simp [hd, Worker.work, Frame.rest, hst, h0, cost]
    · have h0 : fr.depth.toNat = (fr.depth - 1).toNat + 1 := by omega
      simp only [hd, if_false]
      cases he : f fr.url with
      | error e =>
        simp only [Worker.work, Frame.rest, hst, Frame.goto_stage, true_and]
        rw [h0]
        simp only [cost, he]
        omega
      | ok r =>
        obtain ⟨body, urls⟩ := r
        simp only [Worker.work, Frame.rest, hst, h0, cost, he, true_and]
        omega
  | atIsSeen =>
    refine ⟨fun _ => Or.inl ?_, fun h => by simp [Worker.enabled, hst] at h⟩
    simp only [Worker.act, hst]
    by_cases hs : w.seenUrls.isSeen fr.url = true
    · simp only [hs, if_true, Worker.work, Frame.rest, hst, Frame.goto_stage, true_and]
      omega
    · simp only [hs, Worker.work, Frame.rest, hst, Frame.goto_stage, Frame.goto_urls,
        Frame.goto_depth, true_and]
      simp
  | atSeen =>
    refine ⟨fun _ => Or.inl ?_, fun h => by simp [Worker.enabled, hst] at h⟩
    simp only [Worker.act, hst, Worker.work, Frame.rest, Frame.goto_stage, Frame.goto_urls,
      Frame.goto_depth, true_and]
    omega
  | atSend =>
    cases ready with
    | true =>
      refine ⟨fun _ => Or.inr ⟨fr.url, ?_⟩, fun h => by simp [Worker.enabled, hst] at h⟩
      simp only [Worker.act, hst, if_true, Worker.work, Frame.rest, Frame.push_stage,
        Frame.push_urls, Frame.push_depth, true_and]
      omega
    | false =>
      exact ⟨fun h => by simp [Worker.enabled, hst] at h, fun _ => by simp [Worker.act, hst]⟩
  | atSpawn =>
    refine ⟨fun _ => Or.inl ?_, fun h => by simp [Worker.enabled, hst] at h⟩
    simp only [Worker.act, hst, Worker.work, Frame.rest, Frame.goto_stage, List.length_map,
      true_and]
    rw [workAll_fresh, sum_map_succ (cost f (fr.depth - 1).toNat (l + 1))]
    omega
  | atRange i =>
    cases hk : kids[i]? with
    | none =>
      refine ⟨fun _ => Or.inl ?_, fun h => by simp [Worker.enabled, hst, hk] at h⟩
      simp only [Worker.act, hst, hk, Worker.work, Frame.rest, Frame.goto_stage, true_and]
      omega
    | some k =>
      have hlen : i < kids.length := (List.getElem?_eq_some.mp hk).1
      by_cases hr : k.fr.stage = Stage.returned
      · refine ⟨fun _ => Or.inl ?_, fun h => by simp [Worker.enabled, hst, hk, hr] at h⟩
        simp only [Worker.act, hst, hk, hr, if_true, Worker.work, Frame.rest, Frame.goto_stage,
          true_and]
        omega
      · exact ⟨fun h => by simp [Worker.enabled, hst, hk, hr] at h,
          fun _ => by simp [Worker.act, hst, hk, hr]⟩
  | atRelay i u =>
    cases ready with
    | true =>
      refine ⟨fun _ => Or.inr ⟨u, ?_⟩, fun h => by simp [Worker.enabled, hst] at h⟩
      simp only [Worker.act, hst, if_true, Worker.work, Frame.rest, Frame.push_stage, true_and]
      omega
    | false =>
      exact ⟨fun h => by simp [Worker.enabled, hst] at h, fun _ => by simp [Worker.act, hst]⟩
  | returned =>
    exact ⟨fun h => by simp [Worker.enabled, hst] at h, fun _ => by simp [Worker.act, hst]⟩

theorem lift_eff (f : Fetcher) (l i : Nat) (p : List Nat) (ready : Bool) (fr : Frame)
    (kids : List Worker) (w : World) (c : Worker) (hc : kids[i]? = some c)
    (h : Eff f (l + 1) c (Worker.step f p (decide (fr.stage = Stage.atRange i)) c w)) :
    Eff f l (Worker.mk fr kids) (Worker.step f (i :: p) ready (Worker.mk fr kids) w) := by
  have hset := workAll_set f (l + 1) kids i c
    (Worker.step f p (decide (fr.stage = Stage.atRange i)) c w).1 hc
  have hlen : i < kids.length := (List.getElem?_eq_some.mp hc).1
  rcases h with ⟨hv, hlt⟩ | ⟨v, hv, hle⟩
  · rw [step_quiet f i p ready fr kids w c hc hv]
    left
    refine ⟨rfl, ?_⟩
    simp only [Worker.work, List.length_set]
    omega
  · have e := step_effect f p (decide (fr.stage = Stage.atRange i)) c w
    have hst : fr.stage = Stage.atRange i := by simpa using (e.hand v hv).1
    rw [step_hand f i p ready fr kids w c v hc hv]
    left
    refine ⟨rfl, ?_⟩
    have hold : (Worker.mk fr kids).work f l =
        1 + (kids.length - i) + workAll f (l + 1) kids := by
      simp [Worker.work, Frame.rest, hst]
    generalize Worker.step f p (decide (fr.stage = Stage.atRange i)) c w = r at hset hle ⊢
    have hnew : (Worker.mk (fr.goto (Stage.atRelay i v)) (kids.set i r.1)).work f l =
        1 + (kids.length - i) + (l + 1) + workAll f (l + 1) (kids.set i r.1) := by
      simp [Worker.work, Frame.rest]
    rw [hold, hnew]
    omega

theorem step_work (f : Fetcher) (p : List Nat) :
    ∀ (l : Nat) (ready : Bool) (x : Worker) (w : World),
      Worker.step f p ready x w = (x, w, none) ∨ Eff f l x (Worker.step f p ready x w) := by
  induction p with
  | nil =>
    intro l ready x w
    cases x with
    | mk fr kids =>
      rw [step_nil]
      cases he : Worker.enabled ready fr kids with
      | true => exact Or.inr ((act_work f l ready fr kids w).1 he)
      | false => exact Or.inl ((act_work f l ready fr kids w).2 he)
  | cons i p ih =>
    intro l ready x w
    cases x with
    | mk fr kids =>
      cases hc : kids[i]? with
      | none => exact Or.inl (step_miss f i p ready fr kids w hc)
      | some c =>
        rcases ih (l + 1) (decide (fr.stage = Stage.atRange i)) c w with h | h
        · left
          have hv : (Worker.step f p (decide (fr.stage = Stage.atRange i)) c w).2.2 = none := by
            rw [h]
          rw [step_quiet f i p ready fr kids w c hc hv, h]
          simp only [set_self kids i c hc]
        · exact Or.inr (lift_eff f l i p ready fr kids w c hc h)

theorem progress (f : Fetcher) (w : World) :
    ∀ (x : Worker) (l : Nat), x.fr.stage ≠ Stage.returned →
      ∃ p, Eff f l x (Worker.step f p true x w) := by
  intro x
  induction x using Worker.induct with
  | h fr kids ih =>
    intro l hne
    simp only [Worker.fr_mk] at hne
    cases he : Worker.enabled true fr kids with
    | true => exact ⟨[], (act_work f l true fr kids w).1 he⟩
    | false =>
      cases hst : fr.stage with
      | atFetch => simp [Worker.enabled, hst] at he
      | atIsSeen => simp [Worker.enabled, hst] at he
      | atSeen => simp [Worker.enabled, hst] at he
      | atSend => simp [Worker.enabled, hst] at he
      | atSpawn => simp [Worker.enabled, hst] at he
      | atRelay i u => simp [Worker.enabled, hst] at he
      | returned => exact absurd hst hne
      | atRange i =>
        cases hc : kids[i]? with
        | none => simp [Worker.enabled, hst, hc] at he
        | some c =>
          have hcr : c.fr.stage ≠ Stage.returned := by
            simpa [Worker.enabled, hst, hc] using he
          obtain ⟨p, hp⟩ := ih c (List.getElem?_mem hc) (l + 1) hcr
          refine ⟨i :: p, lift_eff f l i p true fr kids w c hc ?_⟩
          have hd : decide (fr.stage = Stage.atRange i) = true := by simp [hst]
          rw [hd]
          exact hp

theorem sys_step_work (f : Fetcher) (s : Sys) (p : List Nat) :
    Sys.step f s p = s ∨ (Sys.step f s p).work f < s.work f := by
  rcases step_work f p 0 true s.root s.world with h | h
  · left
    simp only [Sys.step, h]
  · right
    rcases h with ⟨_, hlt⟩ | ⟨v, _, hle⟩
    · exact hlt
    · simp only [Sys.work, Sys.step]
      omega

theorem sys_progress (f : Fetcher) (s : Sys) (h : s.finished = false) :
    ∃ p, (Sys.step f s p).work f < s.work f := by
  have hne : s.root.fr.stage ≠ Stage.returned := by
    simpa [Sys.finished] using h
  obtain ⟨p, hp⟩ := progress f s.world s.root 0 hne
  refine ⟨p, ?_⟩
  rcases hp with ⟨_, hlt⟩ | ⟨v, _, hle⟩
  · exact hlt
  · simp only [Sys.work, Sys.step]
    omega

theorem can_finish (f : Fetcher) (n : Nat) :
    ∀ s : Sys, s.work f ≤ n → ∃ sched, (Sys.run f sched s).finished = true := by
  induction n with
  | zero =>
    intro s hs
    cases hf : s.finished with
    | true => exact ⟨[], hf⟩
    | false =>
      obtain ⟨p, hp⟩ := sys_progress f s hf
      omega
  | succ n ih =>
    intro s hs
    cases hf : s.finished with
    | true => exact ⟨[], hf⟩
    | false =>
      obtain ⟨p, hp⟩ := sys_progress f s hf
      obtain ⟨sched, hsched⟩ := ih (Sys.step f s p) (by omega)
      exact ⟨p :: sched, hsched⟩

theorem run_append (f : Fetcher) (a b : List (List Nat)) (s : Sys) :
    Sys.run f (a ++ b) s = Sys.run f b (Sys.run f a s) := by
  simp [Sys.run, List.foldl_append]

/-- C17: for every fetcher, starting URL, integer depth and initial state, with
`main` receiving from the channel as its `range` loop does, and after every
schedule run so far: the crawl can be run on to its end, where the
first worker has returned and closed its channel; as long as it has not ended
some worker can take a step, so no state is a deadlock, cycles in the link
graph or not; and every step that changes the state lowers `Sys.work`, a
number fixed by the fetcher, the URL and the depth, so no run takes more than
`Sys.work` such steps. -/
theorem C17_Crawl_terminates_closed (f : Fetcher) (url : String) (depth : Int) (w0 : World)
    (sched : List (List Nat)) :
    (∃ more, (Sys.run f (sched ++ more) (Sys.init url depth w0)).finished = true) ∧
    ((Sys.run f sched (Sys.init url depth w0)).finished = true ∨
      ∃ p, (Sys.step f (Sys.run f sched (Sys.init url depth w0)) p).work f <
        (Sys.run f sched (Sys.init url depth w0)).work f) ∧
    (∀ p, Sys.step f (Sys.run f sched (Sys.init url depth w0)) p =
        Sys.run f sched (Sys.init url depth w0) ∨
      (Sys.step f (Sys.run f sched (Sys.init url depth w0)) p).work f <
        (Sys.run f sched (Sys.init url depth w0)).work f) := by
  generalize hs : Sys.run f sched (Sys.init url depth w0) = s
  refine ⟨?_, ?_, fun p => sys_step_work f s p⟩
  · obtain ⟨more, hm⟩ := can_finish f (s.work f) s (le_refl _)
    exact ⟨more, by rw [run_append, hs]; exact hm⟩
  · cases hf : s.finished with
    | true => exact Or.inl rfl
    | false => exact Or.inr (sys_progress f s hf)

/-! ### runs evaluated -/

theorem mainRun_finished :
    (Sys.run fetcher.Fetch mainRun (Sys.init "http://golang.org/" 4 World.fresh)).finished
      = true := by
  decide

theorem mainRun_out :
    (Sys.run fetcher.Fetch mainRun (Sys.init "http://golang.org/" 4 World.fresh)).out =
      ["http://golang.org/", "http://golang.org/pkg/",
        "http://golang.org/pkg/fmt/", "http://golang.org/pkg/os/"] := by
  decide

theorem fetcher_pkg_ok : fetchOk fetcher.Fetch "http://golang.org/pkg/" = true := by
  simp [fetchOk, fakeFetcher.Fetch, fetcher, List.lookup]

theorem fetcher_pkg_near :
    "http://golang.org/pkg/" ∈
      reach fetcher.Fetch (min ((4 : Int) - 1).toNat 1) "http://golang.org/" := by
  simp [reach, links, fakeFetcher.Fetch, fetcher, List.lookup]

/-- C4, the code at a failing input: the page `r` lists the link `b` twice, so
`doCrawl` starts two workers for `b`. Under the schedule `twiceRace` both call
`seenUrls.isSeen("b")` before either calls `seenUrls.seen("b")`; the crawl
ends and has emitted `b` twice. -/
theorem C4_emits_twice :
    (Sys.run twice.Fetch twiceRace (Sys.init "r" 2 World.fresh)).finished = true ∧
    (Sys.run twice.Fetch twiceRace (Sys.init "r" 2 World.fresh)).out = ["r", "b", "b"] ∧
    ¬ (Sys.run twice.Fetch twiceRace (Sys.init "r" 2 World.fresh)).out.Nodup := by
  refine ⟨by decide, by decide, ?_⟩
  have h : (Sys.run twice.Fetch twiceRace (Sys.init "r" 2 World.fresh)).out =
      ["r", "b", "b"] := by decide
  rw [h]
  decide

/-! ### a crawl that misses a page on every run -/

theorem act_kids (f : Fetcher) (b : Bool) (fr : Frame) (kids : List Worker) (w : World) :
    (Worker.act f b fr kids w).1.kids = kids ∨
      (fr.stage = Stage.atSpawn ∧
        (Worker.act f b fr kids w).1.kids =
          fr.urls.map (fun u => Worker.fresh u (fr.depth - 1))) := by
  cases hst : fr.stage with
  | atSpawn => right; simp [Worker.act, hst, Worker.kids]
  | atFetch =>
    left
    simp only [Worker.act, hst]
    split
    · rfl
    · split <;> rfl
  | atIsSeen => left; simp only [Worker.act, hst]; split <;> rfl
  | atSeen => left; simp only [Worker.act, hst]; rfl
  | atSend => left; simp only [Worker.act, hst]; split <;> rfl
  | atRange i =>
    left
    simp only [Worker.act, hst]
    split
    · rfl
    · split <;> rfl
  | atRelay i u => left; simp only [Worker.act, hst]; split <;> rfl
  | returned => left; simp only [Worker.act, hst]; rfl

theorem step_down (f : Fetcher) (i : Nat) (q : List Nat) (b : Bool) (fr : Frame)
    (kids : List Worker) (w : World) (k : Worker) (hk : kids[i]? = some k) :
    (Worker.step f (i :: q) b (Worker.mk fr kids) w).1.kids =
        kids.set i (Worker.step f q (decide (fr.stage = Stage.atRange i)) k w).1 ∧
      (Worker.step f (i :: q) b (Worker.mk fr kids) w).2.1 =
        (Worker.step f q (decide (fr.stage = Stage.atRange i)) k w).2.1 := by
  cases hv : (Worker.step f q (decide (fr.stage = Stage.atRange i)) k w).2.2 with
  | none => rw [step_quiet f i q b fr kids w k hk hv]; exact ⟨rfl, rfl⟩
  | some v => rw [step_hand f i q b fr kids w k v hk hv]; exact ⟨rfl, rfl⟩

theorem kids_two (fr : Frame) (kids : List Worker) (a b : String) (h : KidsOk fr kids)
    (hu : fr.urls = [a, b]) :
    ∃ ka kb, kids = [ka, kb] ∧ ka.fr.url = a ∧ ka.fr.depth = fr.depth - 1 ∧
      kb.fr.url = b ∧ kb.fr.depth = fr.depth - 1 := by
  unfold KidsOk at h
  rw [hu] at h
  cases kids with
  | nil => simp at h
  | cons ka t =>
    cases t with
    | nil => simp at h
    | cons kb t2 =>
      cases t2 with
      | nil =>
        simp only [List.map_cons, List.map_nil, List.cons.injEq, Prod.mk.injEq,
          and_true] at h
        exact ⟨ka, kb, rfl, h.1.1, h.1.2, h.2.1, h.2.2⟩
      | cons kc t3 => simp at h

theorem kids_one (fr : Frame) (kids : List Worker) (a : String) (h : KidsOk fr kids)
    (hu : fr.urls = [a]) :
    ∃ ka, kids = [ka] ∧ ka.fr.url = a ∧ ka.fr.depth = fr.depth - 1 := by
  unfold KidsOk at h
  rw [hu] at h
  cases kids with
  | nil => simp at h
  | cons ka t =>
    cases t with
    | nil =>
      simp only [List.map_cons, List.map_nil, List.cons.injEq, Prod.mk.injEq,
        and_true] at h
      exact ⟨ka, rfl, h.1, h.2⟩
    | cons kb t2 => simp at h

theorem has_kids (f : Fetcher) (w0 w : World) (fr : Frame) (kids : List Worker)
    (h : Inv f w0 w (Worker.mk fr kids)) (hk : kids ≠ []) :
    KidsOk fr kids ∧ fr.Fetched f ∧
      ((∃ i : Nat, (∀ (j : Nat) (k : Worker), j < i → kids[j]? = some k →
            k.fr.stage = Stage.returned) ∧
          (∀ (j : Nat) (k : Worker), i < j → kids[j]? = some k → k.fr.sent = [])) ∨
        ∀ k, k ∈ kids → k.fr.stage = Stage.returned) := by
  have hl := h.local
  cases hst : fr.stage with
  | atFetch => rw [hst] at hl; exact absurd hl.1 hk
  | atIsSeen => rw [hst] at hl; exact absurd hl.1 hk
  | atSeen => rw [hst] at hl; exact absurd hl.1 hk
  | atSend => rw [hst] at hl; exact absurd hl.1 hk
  | atSpawn => rw [hst] at hl; exact absurd hl.1 hk
  | atRange i =>
    rw [hst] at hl
    exact ⟨hl.1, hl.2.1, Or.inl ⟨i, hl.2.2.2.2.1, hl.2.2.2.2.2⟩⟩
  | atRelay i v =>
    rw [hst] at hl
    exact ⟨hl.1, hl.2.1, Or.inl ⟨i, hl.2.2.2.2.1, hl.2.2.2.2.2⟩⟩
  | returned =>
    rw [hst] at hl
    rcases hl with hl | hl
    · exact absurd hl.1 hk
    · exact ⟨hl.1, hl.2.1, Or.inr hl.2.2.2.2⟩

theorem owner_cases (x : Worker) (k : String) (h : Owner x k) :
    (x.fr.url = k ∧ (x.fr.stage = Stage.atSend ∨ x.fr.sent ≠ [])) ∨
      ∃ c, c ∈ x.kids ∧ Owner c k := by
  cases h with
  | self fr kids hown => exact Or.inl ⟨rfl, hown⟩
  | kid fr kids j c _ hj ho => exact Or.inr ⟨c, List.getElem?_mem hj, ho⟩

theorem fresh_unseen (k : String) : World.fresh.seenUrls.isSeen k = false := rfl

/-- Under `detour`, once the worker for `z` stands at its `go` statements, the
worker for `y` has returned with all the workers below it, and `x` is
visited. -/
theorem detour_seen (s : Sys) (g : Good detour.Fetch "r" 4 World.fresh s) (kz : Worker)
    (hz : s.root.kids[1]? = some kz) (hst : kz.fr.stage = Stage.atSpawn) :
    s.world.seenUrls.isSeen "x" = true := by
  obtain ⟨root, w⟩ := s
  cases root with
  | mk fr kids =>
    have hinv : Inv detour.Fetch World.fresh w (Worker.mk fr kids) := g.inv
    have hurl : fr.url = "r" := g.url
    have hdepth : fr.depth = 4 := g.depth
    have hown := g.own
    simp only [Worker.kids_mk] at hz hown
    have hne : kids ≠ [] := by
      intro h
      rw [h] at hz
      simp at hz
    obtain ⟨hko, hf, hord⟩ := has_kids detour.Fetch World.fresh w fr kids hinv hne
    have hurls : fr.urls = ["y", "z"] := by rw [hf.2.2, hurl]; rfl
    obtain ⟨ky, kz0, rfl, hyu, hyd, hzu, hzd⟩ := kids_two fr kids "y" "z" hko hurls
    simp only [List.getElem?_cons_succ, List.getElem?_cons_zero, Option.some.injEq] at hz
    subst hz
    have hkzl := (hinv.kid kz0 (by simp)).local'
    rw [hst] at hkzl
    have hyr : ky.fr.stage = Stage.returned := by
      rcases hord with ⟨i, h1, h2⟩ | hall
      · cases i with
        | zero =>
          have := h2 1 kz0 (by omega) rfl
          rw [hkzl.2.1] at this
          simp at this
        | succ n => exact h1 0 ky (by omega) rfl
      · exact hall ky (by simp)
    have hnz : ∀ k, k ≠ "z" → ¬ Owner kz0 k := by
      intro k hk ho
      rcases owner_cases kz0 k ho with ⟨h, _⟩ | ⟨c, hc, _⟩
      · exact hk (h.symm.trans hzu)
      · rw [hkzl.1] at hc
        simp at hc
    have hkyi := hinv.kid ky (by simp)
    have hkyl := hkyi.local'
    rw [hyr] at hkyl
    rcases hkyl with ⟨hk0, hs0, hseen⟩ | ⟨hko2, hf2, _, _, hall2⟩
    · have hsy := hseen (by omega) (by rw [hyu]; rfl)
      rcases hown _ hsy with h0 | ho
      · rw [fresh_unseen] at h0
        simp at h0
      · rcases owner_cases _ _ ho with ⟨h, _⟩ | ⟨c, hc, hoc⟩
        · simp only [Worker.fr_mk, hurl, hyu] at h
          simp at h
        · simp only [Worker.kids_mk, List.mem_cons, List.mem_singleton, List.not_mem_nil,
            or_false] at hc
          rcases hc with hc | hc
          · rw [hc] at hoc
            exact absurd hoc (not_owner_childless ky _ hk0 hs0 hyr)
          · rw [hc] at hoc
            exact absurd hoc (hnz _ (by rw [hyu]; decide))
    · have hurls2 : ky.fr.urls = ["m"] := by rw [hf2.2.2, hyu]; rfl
      obtain ⟨km, hkm, hmu, hmd⟩ := kids_one ky.fr ky.kids "m" hko2 hurls2
      have hmr : km.fr.stage = Stage.returned := hall2 km (by rw [hkm]; simp)
      have hkmi := hkyi.kid' km (by rw [hkm]; simp)
      have hkml := hkmi.local'
      rw [hmr] at hkml
      rcases hkml with ⟨hk0, hs0, hseen⟩ | ⟨hko3, hf3, _, _, hall3⟩
      · have hsm := hseen (by omega) (by rw [hmu]; rfl)
        rcases hown _ hsm with h0 | ho
        · rw [fresh_unseen] at h0
          simp at h0
        · rcases owner_cases _ _ ho with ⟨h, _⟩ | ⟨c, hc, hoc⟩
          · simp only [Worker.fr_mk, hurl, hmu] at h
            simp at h
          · simp only [Worker.kids_mk, List.mem_cons, List.mem_singleton, List.not_mem_nil,
              or_false] at hc
            rcases hc with hc | hc
            · rw [hc] at hoc
              rcases owner_cases _ _ hoc with ⟨h, _⟩ | ⟨c2, hc2, hoc2⟩
              · rw [hyu, hmu] at h
                simp at h
              · rw [hkm] at hc2
                simp only [List.mem_singleton] at hc2
                rw [hc2] at hoc2
                exact absurd hoc2 (not_owner_childless km _ hk0 hs0 hmr)
            · rw [hc] at hoc
              exact absurd hoc (hnz _ (by rw [hmu]; decide))
      · have hurls3 : km.fr.urls = ["x"] := by rw [hf3.2.2, hmu]; rfl
        obtain ⟨kx, hkx, hxu, hxd⟩ := kids_one km.fr km.kids "x" hko3 hurls3
        have hxr : kx.fr.stage = Stage.returned := hall3 kx (by rw [hkx]; simp)
        have hkxi := hkmi.kid' kx (by rw [hkx]; simp)
        have := returned_marked detour.Fetch World.fresh w kx hkxi hxr (by omega)
          (by rw [hxu]; rfl)
        rw [hxu] at this
        exact this

theorem act_late (f : Fetcher) (b : Bool) (fr : Frame) (w : World)
    (hs : fr.sent = []) (hw : w.seenUrls.isSeen fr.url = true)
    (hst : fr.stage = Stage.atFetch ∨ fr.stage = Stage.atIsSeen ∨ fr.stage = Stage.returned) :
    (Worker.act f b fr [] w).1.fr.sent = [] ∧ (Worker.act f b fr [] w).1.kids = [] ∧
      ((Worker.act f b fr [] w).1.fr.stage = Stage.atFetch ∨
        (Worker.act f b fr [] w).1.fr.stage = Stage.atIsSeen ∨
        (Worker.act f b fr [] w).1.fr.stage = Stage.returned) := by
  rcases hst with h | h | h
  · simp only [Worker.act, h]
    split
    · simp [Worker.fr, Worker.kids, Frame.goto, hs]
    · split
      · simp [Worker.fr, Worker.kids, Frame.goto, hs]
      · simp [Worker.fr, Worker.kids, hs]
  · simp only [Worker.act, h, hw, if_true]
    simp [Worker.fr, Worker.kids, Frame.goto, hs]
  · simp only [Worker.act, h]
    simp [Worker.fr, Worker.kids, hs, h]

theorem late_step (s : Sys) (g : Good detour.Fetch "r" 4 World.fresh s) (hl : Late s)
    (p : List Nat) : Late (Sys.step detour.Fetch s p) := by
  obtain ⟨root, w⟩ := s
  cases root with
  | mk fr kids =>
    intro kz' kx' h1 h2
    simp only [Sys.step] at h1 h2 ⊢
    unfold Late at hl
    simp only [Worker.kids_mk] at hl
    cases p with
    | nil =>
      rw [step_nil] at h1 ⊢
      have hm := (act_effect detour.Fetch true fr kids w).seen
      rcases act_kids detour.Fetch true fr kids w with hk | ⟨_, hk⟩
      · rw [hk] at h1
        obtain ⟨a, r⟩ := hl kz' kx' h1 h2
        exact ⟨hm _ a, r⟩
      · rw [hk] at h1
        simp only [List.getElem?_map, Option.map_eq_some'] at h1
        obtain ⟨u, _, rfl⟩ := h1
        simp [Worker.fresh, Worker.kids] at h2
    | cons i q =>
      cases hki : kids[i]? with
      | none =>
        rw [step_miss detour.Fetch i q true fr kids w hki] at h1 ⊢
        exact hl kz' kx' h1 h2
      | some k =>
        obtain ⟨e1, e2⟩ := step_down detour.Fetch i q true fr kids w k hki
        rw [e1] at h1
        rw [e2]
        have hm := (step_effect detour.Fetch q (decide (fr.stage = Stage.atRange i)) k w).seen
        rcases getElem?_set_cases h1 with ⟨hi, hkz⟩ | ⟨_, hold⟩
        · subst hi
          generalize decide (fr.stage = Stage.atRange 1) = b1 at hkz hm ⊢
          subst hkz
          cases k with
          | mk frz kidsz =>
            cases q with
            | nil =>
              rw [step_nil] at h2 hm ⊢
              rcases act_kids detour.Fetch b1 frz kidsz w with hk | ⟨hsp, hk⟩
              · rw [hk] at h2
                obtain ⟨a, r⟩ := hl _ kx' hki h2
                exact ⟨hm _ a, r⟩
              · rw [hk] at h2
                have hinv : Inv detour.Fetch World.fresh w (Worker.mk fr kids) := g.inv
                have hurl : fr.url = "r" := g.url
                have hne : kids ≠ [] := by
                  intro h
                  rw [h] at hki
                  simp at hki
                obtain ⟨hko, hf, _⟩ := has_kids detour.Fetch World.fresh w fr kids hinv hne
                have hurls : fr.urls = ["y", "z"] := by rw [hf.2.2, hurl]; rfl
                obtain ⟨ky, kz0, rfl, _, _, hzu, _⟩ := kids_two fr kids "y" "z" hko hurls
                simp only [List.getElem?_cons_succ, List.getElem?_cons_zero,
                  Option.some.injEq] at hki
                subst hki
                have hzl := (hinv.kid (Worker.mk frz kidsz) (by simp)).local
                rw [hsp] at hzl
                have hzurls : frz.urls = ["x"] := by
                  rw [hzl.2.2.1.2.2]
                  simp only [Worker.fr_mk] at hzu
                  rw [hzu]
                  rfl
                rw [hzurls] at h2
                simp only [List.map_cons, List.map_nil, List.getElem?_cons_zero,
                  Option.some.injEq] at h2
                subst h2
                have hx := detour_seen ⟨Worker.mk fr [ky, Worker.mk frz kidsz], w⟩ g
                  (Worker.mk frz kidsz) rfl hsp
                exact ⟨hm _ hx, rfl, rfl, rfl, Or.inl rfl⟩
            | cons j q2 =>
              cases hkj : kidsz[j]? with
              | none =>
                rw [step_miss detour.Fetch j q2 b1 frz kidsz w hkj] at h2 ⊢
                exact hl _ kx' hki (by simpa using h2)
              | some c =>
                obtain ⟨e3, e4⟩ := step_down detour.Fetch j q2 b1 frz kidsz w c hkj
                rw [e3] at h2
                rcases getElem?_set_cases h2 with ⟨hj, hkx⟩ | ⟨_, hold2⟩
                · subst hj
                  obtain ⟨a, hcu, hcs, hck, hcst⟩ := hl _ c hki hkj
                  generalize decide (frz.stage = Stage.atRange 0) = b2 at hkx e4 hm
                  subst hkx
                  refine ⟨hm _ a, ?_⟩
                  cases c with
                  | mk frx kidsx =>
                    simp only [Worker.fr_mk, Worker.kids_mk] at hcu hcs hck hcst
                    subst hck
                    cases q2 with
                    | nil =>
                      rw [step_nil]
                      have e := (act_effect detour.Fetch b2 frx [] w).url
                      obtain ⟨r1, r2, r3⟩ := act_late detour.Fetch b2 frx w hcs
                        (by rw [hcu]; exact a) hcst
                      exact ⟨e.trans hcu, r1, r2, r3⟩
                    | cons j2 q3 =>
                      rw [step_miss detour.Fetch j2 q3 b2 frx [] w (by simp)]
                      exact ⟨hcu, hcs, rfl, hcst⟩
                · obtain ⟨a, r⟩ := hl _ kx' hki hold2
                  exact ⟨hm _ a, r⟩
        · obtain ⟨a, r⟩ := hl kz' kx' hold h2
          exact ⟨hm _ a, r⟩

theorem sent_sub (f : Fetcher) (w0 w : World) (x : Worker) (h : Inv f w0 w x) (v : String)
    (hv : v ∈ x.fr.sent) : v = x.fr.url ∨ ∃ c, c ∈ x.kids ∧ v ∈ c.fr.sent := by
  have hl := h.local'
  have key : v ∈ x.fr.url :: x.kids.flatMap (fun k => k.fr.sent) →
      v = x.fr.url ∨ ∃ c, c ∈ x.kids ∧ v ∈ c.fr.sent := by
    intro hm
    rcases List.mem_cons.mp hm with hm | hm
    · exact Or.inl hm
    · obtain ⟨c, hc, hvc⟩ := List.mem_flatMap.mp hm
      exact Or.inr ⟨c, hc, hvc⟩
  cases hst : x.fr.stage with
  | atFetch => rw [hst] at hl; rw [hl.2] at hv; simp at hv
  | atIsSeen => rw [hst] at hl; rw [hl.2.1] at hv; simp at hv
  | atSeen => rw [hst] at hl; rw [hl.2.1] at hv; simp at hv
  | atSend => rw [hst] at hl; rw [hl.2.1] at hv; simp at hv
  | atSpawn =>
    rw [hst] at hl
    rw [hl.2.1] at hv
    exact Or.inl (List.mem_singleton.mp hv)
  | atRange i =>
    rw [hst] at hl
    rw [hl.2.2.2.1] at hv
    exact key hv
  | atRelay i u =>
    rw [hst] at hl
    have : v ∈ x.fr.sent ++ [u] := List.mem_append_left _ hv
    rw [hl.2.2.2.1] at this
    exact key this
  | returned =>
    rw [hst] at hl
    rcases hl with hl | hl
    · rw [hl.2.1] at hv; simp at hv
    · rw [hl.2.2.2.1] at hv
      exact key hv

theorem late_run (sched : List (List Nat)) :
    ∀ s, Good detour.Fetch "r" 4 World.fresh s → Late s →
      Late (Sys.run detour.Fetch sched s) := by
  induction sched with
  | nil => intro s _ h; exact h
  | cons p ps ih =>
    intro s g h
    exact ih _ (step_good detour.Fetch "r" 4 World.fresh s p g) (late_step s g h p)

theorem late_init : Late (Sys.init "r" 4 World.fresh) := by
  intro kz kx h1 _
  simp [Sys.init, Worker.fresh, Worker.kids] at h1

/-- Under `detour` no state of a crawl of `r` at depth 4 has `t` among the URLs
emitted. -/
theorem late_misses (s : Sys) (g : Good detour.Fetch "r" 4 World.fresh s) (hl : Late s) :
    "t" ∉ s.out := by
  intro ht
  obtain ⟨root, w⟩ := s
  cases root with
  | mk fr kids =>
    have hinv : Inv detour.Fetch World.fresh w (Worker.mk fr kids) := g.inv
    have hurl : fr.url = "r" := g.url
    have hdepth : fr.depth = 4 := g.depth
    unfold Late at hl
    simp only [Worker.kids_mk] at hl
    rcases sent_sub _ _ _ _ hinv "t" ht with h | ⟨c, hc, hvc⟩
    · simp only [Worker.fr_mk, hurl] at h
      simp at h
    · simp only [Worker.kids_mk] at hc
      have hne : kids ≠ [] := List.ne_nil_of_mem hc
      obtain ⟨hko, hf, _⟩ := has_kids detour.Fetch World.fresh w fr kids hinv hne
      have hurls : fr.urls = ["y", "z"] := by rw [hf.2.2, hurl]; rfl
      obtain ⟨ky, kz, rfl, hyu, hyd, hzu, hzd⟩ := kids_two fr kids "y" "z" hko hurls
      simp only [List.mem_cons, List.mem_singleton, List.not_mem_nil, or_false] at hc
      rcases hc with hc | hc
      · subst hc
        have := (sent_sound detour.Fetch World.fresh w c (hinv.kid c (by simp)) "t" hvc).2.2.1
        rw [hyu, hyd, hdepth] at this
        revert this
        decide
      · subst hc
        have hzi := hinv.kid c (by simp)
        rcases sent_sub _ _ _ _ hzi "t" hvc with h | ⟨c2, hc2, hvc2⟩
        · rw [hzu] at h
          simp at h
        · have hne2 : c.kids ≠ [] := List.ne_nil_of_mem hc2
          cases c with
          | mk frz kidsz =>
            simp only [Worker.kids_mk, Worker.fr_mk] at hc2 hne2 hzu
            obtain ⟨hko2, hf2, _⟩ := has_kids detour.Fetch World.fresh w frz kidsz hzi hne2
            have hurls2 : frz.urls = ["x"] := by rw [hf2.2.2, hzu]; rfl
            obtain ⟨kx, rfl, _, _⟩ := kids_one frz kidsz "x" hko2 hurls2
            simp only [List.mem_singleton] at hc2
            subst hc2
            have := (hl (Worker.mk frz [c2]) c2 rfl rfl).2.2.1
            rw [this] at hvc2
            simp at hvc2

/-- C5 fails as stated: under `detour`, started at `r` with depth 4, the page
`t` is three links away (`r`, `z`, `x`, `t`) and its fetch succeeds, yet it is
not emitted, whatever the schedule. The worker for `z` sends `z` only after the
worker for `y` has returned, and starts its own sub-crawl of `x` after that; by
then `x` has been crawled below `y` and `m` with depth 1, where its link `t`
got depth 0. The run in which every worker steps as soon as it can and the run
in which `z` waits both end with the same five URLs, and no run at all has `t`
among the URLs emitted. -/
theorem C5_counterexample :
    (1 : Int) ≤ 4 ∧
    "t" ∈ reach detour.Fetch ((4 : Int) - 1).toNat "r" ∧
    fetchOk detour.Fetch "t" = true ∧
    (Sys.run detour.Fetch detourEager (Sys.init "r" 4 World.fresh)).finished = true ∧
    (Sys.run detour.Fetch detourEager (Sys.init "r" 4 World.fresh)).out =
      ["r", "y", "m", "x", "z"] ∧
    "t" ∉ (Sys.run detour.Fetch detourEager (Sys.init "r" 4 World.fresh)).out ∧
    (Sys.run detour.Fetch detourLate (Sys.init "r" 4 World.fresh)).finished = true ∧
    "t" ∉ (Sys.run detour.Fetch detourLate (Sys.init "r" 4 World.fresh)).out ∧
    ∀ sched : List (List Nat),
      "t" ∉ (Sys.run detour.Fetch sched (Sys.init "r" 4 World.fresh)).out := by
  have h1 : (Sys.run detour.Fetch detourEager (Sys.init "r" 4 World.fresh)).out =
      ["r", "y", "m", "x", "z"] := by decide
  have h2 : (Sys.run detour.Fetch detourLate (Sys.init "r" 4 World.fresh)).out =
      ["r", "y", "m", "x", "z"] := by decide
  refine ⟨by decide, ?_, ?_, by decide, h1, ?_, by decide, ?_, ?_⟩
  · simp [reach, links, fakeFetcher.Fetch, detour, List.lookup]
  · simp [fetchOk, fakeFetcher.Fetch, detour, List.lookup]
  · rw [h1]; decide
  · rw [h2]; decide
  · intro sched
    exact late_misses _ (reachable_good detour.Fetch "r" 4 World.fresh sched)
      (late_run sched _ (init_good detour.Fetch "r" 4 World.fresh) late_init)

/-- C5 amended, on the crawl `main` starts, run to its end: `http://golang.org/pkg/`
is one link away from the start and is emitted. -/
theorem C5_emits_within_one_link_witness :
    (1 : Int) ≤ 4 ∧
    "http://golang.org/pkg/" ∈
      reach fetcher.Fetch (min ((4 : Int) - 1).toNat 1) "http://golang.org/" ∧
    fetchOk fetcher.Fetch "http://golang.org/pkg/" = true ∧
    (Sys.run fetcher.Fetch mainRun (Sys.init "http://golang.org/" 4 World.fresh)).finished
      = true ∧
    "http://golang.org/pkg/" ∈
      (Sys.run fetcher.Fetch mainRun (Sys.init "http://golang.org/" 4 World.fresh)).out :=
  ⟨by decide, fetcher_pkg_near, fetcher_pkg_ok, mainRun_finished,
    C5_emits_within_one_link fetcher.Fetch "http://golang.org/" 4 "http://golang.org/pkg/"
      mainRun (by decide) fetcher_pkg_near fetcher_pkg_ok mainRun_finished⟩

/-- C6 amended, on the crawl `main` starts, run to its end, for the start
URL. -/
theorem C6_fetch_calls_bound_witness :
    (Sys.run fetcher.Fetch mainRun (Sys.init "http://golang.org/" 4 World.fresh)).finished
      = true ∧
    (Sys.calls World.fresh
        (Sys.run fetcher.Fetch mainRun (Sys.init "http://golang.org/" 4 World.fresh))).count
        "http://golang.org/" ≤
      (if "http://golang.org/" = "http://golang.org/" then 1 else 0) +
        ((Sys.run fetcher.Fetch mainRun (Sys.init "http://golang.org/" 4 World.fresh)).out.map
          (fun p => (links fetcher.Fetch p).count "http://golang.org/")).sum :=
  ⟨mainRun_finished,
    C6_fetch_calls_bound fetcher.Fetch "http://golang.org/" 4 World.fresh mainRun
      "http://golang.org/" mainRun_finished⟩

/-- C15 on the crawl `main` starts, run to its end. -/
theorem C15_emits_self_then_links_witness :
    (1 : Int) ≤ 4 ∧
    fetchOk fetcher.Fetch "http://golang.org/" = true ∧
    World.fresh.seenUrls.isSeen "http://golang.org/" = false ∧
    (Sys.run fetcher.Fetch mainRun (Sys.init "http://golang.org/" 4 World.fresh)).finished
      = true ∧
    (Sys.run fetcher.Fetch mainRun (Sys.init "http://golang.org/" 4 World.fresh)).out =
      "http://golang.org/" ::
        (Sys.run fetcher.Fetch mainRun
          (Sys.init "http://golang.org/" 4 World.fresh)).root.kids.flatMap
          (fun k => k.fr.sent) :=
  ⟨by decide, fetcher_root_ok, rfl, mainRun_finished,
    (C15_emits_self_then_links fetcher.Fetch "http://golang.org/" 4 World.fresh mainRun
      (by decide) fetcher_root_ok rfl mainRun_finished).1⟩

/-- C16 on the crawl `main` starts, run to its end: `http://golang.org/pkg/os/` is
emitted, its fetch succeeds and it is within three links of the start. -/
theorem C16_emitted_reachable_witness :
    "http://golang.org/pkg/os/" ∈
      (Sys.run fetcher.Fetch mainRun (Sys.init "http://golang.org/" 4 World.fresh)).out ∧
    fetchOk fetcher.Fetch "http://golang.org/pkg/os/" = true ∧
    "http://golang.org/pkg/os/" ∈
      reach fetcher.Fetch ((4 : Int) - 1).toNat "http://golang.org/" :=
  have h : "http://golang.org/pkg/os/" ∈
      (Sys.run fetcher.Fetch mainRun (Sys.init "http://golang.org/" 4 World.fresh)).out := by
    rw [mainRun_out]; decide
  ⟨h, C16_emitted_reachable fetcher.Fetch "http://golang.org/" 4 World.fresh mainRun
    "http://golang.org/pkg/os/" h⟩

/-! ## Links whose fetch fails -/

/-! ### the tree without the workers of failing links -/

theorem pruneAll_eq (f : Fetcher) (kids : List Worker) :
    pruneAll f kids = (kids.filter (fun k => fetchOk f k.fr.url)).map (Worker.prune f) := by
  induction kids with
  | nil => rfl
  | cons k ks ih =>
    simp only [pruneAll]
    by_cases h : fetchOk f k.fr.url = true
    · simp [h, ih]
    · simp [h, ih]

theorem prune_fr (f : Fetcher) (x : Worker) : (x.prune f).fr = x.fr.prune f x.kids := by
  cases x with
  | mk fr kids => simp [Worker.prune]

theorem liveBefore_zero (f : Fetcher) (kids : List Worker) : liveBefore f kids 0 = 0 := by
  simp [liveBefore]

theorem liveBefore_cons_succ (f : Fetcher) (k : Worker) (ks : List Worker) (i : Nat) :
    liveBefore f (k :: ks) (i + 1) =
      (if fetchOk f k.fr.url = true then 1 else 0) + liveBefore f ks i := by
  simp only [liveBefore, List.take_succ_cons, List.filter_cons]
  by_cases h : fetchOk f k.fr.url = true
  · simp [h]; omega
  · simp [h]

theorem liveBefore_succ (f : Fetcher) (kids : List Worker) (i : Nat) (c : Worker)
    (hc : kids[i]? = some c) :
    liveBefore f kids (i + 1) =
      liveBefore f kids i + (if fetchOk f c.fr.url = true then 1 else 0) := by
  induction kids generalizing i with
  | nil => simp at hc
  | cons k ks ih =>
    cases i with
    | zero =>
      simp at hc
      subst hc
      rw [liveBefore_cons_succ, liveBefore_zero, liveBefore_zero]
      omega
    | succ j =>
      simp at hc
      rw [liveBefore_cons_succ, liveBefore_cons_succ, ih j hc]
      omega

theorem liveBefore_end (f : Fetcher) (kids : List Worker) (i : Nat) (h : kids[i]? = none) :
    liveBefore f kids i = (pruneAll f kids).length := by
  have hl : kids.length ≤ i := by
    rwa [List.getElem?_eq_none_iff] at h
  simp [liveBefore, pruneAll_eq, List.take_of_length_le hl]

theorem prune_get (f : Fetcher) (kids : List Worker) (i : Nat) (c : Worker)
    (hc : kids[i]? = some c) (hl : fetchOk f c.fr.url = true) :
    (pruneAll f kids)[liveBefore f kids i]? = some (c.prune f) := by
  induction kids generalizing i with
  | nil => simp at hc
  | cons k ks ih =>
    cases i with
    | zero =>
      simp at hc
      subst hc
      simp [liveBefore_zero, pruneAll, hl]
    | succ j =>
      simp at hc
      rw [liveBefore_cons_succ]
      by_cases hk : fetchOk f k.fr.url = true
      · simp only [pruneAll, hk, if_true]
        rw [Nat.add_comm]
        simpa using ih j hc
      · simp only [pruneAll, hk, if_false]
        simpa using ih j hc

theorem prune_find (f : Fetcher) (kids : List Worker) (j : Nat) (y : Worker)
    (hy : (pruneAll f kids)[j]? = some y) :
    ∃ i c, kids[i]? = some c ∧ fetchOk f c.fr.url = true ∧ c.prune f = y ∧
      liveBefore f kids i = j := by
  induction kids generalizing j with
  | nil => simp [pruneAll] at hy
  | cons k ks ih =>
    by_cases hk : fetchOk f k.fr.url = true
    · simp only [pruneAll, hk, if_true] at hy
      cases j with
      | zero =>
        simp at hy
        exact ⟨0, k, by simp, hk, hy, liveBefore_zero f _⟩
      | succ j =>
        simp at hy
        obtain ⟨i, c, h1, h2, h3, h4⟩ := ih j hy
        refine ⟨i + 1, c, by simpa using h1, h2, h3, ?_⟩
        rw [liveBefore_cons_succ]
        simp [hk, h4]
        omega
    · simp only [pruneAll, hk, if_false] at hy
      obtain ⟨i, c, h1, h2, h3, h4⟩ := ih j hy
      refine ⟨i + 1, c, by simpa using h1, h2, h3, ?_⟩
      rw [liveBefore_cons_succ]
      simp [hk, h4]

theorem prune_set_live (f : Fetcher) (kids : List Worker) (i : Nat) (c c' : Worker)
    (hc : kids[i]? = some c) (hl : fetchOk f c.fr.url = true) (hu : c'.fr.url = c.fr.url) :
    pruneAll f (kids.set i c') = (pruneAll f kids).set (liveBefore f kids i) (c'.prune f) := by
  induction kids generalizing i with
  | nil => simp at hc
  | cons k ks ih =>
    cases i with
    | zero =>
      simp at hc
      subst hc
      simp [liveBefore_zero, pruneAll, hl, hu]
    | succ j =>
      simp at hc
      rw [liveBefore_cons_succ]
      by_cases hk : fetchOk f k.fr.url = true
      · simp only [List.set_cons_succ, pruneAll, hk, if_true, ih j hc]
        rw [Nat.add_comm]
        simp
      · simp only [List.set_cons_succ, pruneAll, hk, if_false, ih j hc]
        simp

theorem prune_set_dead (f : Fetcher) (kids : List Worker) (i : Nat) (c c' : Worker)
    (hc : kids[i]? = some c) (hl : fetchOk f c.fr.url = false) (hu : c'.fr.url = c.fr.url) :
    pruneAll f (kids.set i c') = pruneAll f kids := by
  induction kids generalizing i with
  | nil => simp at hc
  | cons k ks ih =>
    cases i with
    | zero =>
      simp at hc
      subst hc
      simp [pruneAll, hl, hu]
    | succ j =>
      simp at hc
      simp only [List.set_cons_succ, pruneAll, ih j hc]

theorem liveBefore_set (f : Fetcher) (kids : List Worker) (i n : Nat) (c c' : Worker)
    (hc : kids[i]? = some c) (hu : c'.fr.url = c.fr.url) :
    liveBefore f (kids.set i c') n = liveBefore f kids n := by
  induction kids generalizing i n with
  | nil => simp at hc
  | cons k ks ih =>
    cases n with
    | zero => simp [liveBefore_zero]
    | succ m =>
      cases i with
      | zero =>
        simp at hc
        subst hc
        simp only [List.set_cons_zero, liveBefore_cons_succ, hu]
      | succ j =>
        simp at hc
        simp only [List.set_cons_succ, liveBefore_cons_succ, ih j m hc]

theorem shift_set (f : Fetcher) (kids : List Worker) (i : Nat) (c c' : Worker) (st : Stage)
    (hc : kids[i]? = some c) (hu : c'.fr.url = c.fr.url) :
    st.shift f (kids.set i c') = st.shift f kids := by
  cases st <;> simp [Stage.shift, liveBefore_set f kids i _ c c' hc hu]

theorem prune_fresh (f : Fetcher) (u : String) (d : Int) :
    (Worker.fresh u d).prune f = Worker.fresh u d := by
  simp [Worker.fresh, Worker.prune, Frame.prune, Stage.shift, pruneAll]

theorem pruneAll_fresh (f : Fetcher) (urls : List String) (d : Int) :
    pruneAll f (urls.map (fun u => Worker.fresh u d)) =
      (urls.filter (fun u => fetchOk f u)).map (fun u => Worker.fresh u d) := by
  induction urls with
  | nil => rfl
  | cons u us ih =>
    by_cases h : fetchOk f u = true
    · simp only [List.map_cons, pruneAll]
      simp [Worker.fresh, h] 
      constructor
      · exact prune_fresh f u d
      · simpa [Worker.fresh] using ih
    · simp only [List.map_cons, pruneAll]
      simp [Worker.fresh, h]
      simpa [Worker.fresh] using ih

/-! ### every step under `f` is a step, or none, under `pruneFailed f` -/

theorem prune_ok (f : Fetcher) (u body : String) (urls : List String)
    (h : f u = Except.ok (body, urls)) :
    pruneFailed f u = Except.ok (body, urls.filter (fun v => fetchOk f v)) := by
  simp [pruneFailed, h]

theorem prune_error (f : Fetcher) (u e : String) (h : f u = Except.error e) :
    pruneFailed f u = Except.error e := by
  simp [pruneFailed, h]

theorem shift_returned (f : Fetcher) (kids : List Worker) (st : Stage) :
    st.shift f kids = Stage.returned ↔ st = Stage.returned := by
  cases st <;> simp [Stage.shift]

theorem prune_stage (f : Fetcher) (x : Worker) :
    (x.prune f).fr.stage = x.fr.stage.shift f x.kids := by
  cases x with
  | mk fr kids => simp [Worker.prune, Frame.prune]

theorem prune_returned (f : Fetcher) (x : Worker) :
    (x.prune f).fr.stage = Stage.returned ↔ x.fr.stage = Stage.returned := by
  rw [prune_stage, shift_returned]

theorem dead_shape (f : Fetcher) (w0 w : World) (fr : Frame) (kids : List Worker)
    (h : Inv f w0 w (Worker.mk fr kids)) (hd : fetchOk f fr.url = false) :
    (fr.stage = Stage.atFetch ∨ fr.stage = Stage.returned) ∧ kids = [] := by
  have hl := h.local
  cases hst : fr.stage with
  | atFetch => rw [hst] at hl; exact ⟨Or.inl rfl, hl.1⟩
  | atIsSeen => rw [hst] at hl; have := hl.2.2.2.1; rw [hd] at this; cases this
  | atSeen => rw [hst] at hl; have := hl.2.2.1.2.1; rw [hd] at this; cases this
  | atSend => rw [hst] at hl; have := hl.2.2.1.2.1; rw [hd] at this; cases this
  | atSpawn => rw [hst] at hl; have := hl.2.2.1.2.1; rw [hd] at this; cases this
  | atRange i => rw [hst] at hl; have := hl.2.1.2.1; rw [hd] at this; cases this
  | atRelay i u => rw [hst] at hl; have := hl.2.1.2.1; rw [hd] at this; cases this
  | returned =>
    rw [hst] at hl
    rcases hl with hl | hl
    · exact ⟨Or.inr rfl, hl.1⟩
    · have := hl.2.1.2.1; rw [hd] at this; cases this

theorem dead_step (f : Fetcher) (w0 w : World) (p : List Nat) (b : Bool) (x : Worker)
    (h : Inv f w0 w x) (hd : fetchOk f x.fr.url = false) :
    (Worker.step f p b x w).2.2 = none ∧
      (Worker.step f p b x w).2.1.seenUrls = w.seenUrls := by
  cases x with
  | mk fr kids =>
    simp only [Worker.fr_mk] at hd
    obtain ⟨hst, hk⟩ := dead_shape f w0 w fr kids h hd
    cases p with
    | nil =>
      rw [step_nil]
      rcases hst with hst | hst
      · simp only [Worker.act, hst]
        by_cases hdep : fr.depth ≤ 0
        · simp [hdep]
        · cases he : f fr.url with
          | error e => simp [hdep]
          | ok r => simp [fetchOk, he] at hd
      · simp [Worker.act, hst]
    | cons i p =>
      rw [step_miss f i p b fr kids w (by simp [hk])]
      exact ⟨rfl, rfl⟩

theorem act_sim_fg (f : Fetcher) (bf bg : Bool) (fr : Frame)
    (kids : List Worker) (wf wg : World)
    (hb : bf = true → bg = true) (hw : wg.seenUrls = wf.seenUrls) :
    ∃ q, (stepOpt (pruneFailed f) q bg ((Worker.mk fr kids).prune f) wg).1 =
          (Worker.act f bf fr kids wf).1.prune f ∧
        (stepOpt (pruneFailed f) q bg ((Worker.mk fr kids).prune f) wg).2.1.seenUrls =
          (Worker.act f bf fr kids wf).2.1.seenUrls ∧
        (stepOpt (pruneFailed f) q bg ((Worker.mk fr kids).prune f) wg).2.2 =
          (Worker.act f bf fr kids wf).2.2 := by
  have hstay : ∀ r : Worker × World × Option String,
      r = (Worker.mk fr kids, wf, none) →
      (stepOpt (pruneFailed f) none bg ((Worker.mk fr kids).prune f) wg).1 = r.1.prune f ∧
      (stepOpt (pruneFailed f) none bg ((Worker.mk fr kids).prune f) wg).2.1.seenUrls =
        r.2.1.seenUrls ∧
      (stepOpt (pruneFailed f) none bg ((Worker.mk fr kids).prune f) wg).2.2 = r.2.2 := by
    intro r hr
    subst hr
    exact ⟨rfl, hw, rfl⟩
  cases hst : fr.stage with
  | atFetch =>
    refine ⟨some [], ?_⟩
    simp only [stepOpt, Worker.prune, step_nil, Worker.act, Frame.prune, hst, Stage.shift]
    by_cases hd : fr.depth ≤ 0
    · simp [hd, Worker.prune, Frame.prune, Stage.shift, Frame.goto, hw]
    · cases he : f fr.url with
      | error e =>
        simp [hd, prune_error f _ e he, Worker.prune, Frame.prune, Stage.shift, Frame.goto, hw]
      | ok r =>
        obtain ⟨body, urls⟩ := r
        simp [hd, prune_ok f _ body urls he, Worker.prune, Frame.prune, Stage.shift, hw]
  | atIsSeen =>
    refine ⟨some [], ?_⟩
    simp only [stepOpt, Worker.prune, step_nil, Worker.act, Frame.prune, hst, Stage.shift, hw]
    by_cases hs : wf.seenUrls.isSeen fr.url = true
    · simp [hs, Worker.prune, Frame.prune, Stage.shift, Frame.goto, hw]
    · simp [hs, Worker.prune, Frame.prune, Stage.shift, Frame.goto, hw]
  | atSeen =>
    refine ⟨some [], ?_⟩
    simp [stepOpt, Worker.prune, step_nil, Worker.act, Frame.prune, hst, Stage.shift, hw,
      Frame.goto]
  | atSend =>
    cases bf with
    | true =>
      refine ⟨some [], ?_⟩
      simp [stepOpt, Worker.prune, step_nil, Worker.act, Frame.prune, hst, Stage.shift, hw,
        Frame.push, hb rfl]
    | false =>
      exact ⟨none, hstay _ (by simp [Worker.act, hst])⟩
  | atSpawn =>
    refine ⟨some [], ?_⟩
    simp [stepOpt, Worker.prune, step_nil, Worker.act, Frame.prune, hst, Stage.shift, hw,
      Frame.goto, pruneAll_fresh, liveBefore_zero]
  | atRange i =>
    cases hc : kids[i]? with
    | none =>
      refine ⟨some [], ?_⟩
      have hg : (pruneAll f kids)[liveBefore f kids i]? = none := by
        rw [liveBefore_end f kids i hc]
        simp
      simp [stepOpt, Worker.prune, step_nil, Worker.act, Frame.prune, hst, Stage.shift, hw,
        Frame.goto, hc, hg]
    | some c =>
      by_cases hl : fetchOk f c.fr.url = true
      · have hg := prune_get f kids i c hc hl
        by_cases hr : c.fr.stage = Stage.returned
        · refine ⟨some [], ?_⟩
          have hr' : (c.prune f).fr.stage = Stage.returned := (prune_returned f c).mpr hr
          have hn := liveBefore_succ f kids i c hc
          simp [stepOpt, Worker.prune, step_nil, Worker.act, Frame.prune, hst, Stage.shift, hw,
            Frame.goto, hc, hg, hr, hr', hn, hl]
        · exact ⟨none, hstay _ (by simp [Worker.act, hst, hc, hr])⟩
      · have hl' : fetchOk f c.fr.url = false := by simpa using hl
        by_cases hr : c.fr.stage = Stage.returned
        · refine ⟨none, ?_⟩
          have hn := liveBefore_succ f kids i c hc
          simp [stepOpt, Worker.prune, Worker.act, Frame.prune, hst, Stage.shift, hw,
            Frame.goto, hc, hr, hn, hl']
        · exact ⟨none, hstay _ (by simp [Worker.act, hst, hc, hr])⟩
  | atRelay i u =>
    cases bf with
    | true =>
      refine ⟨some [], ?_⟩
      simp [stepOpt, Worker.prune, step_nil, Worker.act, Frame.prune, hst, Stage.shift, hw,
        Frame.push, hb rfl]
    | false =>
      exact ⟨none, hstay _ (by simp [Worker.act, hst])⟩
  | returned =>
    exact ⟨none, hstay _ (by simp [Worker.act, hst])⟩

theorem prune_mk (f : Fetcher) (fr : Frame) (kids : List Worker) :
    (Worker.mk fr kids).prune f = Worker.mk (fr.prune f kids) (pruneAll f kids) := by
  simp [Worker.prune]

theorem frame_prune_set (f : Fetcher) (kids : List Worker) (i : Nat) (c c' : Worker)
    (fr : Frame) (hc : kids[i]? = some c) (hu : c'.fr.url = c.fr.url) :
    fr.prune f (kids.set i c') = fr.prune f kids := by
  simp [Frame.prune, shift_set f kids i c c' _ hc hu]

theorem sim_fg (f : Fetcher) (w0 : World) (p : List Nat) :
    ∀ (bf bg : Bool) (x : Worker) (wf wg : World), Inv f w0 wf x →
      (bf = true → bg = true) → wg.seenUrls = wf.seenUrls →
      ∃ q, (stepOpt (pruneFailed f) q bg (x.prune f) wg).1 =
            (Worker.step f p bf x wf).1.prune f ∧
          (stepOpt (pruneFailed f) q bg (x.prune f) wg).2.1.seenUrls =
            (Worker.step f p bf x wf).2.1.seenUrls ∧
          (stepOpt (pruneFailed f) q bg (x.prune f) wg).2.2 =
            (Worker.step f p bf x wf).2.2 := by
  induction p with
  | nil =>
    intro bf bg x wf wg _ hb hw
    cases x with
    | mk fr kids =>
      rw [step_nil]
      exact act_sim_fg f bf bg fr kids wf wg hb hw
  | cons i p ih =>
    intro bf bg x wf wg hinv hb hw
    cases x with
    | mk fr kids =>
      cases hc : kids[i]? with
      | none =>
        rw [step_miss f i p bf fr kids wf hc]
        exact ⟨none, rfl, hw, rfl⟩
      | some c =>
        have hci := hinv.kid c (List.getElem?_mem hc)
        have e := step_effect f p (decide (fr.stage = Stage.atRange i)) c wf
        by_cases hl : fetchOk f c.fr.url = true
        · -- the worker stepped is one of a link that fetches
          have hbb : decide (fr.stage = Stage.atRange i) = true →
              decide ((fr.prune f kids).stage = Stage.atRange (liveBefore f kids i)) = true := by
            intro h
            have h' : fr.stage = Stage.atRange i := by simpa using h
            simp [Frame.prune, h', Stage.shift]
          obtain ⟨q, h1, h2, h3⟩ := ih (decide (fr.stage = Stage.atRange i))
            (decide ((fr.prune f kids).stage = Stage.atRange (liveBefore f kids i)))
            c wf wg hci hbb hw
          have hg := prune_get f kids i c hc hl
          have hset := prune_set_live f kids i c
            (Worker.step f p (decide (fr.stage = Stage.atRange i)) c wf).1 hc hl e.url
          have hfp := frame_prune_set f kids i c
            (Worker.step f p (decide (fr.stage = Stage.atRange i)) c wf).1 fr hc e.url
          cases q with
          | none =>
            simp only [stepOpt] at h1 h2 h3
            have hv : (Worker.step f p (decide (fr.stage = Stage.atRange i)) c wf).2.2
                = none := h3.symm
            rw [step_quiet f i p bf fr kids wf c hc hv]
            refine ⟨none, ?_, ?_, rfl⟩
            · simp only [stepOpt, prune_mk, hfp, hset, ← h1]
              rw [set_self _ _ _ hg]
            · simpa [stepOpt] using h2
          | some q =>
            simp only [stepOpt] at h1 h2 h3
            refine ⟨some (liveBefore f kids i :: q), ?_⟩
            simp only [stepOpt, prune_mk]
            cases hv : (Worker.step f p (decide (fr.stage = Stage.atRange i)) c wf).2.2 with
            | none =>
              rw [step_quiet f i p bf fr kids wf c hc hv,
                step_quiet (pruneFailed f) _ q bg _ _ wg _ hg (by rw [h3, hv])]
              refine ⟨?_, h2, rfl⟩
              simp only [prune_mk, hfp, hset, h1]
            | some v =>
              rw [step_hand f i p bf fr kids wf c v hc hv,
                step_hand (pruneFailed f) _ q bg _ _ wg _ v hg (by rw [h3, hv])]
              refine ⟨?_, h2, rfl⟩
              simp only [prune_mk, hset, h1]
              congr 1
              simp [Frame.prune, Frame.goto, Stage.shift,
                liveBefore_set f kids i _ c _ hc e.url]
        · -- the worker stepped is one of a link that fails: no step on the other side
          have hl' : fetchOk f c.fr.url = false := by simpa using hl
          obtain ⟨hv, hs⟩ := dead_step f w0 wf p (decide (fr.stage = Stage.atRange i)) c hci hl'
          rw [step_quiet f i p bf fr kids wf c hc hv]
          refine ⟨none, ?_, ?_, rfl⟩
          · simp only [stepOpt, prune_mk,
              frame_prune_set f kids i c _ fr hc e.url,
              prune_set_dead f kids i c _ hc hl' e.url]
          · simp only [stepOpt]
            rw [hs]; exact hw

/-! ### every step under `pruneFailed f` is a step under `f`, followed by the
steps that pass over the workers of failing links -/

theorem liveBefore_le_succ (f : Fetcher) (kids : List Worker) (i : Nat) :
    liveBefore f kids i ≤ liveBefore f kids (i + 1) := by
  cases hc : kids[i]? with
  | some c => rw [liveBefore_succ f kids i c hc]; omega
  | none =>
    have h1 := liveBefore_end f kids i hc
    have h2 := liveBefore_end f kids (i + 1) (by
      rw [List.getElem?_eq_none_iff] at hc ⊢; omega)
    omega

theorem liveBefore_mono (f : Fetcher) (kids : List Worker) (a b : Nat) (h : a ≤ b) :
    liveBefore f kids a ≤ liveBefore f kids b := by
  induction b with
  | zero =>
    have : a = 0 := by omega
    rw [this]
  | succ n ih =>
    by_cases hab : a = n + 1
    · rw [hab]
    · exact le_trans (ih (by omega)) (liveBefore_le_succ f kids n)

theorem live_index_unique (f : Fetcher) (kids : List Worker) (i i0 : Nat) (c : Worker)
    (hc : kids[i]? = some c) (hl : fetchOk f c.fr.url = true)
    (h0 : ∀ d, kids[i0]? = some d → fetchOk f d.fr.url = true)
    (he : liveBefore f kids i0 = liveBefore f kids i) : i0 = i := by
  have hi := liveBefore_succ f kids i c hc
  simp only [hl, if_true] at hi
  rcases Nat.lt_trichotomy i0 i with h | h | h
  · exfalso
    have hlen : i < kids.length := (List.getElem?_eq_some.mp hc).1
    cases hd : kids[i0]? with
    | none =>
      rw [List.getElem?_eq_none_iff] at hd
      omega
    | some d =>
      have hs := liveBefore_succ f kids i0 d hd
      simp only [h0 d hd, if_true] at hs
      have := liveBefore_mono f kids (i0 + 1) i (by omega)
      omega
  · exact h
  · exfalso
    have := liveBefore_mono f kids (i + 1) i0 (by omega)
    omega

theorem runs_url (f : Fetcher) (b : Bool) (ps : List (List Nat)) :
    ∀ (x : Worker) (w : World), (Worker.runs f b ps x w).1.fr.url = x.fr.url := by
  induction ps with
  | nil => intro x w; rfl
  | cons p ps ih =>
    intro x w
    simp only [Worker.runs]
    rw [ih]
    exact (step_effect f p b x w).url

theorem runs_lift (f : Fetcher) (b : Bool) (fr : Frame) (i : Nat) (ps : List (List Nat)) :
    ∀ (kids : List Worker) (c : Worker) (w : World), kids[i]? = some c →
      Quiet f (decide (fr.stage = Stage.atRange i)) ps c w →
      Quiet f b (ps.map (fun p => i :: p)) (Worker.mk fr kids) w ∧
      Worker.runs f b (ps.map (fun p => i :: p)) (Worker.mk fr kids) w =
        (Worker.mk fr (kids.set i
          (Worker.runs f (decide (fr.stage = Stage.atRange i)) ps c w).1),
         (Worker.runs f (decide (fr.stage = Stage.atRange i)) ps c w).2) := by
  induction ps with
  | nil =>
    intro kids c w hc _
    exact ⟨trivial, by simp [Worker.runs, set_self kids i c hc]⟩
  | cons p ps ih =>
    intro kids c w hc hq
    obtain ⟨hv, hrest⟩ := hq
    have hlen : i < kids.length := (List.getElem?_eq_some.mp hc).1
    have hstep := step_quiet f i p b fr kids w c hc hv
    have hc' : (kids.set i
        (Worker.step f p (decide (fr.stage = Stage.atRange i)) c w).1)[i]? =
        some (Worker.step f p (decide (fr.stage = Stage.atRange i)) c w).1 := by
      rw [List.getElem?_set_self hlen]
    obtain ⟨h1, h2⟩ := ih _ _ _ hc' hrest
    simp only [List.map_cons, Quiet, Worker.runs, hstep]
    refine ⟨⟨trivial, h1⟩, ?_⟩
    rw [h2, List.set_set]

theorem dead_act (f : Fetcher) (w0 w : World) (b : Bool) (c : Worker)
    (h : Inv f w0 w c) (hd : fetchOk f c.fr.url = false) :
    (Worker.step f [] b c w).1.fr.stage = Stage.returned := by
  cases c with
  | mk fr kids =>
    simp only [Worker.fr_mk] at hd
    obtain ⟨hst, _⟩ := dead_shape f w0 w fr kids h hd
    rw [step_nil]
    rcases hst with hst | hst
    · simp only [Worker.act, hst]
      by_cases hdep : fr.depth ≤ 0
      · simp [hdep]
      · cases he : f fr.url with
        | error e => simp [hdep]
        | ok r => simp [fetchOk, he] at hd
    · simp [Worker.act, hst]

theorem dead_norm (f : Fetcher) (w0 w : World) (c : Worker) (h : Inv f w0 w c)
    (hd : fetchOk f c.fr.url = false) : Norm f c := by
  cases c with
  | mk fr kids =>
    simp only [Worker.fr_mk] at hd
    obtain ⟨_, hk⟩ := dead_shape f w0 w fr kids h hd
    refine Norm.mk _ _ ?_ ?_
    · intro i c _ hc; rw [hk] at hc; simp at hc
    · intro k hkk; rw [hk] at hkk; simp at hkk

theorem step_seen_grow (f : Fetcher) (w0 : World) (p : List Nat) (b : Bool) (x : Worker)
    (w : World) (hg : ∀ k, w0.seenUrls.isSeen k = true → w.seenUrls.isSeen k = true) :
    ∀ k, w0.seenUrls.isSeen k = true → (Worker.step f p b x w).2.1.seenUrls.isSeen k = true :=
  fun k hk => (step_effect f p b x w).seen k (hg k hk)

theorem skip_dead (f : Fetcher) (w0 : World) (n : Nat) :
    ∀ (fr : Frame) (kids : List Worker) (idx : Nat) (w : World),
      kids.length - idx ≤ n → fr.stage = Stage.atRange idx →
      (∀ k, w0.seenUrls.isSeen k = true → w.seenUrls.isSeen k = true) →
      Inv f w0 w (Worker.mk fr kids) → (∀ k, k ∈ kids → Norm f k) →
      ∃ ps, ∀ b, Quiet f b ps (Worker.mk fr kids) w ∧
        (Worker.runs f b ps (Worker.mk fr kids) w).1.prune f = (Worker.mk fr kids).prune f ∧
        (Worker.runs f b ps (Worker.mk fr kids) w).2.seenUrls = w.seenUrls ∧
        Norm f (Worker.runs f b ps (Worker.mk fr kids) w).1 := by
  induction n with
  | zero =>
    intro fr kids idx w hn hst _ _ hkn
    refine ⟨[], fun b => ⟨trivial, rfl, rfl, Norm.mk _ _ ?_ hkn⟩⟩
    intro i c _ hc
    have := (List.getElem?_eq_some.mp hc).1
    rcases ‹fr.stage = Stage.atRange i ∨ ∃ v, fr.stage = Stage.atRelay i v› with h | ⟨v, h⟩
    · rw [hst] at h; cases h; omega
    · rw [hst] at h; cases h
  | succ n ih =>
    intro fr kids idx w hn hst hg hinv hkn
    have hdone : (∀ c, kids[idx]? = some c → fetchOk f c.fr.url = true) →
        ∃ ps, ∀ b, Quiet f b ps (Worker.mk fr kids) w ∧
        (Worker.runs f b ps (Worker.mk fr kids) w).1.prune f = (Worker.mk fr kids).prune f ∧
        (Worker.runs f b ps (Worker.mk fr kids) w).2.seenUrls = w.seenUrls ∧
        Norm f (Worker.runs f b ps (Worker.mk fr kids) w).1 := by
      intro hlive
      refine ⟨[], fun b => ⟨trivial, rfl, rfl, Norm.mk _ _ ?_ hkn⟩⟩
      intro i c hi hc
      rcases hi with h | ⟨v, h⟩
      · rw [hst] at h; cases h; exact hlive c hc
      · rw [hst] at h; cases h
    cases hc : kids[idx]? with
    | none => exact hdone (fun c h => by rw [hc] at h; cases h)
    | some c =>
      by_cases hl : fetchOk f c.fr.url = true
      · exact hdone (fun d h => by rw [hc] at h; cases h; exact hl)
      · have hl' : fetchOk f c.fr.url = false := by simpa using hl
        have hlen : idx < kids.length := (List.getElem?_eq_some.mp hc).1
        have hci := hinv.kid c (List.getElem?_mem hc)
        have hflag : decide (fr.stage = Stage.atRange idx) = true := by simp [hst]
        -- the worker of the failing link takes its step, if it has one left
        obtain ⟨hv, hs1⟩ := dead_step f w0 w [] true c hci hl'
        have hret := dead_act f w0 w true c hci hl'
        have hc1u := (step_effect f [] true c w).url
        have hstep1 : ∀ b, Worker.step f [idx] b (Worker.mk fr kids) w =
            (Worker.mk fr (kids.set idx (Worker.step f [] true c w).1),
              (Worker.step f [] true c w).2.1, none) := by
          intro b
          have := step_quiet f idx [] b fr kids w c hc (by rw [hflag]; exact hv)
          rw [hflag] at this
          exact this
        have hinv1 := step_inv f w0 [idx] true (Worker.mk fr kids) w hg hinv
        rw [hstep1 true] at hinv1
        generalize hc1 : (Worker.step f [] true c w).1 = c1 at hstep1 hinv1 hret hc1u
        generalize hw1 : (Worker.step f [] true c w).2.1 = w1 at hstep1 hinv1 hs1
        simp only at hinv1
        have hg1 : ∀ k, w0.seenUrls.isSeen k = true → w1.seenUrls.isSeen k = true := by
          intro k hk; rw [hs1]; exact hg k hk
        have hget1 : (kids.set idx c1)[idx]? = some c1 := by
          rw [List.getElem?_set_self hlen]
        -- the worker that waits on its channel goes on to the next channel
        have hstep2 : ∀ b, Worker.step f [] b (Worker.mk fr (kids.set idx c1)) w1 =
            (Worker.mk (fr.goto (Stage.atRange (idx + 1))) (kids.set idx c1), w1, none) := by
          intro b
          rw [step_nil]
          simp [Worker.act, hst, hget1, hret]
        have hinv2 := step_inv f w0 [] true (Worker.mk fr (kids.set idx c1)) w1 hg1 hinv1
        rw [hstep2 true] at hinv2
        simp only at hinv2
        have hkn1 : ∀ k, k ∈ kids.set idx c1 → Norm f k := by
          intro k hk
          rcases List.mem_or_eq_of_mem_set hk with hk | hk
          · exact hkn k hk
          · rw [hk]
            exact dead_norm f w0 w1 c1 (hinv1.kid c1 (List.getElem?_mem hget1))
              (by rw [hc1u]; exact hl')
        obtain ⟨ps, hps⟩ := ih (fr.goto (Stage.atRange (idx + 1))) (kids.set idx c1) (idx + 1)
          w1 (by simp only [List.length_set]; omega) rfl hg1 hinv2 hkn1
        refine ⟨[idx] :: [] :: ps, fun b => ?_⟩
        obtain ⟨q1, q2, q3, q4⟩ := hps b
        simp only [Quiet, Worker.runs, hstep1 b, hstep2 b]
        refine ⟨⟨trivial, trivial, q1⟩, ?_, ?_, q4⟩
        · rw [q2]
          simp only [prune_mk, prune_set_dead f kids idx c c1 hc hl' hc1u]
          congr 1
          have hn := liveBefore_succ f kids idx c hc
          simp [Frame.prune, Frame.goto, Stage.shift, hst,
            liveBefore_set f kids idx _ c c1 hc hc1u, hn, hl']
        · rw [q3, hs1]

theorem Norm.sub {f : Fetcher} {fr : Frame} {kids : List Worker}
    (h : Norm f (Worker.mk fr kids)) : ∀ k, k ∈ kids → Norm f k := by
  cases h with
  | mk _ _ _ hk => exact hk

theorem Norm.live {f : Fetcher} {fr : Frame} {kids : List Worker}
    (h : Norm f (Worker.mk fr kids)) : ∀ (i : Nat) (c : Worker),
      (fr.stage = Stage.atRange i ∨ ∃ v, fr.stage = Stage.atRelay i v) →
      kids[i]? = some c → fetchOk f c.fr.url = true := by
  cases h with
  | mk _ _ hl _ => exact hl

theorem fresh_norm (f : Fetcher) (u : String) (d : Int) : Norm f (Worker.fresh u d) :=
  Norm.mk _ _ (fun i c _ hc => by simp at hc) (fun k hk => by simp at hk)

theorem act_sim_eq (f : Fetcher) (b : Bool) (fr : Frame) (kids : List Worker)
    (wf wg : World) (hw : wg.seenUrls = wf.seenUrls)
    (hn : ∀ i c, fr.stage = Stage.atRange i → kids[i]? = some c →
      fetchOk f c.fr.url = true) :
    (Worker.act (pruneFailed f) b (fr.prune f kids) (pruneAll f kids) wg).1 =
        (Worker.act f b fr kids wf).1.prune f ∧
      (Worker.act (pruneFailed f) b (fr.prune f kids) (pruneAll f kids) wg).2.1.seenUrls =
        (Worker.act f b fr kids wf).2.1.seenUrls ∧
      (Worker.act (pruneFailed f) b (fr.prune f kids) (pruneAll f kids) wg).2.2 =
        (Worker.act f b fr kids wf).2.2 := by
  cases hst : fr.stage with
  | atFetch =>
    simp only [Worker.act, Frame.prune, hst, Stage.shift]
    by_cases hd : fr.depth ≤ 0
    · simp [hd, Worker.prune, Frame.prune, Stage.shift, Frame.goto, hw]
    · cases he : f fr.url with
      | error e =>
        simp [hd, prune_error f _ e he, Worker.prune, Frame.prune, Stage.shift, Frame.goto, hw]
      | ok r =>
        obtain ⟨body, urls⟩ := r
        simp [hd, prune_ok f _ body urls he, Worker.prune, Frame.prune, Stage.shift, hw]
  | atIsSeen =>
    simp only [Worker.act, Frame.prune, hst, Stage.shift, hw]
    by_cases hs : wf.seenUrls.isSeen fr.url = true
    · simp [hs, Worker.prune, Frame.prune, Stage.shift, Frame.goto, hw]
    · simp [hs, Worker.prune, Frame.prune, Stage.shift, Frame.goto, hw]
  | atSeen =>
    simp [Worker.prune, Worker.act, Frame.prune, hst, Stage.shift, hw, Frame.goto]
  | atSend =>
    cases b <;>
      simp [Worker.prune, Worker.act, Frame.prune, hst, Stage.shift, hw, Frame.push]
  | atSpawn =>
    simp [Worker.prune, Worker.act, Frame.prune, hst, Stage.shift, hw,
      Frame.goto, pruneAll_fresh, liveBefore_zero]
  | atRange i =>
    cases hc : kids[i]? with
    | none =>
      have hg : (pruneAll f kids)[liveBefore f kids i]? = none := by
        rw [liveBefore_end f kids i hc]
        simp
      simp [Worker.prune, Worker.act, Frame.prune, hst, Stage.shift, hw,
        Frame.goto, hc, hg]
    | some c =>
      have hl := hn i c hst hc
      have hg := prune_get f kids i c hc hl
      by_cases hr : c.fr.stage = Stage.returned
      · have hr' : (c.prune f).fr.stage = Stage.returned := (prune_returned f c).mpr hr
        have hn' := liveBefore_succ f kids i c hc
        simp [Worker.prune, Worker.act, Frame.prune, hst, Stage.shift, hw,
          Frame.goto, hc, hg, hr, hr', hn', hl]
      · have hr' : ¬ (c.prune f).fr.stage = Stage.returned :=
          fun h => hr ((prune_returned f c).mp h)
        simp [Worker.prune, Worker.act, Frame.prune, hst, Stage.shift, hw, hc, hg, hr, hr']
  | atRelay i u =>
    cases b <;>
      simp [Worker.prune, Worker.act, Frame.prune, hst, Stage.shift, hw, Frame.push]
  | returned =>
    simp [Worker.prune, Worker.act, Frame.prune, hst, Stage.shift, hw]

theorem act_kids_norm (f : Fetcher) (b : Bool) (fr : Frame) (kids : List Worker) (w : World)
    (h : ∀ k, k ∈ kids → Norm f k) :
    ∀ k, k ∈ (Worker.act f b fr kids w).1.kids → Norm f k := by
  intro k hk
  cases hst : fr.stage with
  | atFetch =>
    simp only [Worker.act, hst] at hk
    by_cases hd : fr.depth ≤ 0
    · simp [hd] at hk; exact h k hk
    · cases he : f fr.url with
      | error e => simp [hd, he] at hk; exact h k hk
      | ok r => simp [hd, he] at hk; exact h k hk
  | atIsSeen =>
    simp only [Worker.act, hst] at hk
    by_cases hs : w.seenUrls.isSeen fr.url = true
    · simp [hs] at hk; exact h k hk
    · simp [hs] at hk; exact h k hk
  | atSeen => simp [Worker.act, hst] at hk; exact h k hk
  | atSend => cases b <;> (simp [Worker.act, hst] at hk; exact h k hk)
  | atSpawn =>
    simp only [Worker.act, hst, Worker.kids_mk] at hk
    obtain ⟨u, _, rfl⟩ := List.mem_map.mp hk
    exact fresh_norm f u _
  | atRange i =>
    simp only [Worker.act, hst] at hk
    cases hc : kids[i]? with
    | none => simp [hc] at hk; exact h k hk
    | some c =>
      by_cases hr : c.fr.stage = Stage.returned
      · simp [hc, hr] at hk; exact h k hk
      · simp [hc, hr] at hk; exact h k hk
  | atRelay i u => cases b <;> (simp [Worker.act, hst] at hk; exact h k hk)
  | returned => simp [Worker.act, hst] at hk; exact h k hk

theorem act_norm_hand (f : Fetcher) (b : Bool) (fr : Frame) (kids : List Worker) (w : World)
    (h : Norm f (Worker.mk fr kids)) (hv : (Worker.act f b fr kids w).2.2 ≠ none) :
    Norm f (Worker.act f b fr kids w).1 := by
  cases hst : fr.stage with
  | atFetch =>
    exfalso; apply hv
    simp only [Worker.act, hst]
    by_cases hd : fr.depth ≤ 0
    · simp [hd]
    · cases he : f fr.url <;> simp [hd]
  | atIsSeen =>
    exfalso; apply hv
    simp only [Worker.act, hst]
    by_cases hs : w.seenUrls.isSeen fr.url = true <;> simp [hs]
  | atSeen => exfalso; apply hv; simp [Worker.act, hst]
  | atSend =>
    cases b with
    | false => exfalso; apply hv; simp [Worker.act, hst]
    | true =>
      simp only [Worker.act, hst, if_true]
      refine Norm.mk _ _ ?_ h.sub
      intro i c hi
      rcases hi with hi | ⟨v, hi⟩ <;> simp at hi
  | atSpawn => exfalso; apply hv; simp [Worker.act, hst]
  | atRange i =>
    exfalso; apply hv
    simp only [Worker.act, hst]
    cases hc : kids[i]? with
    | none => simp
    | some c => by_cases hr : c.fr.stage = Stage.returned <;> simp [hr]
  | atRelay i u =>
    cases b with
    | false => exfalso; apply hv; simp [Worker.act, hst]
    | true =>
      simp only [Worker.act, hst, if_true]
      refine Norm.mk _ _ ?_ h.sub
      intro j c hj hc
      rcases hj with hj | ⟨v, hj⟩
      · simp only [Frame.push_stage, Stage.atRange.injEq] at hj
        subst hj
        exact h.live i c (Or.inr ⟨u, hst⟩) hc
      · simp at hj
  | returned => exfalso; apply hv; simp [Worker.act, hst]

theorem act_norm_other (f : Fetcher) (b : Bool) (fr : Frame) (kids : List Worker) (w : World)
    (h : Norm f (Worker.mk fr kids))
    (hne : ∀ idx, (Worker.act f b fr kids w).1.fr.stage ≠ Stage.atRange idx) :
    Norm f (Worker.act f b fr kids w).1 := by
  have hk := act_kids_norm f b fr kids w h.sub
  generalize hr : Worker.act f b fr kids w = r at hk hne ⊢
  cases hx : r.1 with
  | mk fr1 kids1 =>
    rw [hx] at hk hne
    simp only [Worker.kids_mk, Worker.fr_mk] at hk hne
    refine Norm.mk _ _ ?_ hk
    intro i c hi hc
    rcases hi with hi | ⟨v, hi⟩
    · exact absurd hi (hne i)
    · -- only a worker that stood at its relay before stands there now
      have hold : fr.stage = Stage.atRelay i v ∧ kids1 = kids := by
        have hx' : (Worker.act f b fr kids w).1 = Worker.mk fr1 kids1 := by rw [hr, hx]
        cases hst : fr.stage with
        | atFetch =>
          simp only [Worker.act, hst] at hx'
          by_cases hd : fr.depth ≤ 0
          · simp [hd] at hx'; rw [← hx'.1] at hi; simp at hi
          · cases he : f fr.url with
            | error e => simp [hd, he] at hx'; rw [← hx'.1] at hi; simp at hi
            | ok r' => simp [hd, he] at hx'; rw [← hx'.1] at hi; simp at hi
        | atIsSeen =>
          simp only [Worker.act, hst] at hx'
          by_cases hs : w.seenUrls.isSeen fr.url = true
          · simp [hs] at hx'; rw [← hx'.1] at hi; simp at hi
          · simp [hs] at hx'; rw [← hx'.1] at hi; simp at hi
        | atSeen => simp [Worker.act, hst] at hx'; rw [← hx'.1] at hi; simp at hi
        | atSend =>
          cases b <;> simp [Worker.act, hst] at hx' <;> rw [← hx'.1] at hi
          · rw [hst] at hi; cases hi
          · simp at hi
        | atSpawn => simp [Worker.act, hst] at hx'; rw [← hx'.1] at hi; simp at hi
        | atRange j =>
          simp only [Worker.act, hst] at hx'
          cases hcj : kids[j]? with
          | none => simp [hcj] at hx'; rw [← hx'.1] at hi; simp at hi
          | some d =>
            by_cases hrd : d.fr.stage = Stage.returned
            · simp [hcj, hrd] at hx'; rw [← hx'.1] at hi; simp at hi
            · simp [hcj, hrd] at hx'; rw [← hx'.1] at hi; rw [hst] at hi; cases hi
        | atRelay j u =>
          cases b <;> simp [Worker.act, hst] at hx'
          · rw [← hx'.1] at hi
            rw [hst] at hi
            cases hi
            exact ⟨rfl, hx'.2.symm⟩
          · rw [← hx'.1] at hi; simp at hi
        | returned =>
          simp [Worker.act, hst] at hx'; rw [← hx'.1] at hi; rw [hst] at hi; cases hi
      rw [hold.2] at hc
      exact h.live i c (Or.inr ⟨v, hold.1⟩) hc

theorem flag_eq (f : Fetcher) (fr : Frame) (kids : List Worker) (i : Nat) (c : Worker)
    (hn : Norm f (Worker.mk fr kids)) (hc : kids[i]? = some c)
    (hl : fetchOk f c.fr.url = true) :
    decide ((fr.prune f kids).stage = Stage.atRange (liveBefore f kids i)) =
      decide (fr.stage = Stage.atRange i) := by
  by_cases h : fr.stage = Stage.atRange i
  · simp [Frame.prune, h, Stage.shift]
  · have : ¬ (fr.prune f kids).stage = Stage.atRange (liveBefore f kids i) := by
      intro hs
      cases hst : fr.stage with
      | atRange i0 =>
        simp only [Frame.prune, hst, Stage.shift, Stage.atRange.injEq] at hs
        have := live_index_unique f kids i i0 c hc hl
          (fun d hd => hn.live i0 d (Or.inl hst) hd) hs
        rw [this] at hst
        exact h hst
      | atFetch => simp [Frame.prune, hst, Stage.shift] at hs
      | atIsSeen => simp [Frame.prune, hst, Stage.shift] at hs
      | atSeen => simp [Frame.prune, hst, Stage.shift] at hs
      | atSend => simp [Frame.prune, hst, Stage.shift] at hs
      | atSpawn => simp [Frame.prune, hst, Stage.shift] at hs
      | atRelay i0 u => simp [Frame.prune, hst, Stage.shift] at hs
      | returned => simp [Frame.prune, hst, Stage.shift] at hs
    simp [h, this]

theorem sim_gf (f : Fetcher) (w0 : World) (q : List Nat) :
    ∀ (b : Bool) (x : Worker) (wf wg : World),
      (∀ k, w0.seenUrls.isSeen k = true → wf.seenUrls.isSeen k = true) →
      Inv f w0 wf x → Norm f x → wg.seenUrls = wf.seenUrls →
      ∃ (p : List Nat) (ps : List (List Nat)),
        (Worker.step f p b x wf).2.2 = (Worker.step (pruneFailed f) q b (x.prune f) wg).2.2 ∧
        ((Worker.step f p b x wf).2.2 ≠ none → ps = []) ∧
        ∀ b', Quiet f b' ps (Worker.step f p b x wf).1 (Worker.step f p b x wf).2.1 ∧
          (Worker.runs f b' ps (Worker.step f p b x wf).1
              (Worker.step f p b x wf).2.1).1.prune f =
            (Worker.step (pruneFailed f) q b (x.prune f) wg).1 ∧
          (Worker.runs f b' ps (Worker.step f p b x wf).1
              (Worker.step f p b x wf).2.1).2.seenUrls =
            (Worker.step (pruneFailed f) q b (x.prune f) wg).2.1.seenUrls ∧
          Norm f (Worker.runs f b' ps (Worker.step f p b x wf).1
              (Worker.step f p b x wf).2.1).1 := by
  induction q with
  | nil =>
    intro b x wf wg hg hinv hn hw
    cases x with
    | mk fr kids =>
      have hsim := act_sim_eq f b fr kids wf wg hw (fun i c hi hc => hn.live i c (Or.inl hi) hc)
      have hinv1 := step_inv f w0 [] b (Worker.mk fr kids) wf hg hinv
      have hg1 := step_seen_grow f w0 [] b (Worker.mk fr kids) wf hg
      have hk1 := act_kids_norm f b fr kids wf hn.sub
      have hh := act_norm_hand f b fr kids wf hn
      have ho := act_norm_other f b fr kids wf hn
      refine ⟨[], ?_⟩
      simp only [prune_mk, step_nil] at hinv1 hg1 ⊢
      obtain ⟨s1, s2, s3⟩ := hsim
      generalize Worker.act f b fr kids wf = r at hinv1 hg1 hk1 hh ho s1 s2 s3 ⊢
      generalize Worker.act (pruneFailed f) b (fr.prune f kids) (pruneAll f kids) wg = rg
        at s1 s2 s3 ⊢
      by_cases hv : r.2.2 = none
      · by_cases hs : ∃ idx, r.1.fr.stage = Stage.atRange idx
        · obtain ⟨idx, hs⟩ := hs
          cases hx : r.1 with
          | mk fr1 kids1 =>
            rw [hx] at hinv1 hk1 hs
            obtain ⟨ps, hps⟩ := skip_dead f w0 (kids1.length - idx) fr1 kids1 idx r.2.1
              (le_refl _) hs hg1 hinv1 hk1
            refine ⟨ps, s3.symm, fun h => absurd hv h, fun b' => ?_⟩
            obtain ⟨q1, q2, q3, q4⟩ := hps b'
            refine ⟨q1, ?_, ?_, q4⟩
            · rw [q2, ← hx, s1]
            · rw [q3, s2]
        · refine ⟨[], s3.symm, fun _ => rfl, fun b' => ⟨trivial, s1.symm, s2.symm, ?_⟩⟩
          exact ho (fun idx h => hs ⟨idx, h⟩)
      · exact ⟨[], s3.symm, fun _ => rfl, fun b' => ⟨trivial, s1.symm, s2.symm, hh hv⟩⟩
  | cons j q ih =>
    intro b x wf wg hg hinv hn hw
    cases x with
    | mk fr kids =>
      rw [prune_mk]
      cases hy : (pruneAll f kids)[j]? with
      | none =>
        refine ⟨[kids.length], [], ?_⟩
        rw [step_miss (pruneFailed f) j q b _ _ wg hy,
          step_miss f kids.length [] b fr kids wf (by simp)]
        exact ⟨rfl, fun _ => rfl, fun b' => ⟨trivial, prune_mk f fr kids, hw.symm, hn⟩⟩
      | some y =>
        obtain ⟨i, c, hc, hl, hcy, hij⟩ := prune_find f kids j y hy
        subst hij
        subst hcy
        have hlen : i < kids.length := (List.getElem?_eq_some.mp hc).1
        have hflag := flag_eq f fr kids i c hn hc hl
        obtain ⟨p, ps, h1, h2, h3⟩ := ih (decide (fr.stage = Stage.atRange i)) c wf wg hg
          (hinv.kid c (List.getElem?_mem hc)) (hn.sub c (List.getElem?_mem hc)) hw
        have e := step_effect f p (decide (fr.stage = Stage.atRange i)) c wf
        have hg' : (Worker.step (pruneFailed f) q
            (decide ((fr.prune f kids).stage = Stage.atRange (liveBefore f kids i)))
            (c.prune f) wg) =
            Worker.step (pruneFailed f) q (decide (fr.stage = Stage.atRange i))
              (c.prune f) wg := by rw [hflag]
        cases hv : (Worker.step f p (decide (fr.stage = Stage.atRange i)) c wf).2.2 with
        | none =>
          have hvg : (Worker.step (pruneFailed f) q
              (decide ((fr.prune f kids).stage = Stage.atRange (liveBefore f kids i)))
              (c.prune f) wg).2.2 = none := by rw [hg', ← h1, hv]
          refine ⟨i :: p, ps.map (fun p' => i :: p'), ?_⟩
          rw [step_quiet f i p b fr kids wf c hc hv,
            step_quiet (pruneFailed f) _ q b _ _ wg _ hy hvg, hg']
          refine ⟨rfl, fun h => absurd rfl h, fun b' => ?_⟩
          obtain ⟨q1, q2, q3, q4⟩ := h3 (decide (fr.stage = Stage.atRange i))
          have hget : (kids.set i
              (Worker.step f p (decide (fr.stage = Stage.atRange i)) c wf).1)[i]? =
              some (Worker.step f p (decide (fr.stage = Stage.atRange i)) c wf).1 := by
            rw [List.getElem?_set_self hlen]
          obtain ⟨l1, l2⟩ := runs_lift f b' fr i ps _ _ _ hget q1
          have hzu : (Worker.runs f (decide (fr.stage = Stage.atRange i)) ps
              (Worker.step f p (decide (fr.stage = Stage.atRange i)) c wf).1
              (Worker.step f p (decide (fr.stage = Stage.atRange i)) c wf).2.1).1.fr.url =
              c.fr.url := by
            rw [runs_url]; exact e.url
          refine ⟨l1, ?_, ?_, ?_⟩
          · rw [l2, List.set_set]
            simp only [prune_mk]
            rw [frame_prune_set f kids i c _ fr hc hzu,
              prune_set_live f kids i c _ hc hl hzu, q2]
          · rw [l2]; exact q3
          · rw [l2, List.set_set]
            refine Norm.mk _ _ ?_ ?_
            · intro i0 c0 hi0 hc0
              rcases getElem?_set_cases hc0 with ⟨_, e2⟩ | ⟨_, e2⟩
              · rw [e2, hzu]; exact hl
              · exact hn.live i0 c0 hi0 e2
            · intro k hk
              rcases List.mem_or_eq_of_mem_set hk with hk | hk
              · exact hn.sub k hk
              · rw [hk]; exact q4
        | some v =>
          have hvg : (Worker.step (pruneFailed f) q
              (decide ((fr.prune f kids).stage = Stage.atRange (liveBefore f kids i)))
              (c.prune f) wg).2.2 = some v := by rw [hg', ← h1, hv]
          have hps : ps = [] := h2 (by rw [hv]; simp)
          subst hps
          refine ⟨i :: p, [], ?_⟩
          rw [step_hand f i p b fr kids wf c v hc hv,
            step_hand (pruneFailed f) _ q b _ _ wg _ v hy hvg, hg']
          refine ⟨rfl, fun _ => rfl, fun b' => ?_⟩
          obtain ⟨_, q2, q3, q4⟩ := h3 (decide (fr.stage = Stage.atRange i))
          simp only [Worker.runs] at q2 q3 q4 ⊢
          refine ⟨trivial, ?_, q3, ?_⟩
          · simp only [prune_mk, prune_set_live f kids i c _ hc hl e.url, q2]
            congr 1
            simp [Frame.prune, Frame.goto, Stage.shift,
              liveBefore_set f kids i _ c _ hc e.url]
          · refine Norm.mk _ _ ?_ ?_
            · intro i0 c0 hi0 hc0
              rcases hi0 with hi0 | ⟨u, hi0⟩
              · simp at hi0
              · simp only [Frame.goto_stage, Stage.atRelay.injEq] at hi0
                rcases getElem?_set_cases hc0 with ⟨_, e2⟩ | ⟨e1, _⟩
                · rw [e2, e.url]; exact hl
                · exact absurd hi0.1.symm e1
            · intro k hk
              rcases List.mem_or_eq_of_mem_set hk with hk | hk
              · exact hn.sub k hk
              · rw [hk]; exact q4

/-! ### the crawl under `f` and under `pruneFailed f` -/

theorem run_cons (f : Fetcher) (p : List Nat) (ps : List (List Nat)) (s : Sys) :
    Sys.run f (p :: ps) s = Sys.run f ps (Sys.step f s p) := rfl

theorem runs_sys (f : Fetcher) (ps : List (List Nat)) :
    ∀ s : Sys, Sys.run f ps s =
      ⟨(Worker.runs f true ps s.root s.world).1, (Worker.runs f true ps s.root s.world).2⟩ := by
  induction ps with
  | nil => intro s; rfl
  | cons p ps ih =>
    intro s
    rw [run_cons, ih]
    rfl

theorem pruned_out (f : Fetcher) (s t : Sys) (h : Pruned f s t) :
    t.out = s.out ∧ t.finished = s.finished ∧ t.world.seenUrls = s.world.seenUrls := by
  obtain ⟨h1, h2⟩ := h
  refine ⟨?_, ?_, h2⟩
  · simp only [Sys.out, h1, prune_fr, Frame.prune]
  · simp only [Sys.finished, h1]
    exact decide_eq_decide.mpr (prune_returned f s.root)

theorem run_fg (f : Fetcher) (url : String) (depth : Int) (w0 : World)
    (sched : List (List Nat)) :
    ∀ s t, Good f url depth w0 s → Pruned f s t →
      ∃ sched', Pruned f (Sys.run f sched s) (Sys.run (pruneFailed f) sched' t) := by
  induction sched with
  | nil => intro s t _ h; exact ⟨[], h⟩
  | cons p ps ih =>
    intro s t hgood h
    obtain ⟨h1, h2⟩ := h
    obtain ⟨q, e1, e2, _⟩ := sim_fg f w0 p true true s.root s.world t.world hgood.inv
      (fun hh => hh) h2
    rw [← h1] at e1 e2
    cases q with
    | none =>
      obtain ⟨r, hr⟩ := ih (Sys.step f s p) t (step_good f url depth w0 s p hgood)
        ⟨e1, e2⟩
      exact ⟨r, hr⟩
    | some q =>
      obtain ⟨r, hr⟩ := ih (Sys.step f s p) (Sys.step (pruneFailed f) t q)
        (step_good f url depth w0 s p hgood) ⟨e1, e2⟩
      exact ⟨q :: r, hr⟩

theorem run_gf (f : Fetcher) (url : String) (depth : Int) (w0 : World)
    (sched' : List (List Nat)) :
    ∀ s t, Good f url depth w0 s → Norm f s.root → Pruned f s t →
      ∃ sched, Pruned f (Sys.run f sched s) (Sys.run (pruneFailed f) sched' t) := by
  induction sched' with
  | nil => intro s t _ _ h; exact ⟨[], h⟩
  | cons q qs ih =>
    intro s t hgood hn h
    obtain ⟨h1, h2⟩ := h
    obtain ⟨p, ps, _, _, h3⟩ := sim_gf f w0 q true s.root s.world t.world hgood.grow
      hgood.inv hn h2
    obtain ⟨_, e1, e2, e3⟩ := h3 true
    rw [← h1] at e1 e2
    have hs : Sys.run f (p :: ps) s =
        ⟨(Worker.runs f true ps (Worker.step f p true s.root s.world).1
            (Worker.step f p true s.root s.world).2.1).1,
          (Worker.runs f true ps (Worker.step f p true s.root s.world).1
            (Worker.step f p true s.root s.world).2.1).2⟩ := by
      rw [run_cons, runs_sys]
      rfl
    have hgood' : Good f url depth w0 (Sys.run f (p :: ps) s) :=
      run_good f url depth w0 (p :: ps) s hgood
    obtain ⟨r, hr⟩ := ih (Sys.run f (p :: ps) s) (Sys.step (pruneFailed f) t q) hgood'
      (by rw [hs]; exact e3) (by rw [hs]; exact ⟨e1.symm, e2.symm⟩)
    refine ⟨(p :: ps) ++ r, ?_⟩
    rw [run_append, run_cons (pruneFailed f)]
    exact hr

theorem init_pruned (f : Fetcher) (url : String) (depth : Int) (w0 : World) :
    Pruned f (Sys.init url depth w0) (Sys.init url depth w0) :=
  ⟨(prune_fresh f url depth).symm, rfl⟩

/-- C8: a link whose fetch fails has no effect on what the crawl emits. With
`pruneFailed f` the fetcher `f` with the failing links deleted from every link
list, every run of the crawl under `f` is matched by a run under
`pruneFailed f`, and every run under `pruneFailed f` by a run under `f`, that
has emitted the same sequence of URLs, has ended or not alike, and has marked
the same URLs as visited: for every starting URL, depth and initial visited
set the sequences the crawl can emit are the same under both. -/
theorem C8_failed_links_no_effect (f : Fetcher) (url : String) (depth : Int) (w0 : World) :
    (∀ sched, ∃ sched',
      (Sys.run (pruneFailed f) sched' (Sys.init url depth w0)).out =
          (Sys.run f sched (Sys.init url depth w0)).out ∧
        (Sys.run (pruneFailed f) sched' (Sys.init url depth w0)).finished =
          (Sys.run f sched (Sys.init url depth w0)).finished ∧
        (Sys.run (pruneFailed f) sched' (Sys.init url depth w0)).world.seenUrls =
          (Sys.run f sched (Sys.init url depth w0)).world.seenUrls) ∧
    (∀ sched', ∃ sched,
      (Sys.run (pruneFailed f) sched' (Sys.init url depth w0)).out =
          (Sys.run f sched (Sys.init url depth w0)).out ∧
        (Sys.run (pruneFailed f) sched' (Sys.init url depth w0)).finished =
          (Sys.run f sched (Sys.init url depth w0)).finished ∧
        (Sys.run (pruneFailed f) sched' (Sys.init url depth w0)).world.seenUrls =
          (Sys.run f sched (Sys.init url depth w0)).world.seenUrls) := by
  constructor
  · intro sched
    obtain ⟨r, hr⟩ := run_fg f url depth w0 sched _ _ (init_good f url depth w0)
      (init_pruned f url depth w0)
    exact ⟨r, pruned_out f _ _ hr⟩
  · intro sched'
    obtain ⟨r, hr⟩ := run_gf f url depth w0 sched' _ _ (init_good f url depth w0)
      (fresh_norm f url depth) (init_pruned f url depth w0)
    exact ⟨r, pruned_out f _ _ hr⟩

end GoTour
